import Mathlib

/-!
# Symbol handling of the IMCC front end (`compilers/imcc/symreg.c`)

A shallow embedding of the symbol hash, the symbol registry, the namespace
stack and the key-chain builder of `symreg.c`, followed by theorems about
them.

## Representation

* A `SymReg *` is a `Ptr` (an index into the heap `mem : List SymReg`);
  `calloc` appends a record to the heap and returns its index.
* The intrusive bucket link `SymReg::next` is not a field of the record:
  a bucket of `SymHash::data` is the list of the pointers on its chain,
  head first.  `r->next = data[i]; data[i] = r` is `r :: data[i]`.
  (The C code only ever stores freshly allocated symbols, each once.)
  The link of a symbol is read off its bucket by `chain_next`.
* `char *` names are `String`s; `strcmp(a, b) == 0` is `a = b`, `strlen`
  is `String.length`.  Names are taken to be ASCII, as in the sources the
  compiler reads.
* `int` fields are unbounded (`Int`, and `Nat` for the use counters, which
  only count up from zero), bit sets are `Nat` with the bitwise operators;
  `unsigned` arithmetic in `hash_str` wraps explicitly, and the `int` that
  `atoi` returns is brought into 32 bits explicitly.
* Reading through a pointer that is not allocated yields the zeroed
  record; the theorems assume allocated pointers where it matters.
* `IMCC_fataly` and `abort` do not return: a function that can reach one
  yields `Except.error` with the diagnostic, next to the state it leaves.
-/

deriving instance DecidableEq for Except

namespace Imcc

/-- An address of a `SymReg` on the heap. -/
abbrev Ptr := Nat

/-! ## Constants of `symreg.h` -/

/-- Modelled from the spec: the `VARTYPE` category bits of `symreg.h`
(the header is not part of the sources at hand); the categories of §3 are
distinct bits of one bit set.  `VTCONST`: constant. -/
def VTCONST : Nat := 1 <<< 0
/-- Modelled from the spec: `VARTYPE` bit, register. -/
def VTREG : Nat := 1 <<< 1
/-- Modelled from the spec: `VARTYPE` bit, identifier. -/
def VTIDENTIFIER : Nat := 1 <<< 2
/-- Modelled from the spec: `VARTYPE` bit, address (label or sub). -/
def VTADDRESS : Nat := 1 <<< 3
/-- Modelled from the spec: `VARTYPE` bit, key chain holding a register. -/
def VTREGKEY : Nat := 1 <<< 4
/-- Modelled from the spec: `VARTYPE` bit, machine (PASM) register. -/
def VTPASM : Nat := 1 <<< 5
/-- Modelled from the spec: `VARTYPE` bit, pointer to a constant. -/
def VT_CONSTP : Nat := 1 <<< 6
/-- Modelled from the spec: `VARTYPE` bit, PCC subroutine. -/
def VT_PCC_SUB : Nat := 1 <<< 7
/-- Modelled from the spec: `VARTYPE` flag `:flat`. -/
def VT_FLAT : Nat := 1 <<< 8
/-- Modelled from the spec: `VARTYPE` flag `:optional`. -/
def VT_OPTIONAL : Nat := 1 <<< 9
/-- Modelled from the spec: slice marker, start of a slice. -/
def VT_START_SLICE : Nat := 1 <<< 10
/-- Modelled from the spec: slice marker, end of a slice. -/
def VT_END_SLICE : Nat := 1 <<< 11
/-- Modelled from the spec: slice marker, slice starting at zero. -/
def VT_START_ZERO : Nat := 1 <<< 12
/-- Modelled from the spec: slice marker, open-ended slice. -/
def VT_END_INF : Nat := 1 <<< 13
/-- Modelled from the spec: the union of the four slice markers. -/
def VT_SLICE_BITS : Nat := VT_START_SLICE ||| VT_END_SLICE ||| VT_START_ZERO ||| VT_END_INF
/-- Modelled from the spec: `VARTYPE` flag, encoded string constant. -/
def VT_ENCODED : Nat := 1 <<< 16
/-- Modelled from the spec: `VARTYPE` flag `:opt_flag`. -/
def VT_OPT_FLAG : Nat := 1 <<< 17
/-- Modelled from the spec: `VARTYPE` flag `:named`. -/
def VT_NAMED : Nat := 1 <<< 18
/-- Modelled from the spec: the categories that need register allocation
(`REG_NEEDS_ALLOC` tests `type & VTREGISTER`). -/
def VTREGISTER : Nat := VTREG ||| VTIDENTIFIER ||| VTREGKEY ||| VTPASM

/-- Modelled from the spec: `USAGE` flag, the symbol needs a fixup. -/
def U_FIXUP : Nat := 1 <<< 5
/-- Modelled from the spec: `USAGE` flag, the symbol is non-volatile. -/
def U_NON_VOLATILE : Nat := 1 <<< 6

/-- Modelled from the spec: uniqueness policy add-once; it is the policy
for which `if (uniq)` is false (§4.2: no use-count increment). -/
def U_add_once : Int := 0
/-- Modelled from the spec: uniqueness policy add-unique-label. -/
def U_add_uniq_label : Int := 1
/-- Modelled from the spec: uniqueness policy add-unique-sub. -/
def U_add_uniq_sub : Int := 2
/-- Modelled from the spec: uniqueness policy add-all. -/
def U_add_all : Int := 3

/-! ## Data model -/

/-- The record `pcc_sub_t`: the counts `nargs`, `nret`, `nmulti` are the
lengths of the lists.  It is owned by one PCC sub symbol (§3) and held in
the record of that symbol. -/
structure pcc_sub_t where
  args : List Ptr := []
  arg_flags : List Nat := []
  ret : List Ptr := []
  ret_flags : List Nat := []
  multi : List (Option Ptr) := []
  sub : Option Ptr := none
  cc : Option Ptr := none
  deriving DecidableEq, Repr

/-- The record `SymReg`, without its bucket link `next` (see the header). -/
structure SymReg where
  name : String := ""
  type : Nat := 0
  usage : Nat := 0
  set : Int := 0
  want_regno : Int := 0
  color : Int := 0
  use_count : Nat := 0
  lhs_use_count : Nat := 0
  nextkey : Option Ptr := none
  reg : Option Ptr := none
  pcc_sub : Option pcc_sub_t := none
  pmc_type : Int := 0
  deriving DecidableEq, Repr

/-- The record `SymHash`: bucket array, its size and the entry count. -/
structure SymHash where
  data : List (List Ptr) := []
  size : Nat := 0
  entries : Nat := 0
  deriving DecidableEq, Repr

/-- The symbol a pointer refers to (`*p`). -/
def deref (mem : List SymReg) (p : Ptr) : SymReg :=
  mem.getD p {}

/-- The chain hanging off bucket `i` (`hsh->data[i]`, followed along `next`). -/
def SymHash.bucket (hsh : SymHash) (i : Nat) : List Ptr :=
  hsh.data.getD i []

/-! ## The symbol hash -/

/-- Source `hash_str`: `key = key * 65599 + *s` in `unsigned long`,
returned as `unsigned int`. -/
def hash_str (str : String) : Nat :=
  (str.data.foldl (fun key s => (key * 65599 + s.toNat) % 2 ^ 64) 0) % 2 ^ 32

/-- Source `create_symhash`: sixteen empty buckets, no entries. -/
def create_symhash : SymHash :=
  { data := List.replicate 16 [], size := 16, entries := 0 }

/-- The two statements `r->next = data[i]; data[i] = r` on a bucket array. -/
def push_bucket (data : List (List Ptr)) (i : Nat) (r : Ptr) : List (List Ptr) :=
  data.set i (r :: data.getD i [])

/-- Source `resize_symhash`: for each old bucket in index order the chain
is first copied to `next_r` (head first) and then every element is
prepended to its bucket of the new array, which has twice the size. -/
def resize_symhash (mem : List SymReg) (hsh : SymHash) : SymHash :=
  let new_size := hsh.size <<< 1
  let nh_data := (List.range hsh.size).foldl
    (fun nh i =>
      let next_r := hsh.bucket i
      next_r.foldl
        (fun nh r => push_bucket nh (hash_str (deref mem r).name % new_size) r) nh)
    (List.replicate new_size [])
  { hsh with data := nh_data, size := new_size }

/-- Source `_store_symreg`: prepend to the bucket, count the entry, resize
once the count reaches the size. -/
def _store_symreg (mem : List SymReg) (hsh : SymHash) (r : Ptr) : SymHash :=
  let i := hash_str (deref mem r).name % hsh.size
  let hsh := { hsh with data := push_bucket hsh.data i r, entries := hsh.entries + 1 }
  if hsh.entries ≥ hsh.size then resize_symhash mem hsh else hsh

/-- Source `_get_sym`: first symbol on the bucket chain with that name. -/
def _get_sym (mem : List SymReg) (hsh : SymHash) (name : String) : Option Ptr :=
  let i := hash_str name % hsh.size
  (hsh.bucket i).find? (fun p => name = (deref mem p).name)

/-- Source `_get_sym_typed`: first symbol on the bucket chain with that
name and that value kind. -/
def _get_sym_typed (mem : List SymReg) (hsh : SymHash) (name : String) (t : Int) :
    Option Ptr :=
  let i := hash_str name % hsh.size
  (hsh.bucket i).find? (fun p => name = (deref mem p).name ∧ t = (deref mem p).set)

/-- The record that `_mk_symreg` fills in after `calloc`. -/
def new_symreg (name : String) (t : Int) : SymReg :=
  { set := t, type := VTREG, name := name, color := -1, want_regno := -1 }

/-- Source `_mk_symreg`: the symbol found by the typed lookup, or else a
new register symbol, stored in the table.  Yields the symbol, the heap and
the table. -/
def _mk_symreg (mem : List SymReg) (hsh : SymHash) (name : String) (t : Int) :
    Ptr × List SymReg × SymHash :=
  match _get_sym_typed mem hsh name t with
  | some r => (r, mem, hsh)
  | none =>
    let r := mem.length
    let mem := mem ++ [new_symreg name t]
    (r, mem, _store_symreg mem hsh r)

/-! ## Addresses and labels -/

/-- The double quote character. -/
def dquote : Char := Char.ofNat 34

/-- Library `strstr`: offset of the first occurrence of `needle` in `hay`,
if there is one. -/
def strstr : List Char → List Char → Option Nat
  | [], needle => if needle.isEmpty then some 0 else none
  | c :: cs, needle =>
    if needle.isPrefixOf (c :: cs) then some 0
    else (strstr cs needle).map (· + 1)

/-- The loop `while (p) { p[0] = p[1] = p[2] = '@'; p = strstr(ns_name, "\";\")"); }`
of `add_ns`, run for at most `fuel` rounds. -/
def add_ns_loop : Nat → List Char → Option Nat → List Char
  | 0, ns_name, _ => ns_name
  | _ + 1, ns_name, none => ns_name
  | fuel + 1, ns_name, some p =>
    let ns_name := ((ns_name.set p '@').set (p + 1) '@').set (p + 2) '@'
    add_ns_loop fuel ns_name (strstr ns_name [dquote, ';', dquote, ')'])

/-- Source `add_ns`: the name unchanged without a current namespace or
with one whose name has at most two characters; else the namespace name
with its first character overwritten by an underscore and its last
character cut off, then `@@@`, then the name, then the replacement loop
(which cannot run more often than the buffer is long). -/
def add_ns (mem : List SymReg) (cur_namespace : Option Ptr) (name : String) : String :=
  match cur_namespace with
  | none => name
  | some ns =>
    let l := (deref mem ns).name.length
    if l ≤ 2 then name
    else
      let ns_name := ((deref mem ns).name.data.set 0 '_').take (l - 1)
      let ns_name := ns_name ++ ['@', '@', '@'] ++ name.data
      String.mk (add_ns_loop ns_name.length ns_name (strstr ns_name [dquote, ';', dquote]))

/-- The test `uniq && r && r->type == VTADDRESS && r->lhs_use_count` of
`_mk_address`, on the result `r` of `_get_sym`. -/
def already_defined (mem : List SymReg) (r : Option Ptr) (uniq : Int) : Bool :=
  match r with
  | some r => uniq ≠ 0 ∧ (deref mem r).type = VTADDRESS ∧ (deref mem r).lhs_use_count ≠ 0
  | none => false

/-- The last statements of `_mk_address`:
`r->type = VTADDRESS; if (uniq) r->lhs_use_count++;`. -/
def mark_address (mem : List SymReg) (r : Ptr) (uniq : Int) : List SymReg :=
  let mem := mem.set r { deref mem r with type := VTADDRESS }
  if uniq ≠ 0 then
    mem.set r { deref mem r with lhs_use_count := (deref mem r).lhs_use_count + 1 }
  else mem

/-- Source `_mk_address`.  Yields the symbol or the diagnostic of
`IMCC_fataly`, next to the heap and the table it leaves. -/
def _mk_address (mem : List SymReg) (cur_namespace : Option Ptr) (hsh : SymHash)
    (name : String) (uniq : Int) : Except String Ptr × List SymReg × SymHash :=
  if uniq = U_add_all then
    let r := mem.length
    let mem := mem ++ [{ type := VTADDRESS, name := name }]
    (.ok r, mem, _store_symreg mem hsh r)
  else
    let name := if uniq = U_add_uniq_sub then add_ns mem cur_namespace name else name
    let r := _get_sym mem hsh name
    if already_defined mem r uniq ∧ uniq = U_add_uniq_label then
      (.error ("Label '" ++ name ++ "' already defined\n"), mem, hsh)
    else if already_defined mem r uniq ∧ uniq = U_add_uniq_sub then
      (.error ("Subroutine '" ++ name ++ "' already defined\n"), mem, hsh)
    else
      match _mk_symreg mem hsh name 0 with
      | (r, mem, hsh) => (.ok r, mark_address mem r uniq, hsh)

/-! ## The namespace stack -/

/-- The record `Namespace`; `parent` is the rest of the stack, `idents`
the chain of the full names declared in the frame, newest first. -/
structure Namespace where
  name : String
  idents : List String := []
  deriving DecidableEq, Repr

/-- Source `push_namespace`, on the global `_namespace` (top first). -/
def push_namespace (_namespace : List Namespace) (name : String) : List Namespace :=
  { name := name, idents := [] } :: _namespace

/-- Source `pop_namespace`: `abort()` on an empty stack or when a name is
given that is not the name of the top frame; else the identifiers of the
top frame and the frame itself are freed and its parent becomes the top.
Yields the outcome and the stack it leaves. -/
def pop_namespace (_namespace : List Namespace) (name : Option String) :
    Except String Unit × List Namespace :=
  match _namespace with
  | [] => (.error "pop() on empty namespace stack\n", [])
  | ns :: parent =>
    match name with
    | some n =>
      if n ≠ ns.name then
        (.error ("tried to pop namespace(" ++ n ++ "), but top of stack is namespace("
          ++ ns.name ++ ")\n"), ns :: parent)
      else (.ok (), parent)
    | none => (.ok (), parent)

/-- Source `_mk_fullname`. -/
def _mk_fullname (ns : Option Namespace) (name : String) : String :=
  match ns with
  | none => name
  | some ns => ns.name ++ "::" ++ name

/-! ## The compiler state -/

/-- The part of `IMC_Unit` that the symbol functions use: its hash. -/
structure IMC_Unit where
  hash : SymHash := {}
  deriving DecidableEq, Repr

/-- The heap and the fields of `IMCC_INFO(interp)` that the symbol
functions use; `cur_unit` and `last_unit` index `units`. -/
structure Interp where
  mem : List SymReg := []
  ghash : SymHash := {}
  units : List IMC_Unit := []
  cur_unit : Option Nat := none
  last_unit : Option Nat := none
  cur_namespace : Option Ptr := none
  cur_pmc_type : Int := 0
  deriving DecidableEq, Repr

/-- The hash `unit->hash` of the unit a unit pointer refers to. -/
def Interp.unit_hash (st : Interp) (unit : Option Nat) : SymHash :=
  match unit with
  | some u => (st.units.getD u {}).hash
  | none => {}

/-- Assignment to `unit->hash`. -/
def Interp.set_unit_hash (st : Interp) (unit : Option Nat) (hsh : SymHash) : Interp :=
  match unit with
  | some u => { st with units := st.units.set u { st.units.getD u {} with hash := hsh } }
  | none => st

/-- Source `mk_symreg`: `_mk_symreg` on the hash of `last_unit`. -/
def mk_symreg (st : Interp) (name : String) (t : Int) : Ptr × Interp :=
  match _mk_symreg st.mem (st.unit_hash st.last_unit) name t with
  | (r, mem, hsh) => (r, { st with mem := mem }.set_unit_hash st.last_unit hsh)

/-- Source `mk_ident`, on the global `_namespace` and the compiler state. -/
def mk_ident (_namespace : List Namespace) (st : Interp) (name : String) (t : Int) :
    Ptr × List Namespace × Interp :=
  let fullname := _mk_fullname _namespace.head? name
  let _namespace :=
    match _namespace with
    | [] => []
    | ns :: parent => { ns with idents := fullname :: ns.idents } :: parent
  match mk_symreg st fullname t with
  | (r, st) =>
    let st := { st with mem := st.mem.set r { deref st.mem r with type := VTIDENTIFIER } }
    let st :=
      if t = 80 then
        { st with mem := st.mem.set r { deref st.mem r with pmc_type := st.cur_pmc_type },
                  cur_pmc_type := 0 }
      else st
    (r, _namespace, st)

/-! ## Key chains -/

/-- Source `dup_sym`: a new record holding a copy of every field. -/
def dup_sym (mem : List SymReg) (r : Ptr) : Ptr × List SymReg :=
  (mem.length, mem ++ [deref mem r])

/-- Modelled from the spec: the macro `REG_NEEDS_ALLOC(r)` of `symreg.h`,
true of a register that needs allocation and false of a compile-time
constant (§4.4): the test `r->type & VTREGISTER`. -/
def REG_NEEDS_ALLOC (mem : List SymReg) (r : Ptr) : Bool :=
  (deref mem r).type &&& VTREGISTER ≠ 0

/-- The loop of `link_keys` that builds `key_str`: each name, and a `;`
after every name but the last. -/
def link_keys_str (mem : List SymReg) (nargs : Nat) (keys : List Ptr) : String :=
  keys.enum.foldl
    (fun key_str ik =>
      let key_str := key_str ++ (deref mem ik.2).name
      if ik.1 + 1 < nargs then key_str ++ ";" else key_str)
    ""

/-- One round of the loop of `link_keys` that copies the components; the
state is the heap and `key`, the last link of the chain so far. -/
def link_keys_step (keychain : Ptr) (s : List SymReg × Ptr) (k : Ptr) : List SymReg × Ptr :=
  let mem := s.1
  let key := s.2
  let mem :=
    if REG_NEEDS_ALLOC mem k then
      mem.set keychain { deref mem keychain with type := (deref mem keychain).type ||| VTREGKEY }
    else mem
  match dup_sym mem k with
  | (d, mem) =>
    let mem := mem.set key { deref mem key with nextkey := some d }
    let key := d
    let mem :=
      if REG_NEEDS_ALLOC mem k then mem.set key { deref mem key with reg := some k }
      else mem
    (mem, key)

/-- Source `link_keys`; `nargs` is the length of `keys`.  Yields the chain
or the diagnostic of `IMCC_fataly`, next to the state it leaves. -/
def link_keys (st : Interp) (keys : List Ptr) (force : Int) : Except String Ptr × Interp :=
  let nargs := keys.length
  let h := match st.cur_unit with
    | some u => st.unit_hash (some u)
    | none => st.ghash
  if nargs = 0 then (.error "link_keys: hu? no keys\n", st)
  else
    let keys0 := keys.headD 0
    if nargs = 1 ∧ force = 0 ∧ (deref st.mem keys0).type &&& VT_SLICE_BITS = 0 then
      (.ok keys0, st)
    else
      let any_slice := keys.any (fun k => (deref st.mem k).type &&& VT_SLICE_BITS ≠ 0)
      let mem :=
        if any_slice ∧ (deref st.mem keys0).type &&& VT_SLICE_BITS = 0 then
          st.mem.set keys0 { deref st.mem keys0 with
            type := (deref st.mem keys0).type ||| (VT_START_SLICE ||| VT_END_SLICE) }
        else st.mem
      let key_str := link_keys_str mem nargs keys
      match (if any_slice then none else _get_sym mem h key_str) with
      | some keychain => (.ok keychain, { st with mem := mem })
      | none =>
        let keychain := mem.length
        let mem := mem ++ [{ type := VTCONST, use_count := 1 }]
        let mem := (keys.foldl (link_keys_step keychain) (mem, keychain)).1
        let mem := mem.set keychain { deref mem keychain with name := key_str, set := 75, color := -1 }
        let h := _store_symreg mem h keychain
        let st := { st with mem := mem }
        (.ok keychain,
          match st.cur_unit with
          | some u => st.set_unit_hash (some u) h
          | none => { st with ghash := h })

/-! ## PCC metadata -/

/-- The operation `x & ~m` on flag sets: the bits of `m` cleared, every
other bit of `x` kept. -/
def and_not (x m : Nat) : Nat :=
  x ^^^ (x &&& m)

/-- Source `mk_pcc_sub`: `_mk_symreg` on the hash of `last_unit`, then the
type `VT_PCC_SUB` and a zeroed `pcc_sub_t`. -/
def mk_pcc_sub (st : Interp) (name : String) (proto : Int) : Ptr × Interp :=
  match _mk_symreg st.mem (st.unit_hash st.last_unit) name proto with
  | (r, mem, hsh) =>
    let mem := mem.set r { deref mem r with type := VT_PCC_SUB, pcc_sub := some {} }
    (r, { st with mem := mem }.set_unit_hash st.last_unit hsh)

/-- Source `add_pcc_arg`: `args[n] = arg`, `arg_flags[n] = arg->type`,
the four call flags cleared in `arg->type`, `nargs++`.  Both arrays hold
`nargs` elements, so the assignments at index `n` append.  (On a symbol
without `pcc_sub` the C code dereferences a null pointer; the heap is then
left as it is.) -/
def add_pcc_arg (mem : List SymReg) (r arg : Ptr) : List SymReg :=
  match (deref mem r).pcc_sub with
  | none => mem
  | some ps =>
    let mem := mem.set r { deref mem r with
      pcc_sub := some { ps with
        args := ps.args ++ [arg], arg_flags := ps.arg_flags ++ [(deref mem arg).type] } }
    mem.set arg { deref mem arg with
      type := and_not (deref mem arg).type (VT_FLAT ||| VT_OPTIONAL ||| VT_OPT_FLAG ||| VT_NAMED) }

/-- Source `add_pcc_result`: as `add_pcc_arg`, on `ret` and `ret_flags`. -/
def add_pcc_result (mem : List SymReg) (r arg : Ptr) : List SymReg :=
  match (deref mem r).pcc_sub with
  | none => mem
  | some ps =>
    let mem := mem.set r { deref mem r with
      pcc_sub := some { ps with
        ret := ps.ret ++ [arg], ret_flags := ps.ret_flags ++ [(deref mem arg).type] } }
    mem.set arg { deref mem arg with
      type := and_not (deref mem arg).type (VT_FLAT ||| VT_OPTIONAL ||| VT_OPT_FLAG ||| VT_NAMED) }

/-- Source `add_pcc_multi`: `multi[n] = arg; nmulti++`, where `arg` may be
null. -/
def add_pcc_multi (mem : List SymReg) (r : Ptr) (arg : Option Ptr) : List SymReg :=
  match (deref mem r).pcc_sub with
  | none => mem
  | some ps => mem.set r { deref mem r with pcc_sub := some { ps with multi := ps.multi ++ [arg] } }

/-! ## Full names and constants -/

/-- Source `mk_fullname`: `_mk_fullname` on the top of the global
`_namespace`. -/
def mk_fullname (_namespace : List Namespace) (name : String) : String :=
  _mk_fullname _namespace.head? name

/-- Source `_mk_const`: the symbol of `_mk_symreg`, made a constant; for
the kind `U` (85) the kind becomes `S` (83) and `VT_ENCODED` is set; the
use count goes up by one. -/
def _mk_const (mem : List SymReg) (hsh : SymHash) (name : String) (t : Int) :
    Ptr × List SymReg × SymHash :=
  match _mk_symreg mem hsh name t with
  | (r, mem, hsh) =>
    let mem := mem.set r { deref mem r with type := VTCONST }
    let mem :=
      if t = 85 then
        mem.set r { deref mem r with set := 83, type := (deref mem r).type ||| VT_ENCODED }
      else mem
    let mem := mem.set r { deref mem r with use_count := (deref mem r).use_count + 1 }
    (r, mem, hsh)

/-! ## Machine registers, constant identifiers, scoped lookup -/

/-- Library `isspace` in the C locale. -/
def isspace (c : Char) : Bool :=
  c.toNat = 32 ∨ (9 ≤ c.toNat ∧ c.toNat ≤ 13)

/-- The number that the decimal digits at the start of a string denote;
`strtol` brings it into the range of `long`. -/
def decimal_digits (s : List Char) : Nat :=
  (s.takeWhile Char.isDigit).foldl (fun n c => n * 10 + (c.toNat - 48)) 0

/-- The number that a string denotes for `strtol` in base 10: white space
is skipped, one sign is read, then the decimal digits up to the first
other character; without a digit the number is 0. -/
def decimal_value (s : List Char) : Int :=
  match s.dropWhile isspace with
  | '-' :: ds => -(decimal_digits ds : Int)
  | '+' :: ds => (decimal_digits ds : Int)
  | ds => (decimal_digits ds : Int)

/-- Library `LONG_MIN` of a 64-bit `long`. -/
def LONG_MIN : Int := -(2 ^ 63)

/-- Library `LONG_MAX` of a 64-bit `long`. -/
def LONG_MAX : Int := 2 ^ 63 - 1

/-- Library `strtol(s, NULL, 10)` with a 64-bit `long`: the number the
string denotes, or `LONG_MIN` or `LONG_MAX` when that number is out of
the range of `long`. -/
def strtol (s : List Char) : Int :=
  if decimal_value s < LONG_MIN then LONG_MIN
  else if LONG_MAX < decimal_value s then LONG_MAX
  else decimal_value s

/-- Library `atoi`, which is `(int) strtol(s, NULL, 10)`: the conversion
to the 32-bit `int` keeps the low 32 bits, in two's complement.  For a
number in the range of `int` this is the number itself; beyond that range
the C standard leaves `atoi` undefined and this is what the library does. -/
def atoi (s : List Char) : Int :=
  (strtol s + 2 ^ 31) % 2 ^ 32 - 2 ^ 31

/-- Source `mk_pasm_reg`: the symbol of that name in the hash of the
current unit, or else a new one made by `mk_symreg` with the first
character as its kind, the type `VTPASM` and the number after the first
character as its color; a negative color is reported. -/
def mk_pasm_reg (st : Interp) (name : String) : Except String Ptr × Interp :=
  match _get_sym st.mem (st.unit_hash st.cur_unit) name with
  | some r => (.ok r, st)
  | none =>
    match mk_symreg st name (name.data.headD (Char.ofNat 0)).toNat with
    | (r, st) =>
      let st := { st with mem := st.mem.set r { deref st.mem r with type := VTPASM } }
      let st := { st with
        mem := st.mem.set r { deref st.mem r with color := atoi (name.data.drop 1) } }
      if (deref st.mem r).color < 0 then
        (.error ("register number out of range '" ++ name ++ "'\n"), st)
      else (.ok r, st)

/-- Modelled from the spec: what `mk_pmc_const_2` takes from outside
`symreg.c`: the instruction emitter `INS` (an external collaborator, §6,
here any function of the state, the opcode and the operands), the flag
`pasm_file` of the parser state, and the class numbers of `Sub` and
`Coroutine`. -/
structure Extern where
  INS : Interp → String → List Ptr → Interp
  pasm_file : Bool
  enum_class_Sub : Int
  enum_class_Coroutine : Int

/-- Source `mk_pmc_const_2`: the delimiters are stripped from the name of
`rhs`, which becomes a PMC constant of the type of `left`; a sub or
coroutine gets a fixup; `set_p_pc` is emitted; the result is null. -/
def mk_pmc_const_2 (ext : Extern) (st : Interp) (left rhs : Ptr) :
    Except String (Option Ptr) × Interp :=
  if ext.pasm_file then (.error "Ident as PMC constant", st)
  else
    let name := String.mk ((deref st.mem rhs).name.data.drop 1).dropLast
    let st := { st with mem := st.mem.set rhs { deref st.mem rhs with name := name } }
    let st := { st with mem := st.mem.set rhs { deref st.mem rhs with set := 80 } }
    let st := { st with
      mem := st.mem.set rhs { deref st.mem rhs with pmc_type := (deref st.mem left).pmc_type } }
    if (deref st.mem rhs).pmc_type = ext.enum_class_Sub
        ∨ (deref st.mem rhs).pmc_type = ext.enum_class_Coroutine then
      let st := { st with mem := st.mem.set rhs { deref st.mem rhs with usage := U_FIXUP } }
      (.ok none, ext.INS st "set_p_pc" [left, rhs])
    else (.ok none, ext.INS st "set_p_pc" [left, rhs])

/-- The last statements of `mk_const_ident`:
`r->type = VT_CONSTP; r->reg = val;`. -/
def const_pointer (mem : List SymReg) (r val : Ptr) : List SymReg :=
  (mem.set r { deref mem r with type := VT_CONSTP }).set r
    { deref (mem.set r { deref mem r with type := VT_CONSTP }) r with reg := some val }

/-- Source `mk_const_ident`, on the global `_namespace` and the compiler
state; the kinds are `N` (78), `I` (73), `S` (83) and `P` (80).  Yields
the symbol (null for a PMC constant) or the diagnostic, next to the stack
and the state it leaves. -/
def mk_const_ident (ext : Extern) (_namespace : List Namespace) (st : Interp) (name : String)
    (t : Int) (val : Ptr) (global : Int) :
    Except String (Option Ptr) × List Namespace × Interp :=
  if (t = 78 ∨ t = 73) ∧ (deref st.mem val).set = 83 then
    (.error "bad const initialisation", _namespace, st)
  else
    let st :=
      if t = 78 ∨ t = 73 then
        { st with mem := st.mem.set val { deref st.mem val with set := t } }
      else st
    if global ≠ 0 then
      if t = 80 then (.error "global PMC constant not allowed", _namespace, st)
      else
        match _mk_symreg st.mem st.ghash name t with
        | (r, mem, hsh) =>
          (.ok (some r), _namespace, { st with mem := const_pointer mem r val, ghash := hsh })
    else if t = 80 then
      match mk_ident _namespace st name t with
      | (r, _namespace, st) =>
        ((mk_pmc_const_2 ext st r val).1, _namespace, (mk_pmc_const_2 ext st r val).2)
    else
      match mk_ident _namespace st name t with
      | (r, _namespace, st) =>
        (.ok (some r), _namespace, { st with mem := const_pointer st.mem r val })

/-- Source `_find_sym`: the full name under each frame from `nspace`
outward, then the plain name, all in `hsh`; then the plain name in the
global hash. -/
def _find_sym (st : Interp) : List Namespace → SymHash → String → Option Ptr
  | ns :: parent, hsh, name =>
    match _get_sym st.mem hsh (_mk_fullname (some ns) name) with
    | some p => some p
    | none => _find_sym st parent hsh name
  | [], hsh, name =>
    match _get_sym st.mem hsh name with
    | some p => some p
    | none => _get_sym st.mem st.ghash name

/-- Source `find_sym`: `_find_sym` from the top of `_namespace` in the
hash of the current unit; null without a current unit. -/
def find_sym (_namespace : List Namespace) (st : Interp) (name : String) : Option Ptr :=
  match st.cur_unit with
  | some u => _find_sym st _namespace (st.unit_hash (some u)) name
  | none => none

/-! ## Notions used by the statements -/

/-- The symbols held by a table: those on the chain of some bucket
`i < size`, bucket after bucket. -/
def SymHash.syms (hsh : SymHash) : List Ptr :=
  (List.range hsh.size).flatMap hsh.bucket

/-- A sequence of `_store_symreg` calls on one table, first to last. -/
def stores (mem : List SymReg) (hsh : SymHash) (rs : List Ptr) : SymHash :=
  rs.foldl (_store_symreg mem) hsh

/-- A sequence of `_store_symreg` calls on one table, each on the heap of
its time. -/
def store_calls (hsh : SymHash) (calls : List (List SymReg × Ptr)) : SymHash :=
  calls.foldl (fun hsh c => _store_symreg c.1 hsh c.2) hsh

/-- The table as `_store_symreg` leaves it before it looks at the size. -/
def pushed (mem : List SymReg) (hsh : SymHash) (r : Ptr) : SymHash :=
  { hsh with
    data := push_bucket hsh.data (hash_str (deref mem r).name % hsh.size) r,
    entries := hsh.entries + 1 }

/-- A heap of sixteen integer registers; the first and the last are both
named `x`. -/
def lifo_mem : List SymReg :=
  ["x", "a", "b", "c", "d", "e", "f", "g", "h", "i", "j", "k", "l", "m", "n", "x"].map
    (fun s => { name := s, set := 73, type := VTREG, color := -1, want_regno := -1 })

/-- The shape of a table in use: a positive size, and as many buckets. -/
def SymHash.wf (hsh : SymHash) : Prop :=
  0 < hsh.size ∧ hsh.data.length = hsh.size

/-- Bucket invariant: every symbol of the table sits in the bucket that
its name hashes to. -/
def bucket_inv (mem : List SymReg) (hsh : SymHash) : Prop :=
  ∀ i, i < hsh.size → ∀ p ∈ hsh.bucket i, hash_str (deref mem p).name % hsh.size = i

/-- Every symbol of the table is allocated. -/
def allocated (mem : List SymReg) (hsh : SymHash) : Prop :=
  ∀ p ∈ hsh.syms, p < mem.length

instance (hsh : SymHash) : Decidable hsh.wf := by
  unfold SymHash.wf; infer_instance

instance (mem : List SymReg) (hsh : SymHash) : Decidable (bucket_inv mem hsh) := by
  unfold bucket_inv; infer_instance

instance (mem : List SymReg) (hsh : SymHash) : Decidable (allocated mem hsh) := by
  unfold allocated; infer_instance

/-- A sequence of `mk_ident` calls, first to last, on the namespace stack
and the compiler state. -/
def mk_idents (_namespace : List Namespace) (st : Interp) (ids : List (String × Int)) :
    List Namespace × Interp :=
  ids.foldl (fun s id => (mk_ident s.1 s.2 id.1 id.2).2) (_namespace, st)

/-- The table `link_keys` works on: the hash of the current unit, or the
global hash when there is no current unit. -/
def Interp.key_hash (st : Interp) : SymHash :=
  match st.cur_unit with
  | some u => st.unit_hash (some u)
  | none => st.ghash

/-- Assignment to the table `link_keys` works on. -/
def Interp.set_key_hash (st : Interp) (hsh : SymHash) : Interp :=
  match st.cur_unit with
  | some u => st.set_unit_hash (some u) hsh
  | none => { st with ghash := hsh }

/-- The current unit, if there is one, is a unit of the compiler state. -/
def Interp.cur_unit_ok (st : Interp) : Prop :=
  ∀ u, st.cur_unit = some u → u < st.units.length

/-- Some component carries a slice marker (`any_slice` of `link_keys`). -/
def any_slice (mem : List SymReg) (keys : List Ptr) : Bool :=
  keys.any (fun k => (deref mem k).type &&& VT_SLICE_BITS ≠ 0)

/-- The heap after the slice test of `link_keys`: the first component
gains the markers for the start and the end of a slice when some
component carries a slice marker and the first carries none. -/
def slice_heap (mem : List SymReg) (keys : List Ptr) : List SymReg :=
  if any_slice mem keys ∧ (deref mem (keys.headD 0)).type &&& VT_SLICE_BITS = 0 then
    mem.set (keys.headD 0) { deref mem (keys.headD 0) with
      type := (deref mem (keys.headD 0)).type ||| (VT_START_SLICE ||| VT_END_SLICE) }
  else mem

/-- The record `link_keys` allocates for a new chain head. -/
def new_keychain : SymReg :=
  { type := VTCONST, use_count := 1 }

/-- The heap after `link_keys` has built a new chain for `keys` on the
heap `mem`: the head at `mem.length`, the copies behind it, and the name,
kind and color of the head filled in. -/
def chain_heap (mem : List SymReg) (keys : List Ptr) (key_str : String) : List SymReg :=
  (keys.foldl (link_keys_step mem.length) (mem ++ [new_keychain], mem.length)).1.set mem.length
    { deref (keys.foldl (link_keys_step mem.length) (mem ++ [new_keychain], mem.length)).1
        mem.length with
      name := key_str, set := 75, color := -1 }

/-- The condition under which `link_keys` returns its only component. -/
def short_circuit (mem : List SymReg) (keys : List Ptr) (force : Int) : Prop :=
  keys.length = 1 ∧ force = 0 ∧ (deref mem (keys.headD 0)).type &&& VT_SLICE_BITS = 0

instance (mem : List SymReg) (keys : List Ptr) (force : Int) :
    Decidable (short_circuit mem keys force) := by
  unfold short_circuit; infer_instance

instance (st : Interp) : Decidable st.cur_unit_ok := by
  unfold Interp.cur_unit_ok
  cases h : st.cur_unit with
  | none => exact isTrue (fun u hu => by cases hu)
  | some v =>
    by_cases hv : v < st.units.length
    · exact isTrue (fun u hu => by cases hu; exact hv)
    · exact isFalse (fun hall => hv (hall v rfl))

/-- A compiler state without units: two constants `a` and `b` on the
heap, the global hash empty. -/
def two_keys : Interp :=
  { mem := [{ name := "a", type := VTCONST, set := 83 }, { name := "b", type := VTCONST, set := 83 }],
    ghash := create_symhash }

/-- A compiler state without units: a constant `a` marked as the start of
a slice and a constant `b` on the heap, the global hash empty. -/
def slice_keys : Interp :=
  { mem := [{ name := "a", type := VTCONST ||| VT_START_SLICE, set := 83 },
      { name := "b", type := VTCONST, set := 83 }],
    ghash := create_symhash }

/-- A heap with a PCC sub `s` and a register `x` flagged `:flat` and
`:named`. -/
def pcc_heap : List SymReg :=
  [{ name := "s", type := VT_PCC_SUB, pcc_sub := some {} },
    { name := "x", type := VTREG ||| VT_FLAT ||| VT_NAMED, set := 80 }]

/-- A compiler state with one unit, which is the last unit; its hash and
the heap are empty. -/
def one_unit : Interp :=
  { units := [{ hash := create_symhash }], last_unit := some 0, cur_unit := some 0 }

/-- The compiler state with another heap. -/
def Interp.with_mem (st : Interp) (mem : List SymReg) : Interp :=
  { st with mem := mem }

/-- The name `link_keys` gives the chain for `keys`. -/
def key_name (mem : List SymReg) (keys : List Ptr) : String :=
  link_keys_str (slice_heap mem keys) keys.length keys

/-- The state `link_keys` leaves when it has built and stored a new
chain. -/
def built_state (st : Interp) (keys : List Ptr) : Interp :=
  (st.with_mem (chain_heap (slice_heap st.mem keys) keys (key_name st.mem keys))).set_key_hash
    (_store_symreg (chain_heap (slice_heap st.mem keys) keys (key_name st.mem keys))
      st.key_hash (slice_heap st.mem keys).length)

/-- The identifier `x` of kind `t` made inside the namespace `p`, pushed
on the empty stack: the symbol, the stack and the state after `mk_ident`. -/
def ident_inside (st : Interp) (p x : String) (t : Int) : Ptr × List Namespace × Interp :=
  mk_ident (push_namespace [] p) st x t

/-- The identifier `x` of kind `t` made again after the namespace `p` has
been popped: the symbol, the stack and the state after the second
`mk_ident`. -/
def ident_outside (st : Interp) (p x : String) (t : Int) : Ptr × List Namespace × Interp :=
  mk_ident (pop_namespace (ident_inside st p x t).2.1 (some p)).2 (ident_inside st p x t).2.2 x t

/-- The first hit of a sequence of lookups, in order. -/
def first_hit : List (Option Ptr) → Option Ptr
  | [] => none
  | some p :: _ => some p
  | none :: rest => first_hit rest

/-- The lookups of the scoped lookup, in the order the spec gives: the
full name under each frame from the given one outward, then the plain
name, all in the given table; then the plain name in the global table. -/
def scoped_lookups (st : Interp) (nspace : List Namespace) (hsh : SymHash) (name : String) :
    List (Option Ptr) :=
  nspace.map (fun frame => _get_sym st.mem hsh (frame.name ++ "::" ++ name))
    ++ [_get_sym st.mem hsh name, _get_sym st.mem st.ghash name]

/-- An external environment for `mk_const_ident`: no instruction is
emitted, the source is not a PASM file. -/
def no_extern : Extern :=
  { INS := fun st _ _ => st, pasm_file := false, enum_class_Sub := 1, enum_class_Coroutine := 2 }

/-- A compiler state with one empty unit and a string constant on the
heap. -/
def string_value : Interp :=
  { mem := [{ name := "\"abc\"", type := VTCONST, set := 83, use_count := 1 }],
    ghash := create_symhash,
    units := [{ hash := create_symhash }], last_unit := some 0, cur_unit := some 0 }

/-- The quoted separator `";"` that `add_ns` looks for first. -/
def quoted_separator : List Char :=
  [dquote, ';', dquote]

/-- A heap whose only symbol is a namespace of three parts, rendered
`"Foo";"Bar";"Baz"`. -/
def three_parts : List SymReg :=
  [{ name := "\"Foo\";\"Bar\";\"Baz\"", type := VTCONST, set := 83 }]

/-- A heap whose only symbol is a namespace of one part, rendered
`"Foo"`. -/
def one_part : List SymReg :=
  [{ name := "\"Foo\"", type := VTCONST, set := 83 }]

/-- The symbols reached from `p` by following `nextkey`, `p` first, at
most `fuel` of them. -/
def nextkey_chain (mem : List SymReg) : Nat → Option Ptr → List Ptr
  | 0, _ => []
  | _ + 1, none => []
  | fuel + 1, some p => p :: nextkey_chain mem fuel (deref mem p).nextkey

/-- The condition under which `link_keys` builds a new chain: there are
components, it does not return its only component, and it does not find
the chain in the table. -/
def builds_chain (st : Interp) (keys : List Ptr) (force : Int) : Prop :=
  keys ≠ [] ∧ ¬ short_circuit st.mem keys force ∧
  (if any_slice st.mem keys then none
   else _get_sym (slice_heap st.mem keys) st.key_hash (key_name st.mem keys)) = none

instance (st : Interp) (keys : List Ptr) (force : Int) :
    Decidable (builds_chain st keys force) := by
  unfold builds_chain; infer_instance

/-- The state after `link_keys` has built the chain of the constants `a`
and `b` of `two_keys`: the head is symbol 2, the copies are 3 and 4. -/
def chained_keys : Interp :=
  (link_keys two_keys [0, 1] 0).2

/-- A compiler state without units: a register `x` and a constant `b` on
the heap, the global hash empty. -/
def reg_keys : Interp :=
  { mem := [{ name := "x", type := VTREG, set := 73 }, { name := "b", type := VTCONST, set := 83 }],
    ghash := create_symhash }

/-- A compiler state without units: a constant `a` and a constant `b`
marked as the end of a slice on the heap, the global hash empty. -/
def end_slice_keys : Interp :=
  { mem := [{ name := "a", type := VTCONST, set := 83 },
      { name := "b", type := VTCONST ||| VT_END_SLICE, set := 83 }],
    ghash := create_symhash }

/-- The sequence the loop of `add_ns` searches for after each replacement,
as the source spells it. -/
def loop_separator : List Char :=
  [dquote, ';', dquote, ')']

/-- The buffer after the body `p[0] = '@'; p[1] = '@'; p[2] = '@'` of the
loop of `add_ns`. -/
def overwrite (ns_name : List Char) (p : Nat) : List Char :=
  ((ns_name.set p '@').set (p + 1) '@').set (p + 2) '@'

/-- One round of the loop of `add_ns` on the buffer and `p`: nothing once
`p` is null, else the three characters overwritten and the search
repeated from the start of the buffer. -/
def add_ns_round (s : List Char × Option Nat) : List Char × Option Nat :=
  match s.2 with
  | none => s
  | some p => (overwrite s.1 p, strstr (overwrite s.1 p) loop_separator)

/-- The buffer `add_ns` fills before its loop: the namespace name with its
first character overwritten and its last cut off, `@@@`, the name. -/
def add_ns_buffer (mem : List SymReg) (ns : Ptr) (name : String) : List Char :=
  ((deref mem ns).name.data.set 0 '_').take ((deref mem ns).name.length - 1)
    ++ ['@', '@', '@'] ++ name.data

/-- A table in use on a heap: a positive size with as many buckets, every
symbol allocated, and every symbol in the bucket its name hashes to. -/
def table_inv (mem : List SymReg) (hsh : SymHash) : Prop :=
  hsh.wf ∧ allocated mem hsh ∧ bucket_inv mem hsh

instance (mem : List SymReg) (hsh : SymHash) : Decidable (table_inv mem hsh) := by
  unfold table_inv; infer_instance

/-- The heap `m2` extends the heap `m1` and keeps the name of every
record of `m1`. -/
def keeps_names (m1 m2 : List SymReg) : Prop :=
  m1.length ≤ m2.length ∧ ∀ p, p < m1.length → (deref m2 p).name = (deref m1 p).name

/-- The heap and the table after the register `x` has been made in the
empty table. -/
def one_symbol : List SymReg × SymHash :=
  (_mk_symreg [] create_symhash "x" 73).2

/-- The table after the two registers named `x` of `lifo_mem`, symbols 0
and 15, have been stored in the empty table, in this order. -/
def two_x : SymHash :=
  stores lifo_mem create_symhash [0, 15]

/-- The symbol after `p` on a chain, which is what the link `next` of `p`
holds; null when `p` is the last symbol of the chain or not on it. -/
def next_in : List Ptr → Ptr → Option Ptr
  | [], _ => none
  | a :: rest, p => if a = p then rest.head? else next_in rest p

/-- The link `next` of a symbol `p` of a table (the field `next` of
`SymReg`, which the buckets as lists stand for): the symbol after `p` on
the chain of the bucket the name of `p` hashes to. -/
def chain_next (mem : List SymReg) (hsh : SymHash) (p : Ptr) : Option Ptr :=
  next_in (hsh.bucket (hash_str (deref mem p).name % hsh.size)) p

/-- Fifteen string constants; `a`, `A` and `q`, the symbols 0, 1 and 9,
hash to the same bucket of sixteen. -/
def crowded_mem : List SymReg :=
  ["a", "A", "b", "c", "d", "e", "f", "g", "h", "q", "i", "j", "k", "l", "m"].map
    (fun s => { name := s, type := VTCONST, set := 83 })

/-- A compiler state without units whose global hash holds the fifteen
constants of `crowded_mem`, stored one after the other in the empty
table: one more store fills the table and resizes it. -/
def crowded : Interp :=
  { mem := crowded_mem, ghash := stores crowded_mem create_symhash (List.range 15) }

/-! ## Lists -/

theorem foldl_foldl_flatMap {ι α β : Type} (f : ι → List α) (g : β → α → β) (l : List ι)
    (init : β) :
    l.foldl (fun acc i => (f i).foldl g acc) init = (l.flatMap f).foldl g init := by
  induction l generalizing init with
  | nil => rfl
  | cons a l ih => simp [List.flatMap_cons, List.foldl_append, ih]

theorem map_getD_range {α : Type} (d : List (List α)) :
    (List.range d.length).map (fun i => d.getD i []) = d := by
  apply List.ext_getElem
  · simp
  · intro i h1 h2
    simp at h1
    simp [List.getD_eq_getElem?_getD, List.getElem?_eq_getElem h1]

theorem flatMap_getD_range {α : Type} (d : List (List α)) :
    (List.range d.length).flatMap (fun i => d.getD i []) = d.flatten := by
  rw [List.flatMap_def, map_getD_range]

theorem find?_eq_some_of_unique {α : Type} (p : α → Bool) (r : α) (l : List α)
    (hmem : r ∈ l) (hr : p r = true) (huniq : ∀ x ∈ l, p x = true → x = r) :
    l.find? p = some r := by
  induction l with
  | nil => simp at hmem
  | cons a l ih =>
    by_cases ha : p a = true
    · have := huniq a (List.mem_cons_self _ _) ha
      subst this
      simp [List.find?_cons, ha]
    · have hne : r ≠ a := fun h => ha (h ▸ hr)
      have hmem2 : r ∈ l := by
        rcases List.mem_cons.1 hmem with h | h
        · exact absurd h hne
        · exact h
      simp only [List.find?_cons, ha]
      exact ih hmem2 (fun x hx => huniq x (List.mem_cons_of_mem _ hx))

/-! ## Buckets -/

theorem length_push_bucket (d : List (List Ptr)) (i : Nat) (r : Ptr) :
    (push_bucket d i r).length = d.length := by
  simp [push_bucket]

theorem getD_push_bucket (d : List (List Ptr)) (i j : Nat) (r : Ptr) (hi : i < d.length) :
    (push_bucket d i r).getD j [] = if j = i then r :: d.getD i [] else d.getD j [] := by
  unfold push_bucket
  by_cases h : j = i
  · subst h
    simp [List.getD_eq_getElem?_getD, List.getElem?_set, hi]
  · have h2 : ¬ i = j := fun e => h e.symm
    simp [List.getD_eq_getElem?_getD, List.getElem?_set, h, h2]

theorem flatten_push_bucket_perm (d : List (List Ptr)) (i : Nat) (r : Ptr) (hi : i < d.length) :
    List.Perm (push_bucket d i r).flatten (r :: d.flatten) := by
  unfold push_bucket
  induction d generalizing i with
  | nil => simp at hi
  | cons b d ih =>
    cases i with
    | zero => simp
    | succ i =>
      have hi2 : i < d.length := by simpa using hi
      have := ih i hi2
      simp only [List.set_cons_succ, List.flatten_cons, List.getD_cons_succ]
      exact (List.Perm.append_left b this).trans List.perm_middle


/-! ## Rehashing -/

theorem length_rehash (mem : List SymReg) (n : Nat) (chain : List Ptr) (nh : List (List Ptr)) :
    (chain.foldl (fun nh r => push_bucket nh (hash_str (deref mem r).name % n) r) nh).length
      = nh.length := by
  induction chain generalizing nh with
  | nil => rfl
  | cons r chain ih => simp [List.foldl_cons, ih, length_push_bucket]

theorem getD_rehash (mem : List SymReg) (n : Nat) (hn : 0 < n) (chain : List Ptr)
    (nh : List (List Ptr)) (hlen : nh.length = n) (j : Nat) :
    (chain.foldl (fun nh r => push_bucket nh (hash_str (deref mem r).name % n) r) nh).getD j []
      = (chain.filter (fun r => hash_str (deref mem r).name % n = j)).reverse
          ++ nh.getD j [] := by
  induction chain generalizing nh with
  | nil => simp
  | cons r chain ih =>
    have hi : hash_str (deref mem r).name % n < nh.length := by
      rw [hlen]; exact Nat.mod_lt _ hn
    rw [List.foldl_cons, ih _ (by rw [length_push_bucket, hlen]), getD_push_bucket _ _ _ _ hi]
    by_cases h : hash_str (deref mem r).name % n = j
    · subst h
      simp [List.filter_cons]
    · have h2 : ¬ j = hash_str (deref mem r).name % n := fun e => h e.symm
      simp [List.filter_cons, h, h2]

theorem flatten_rehash_perm (mem : List SymReg) (n : Nat) (hn : 0 < n) (chain : List Ptr)
    (nh : List (List Ptr)) (hlen : nh.length = n) :
    List.Perm
      (chain.foldl (fun nh r => push_bucket nh (hash_str (deref mem r).name % n) r) nh).flatten
      (chain ++ nh.flatten) := by
  induction chain generalizing nh with
  | nil => simp
  | cons r chain ih =>
    have hi : hash_str (deref mem r).name % n < nh.length := by
      rw [hlen]; exact Nat.mod_lt _ hn
    rw [List.foldl_cons]
    refine (ih _ (by rw [length_push_bucket, hlen])).trans ?_
    refine (List.Perm.append_left chain (flatten_push_bucket_perm nh _ r hi)).trans ?_
    exact List.perm_middle

theorem resize_symhash_data (mem : List SymReg) (hsh : SymHash) :
    (resize_symhash mem hsh).data
      = hsh.syms.foldl
          (fun nh r => push_bucket nh (hash_str (deref mem r).name % (hsh.size <<< 1)) r)
          (List.replicate (hsh.size <<< 1) []) := by
  unfold resize_symhash SymHash.syms
  simp only []
  rw [foldl_foldl_flatMap]

theorem resize_symhash_size (mem : List SymReg) (hsh : SymHash) :
    (resize_symhash mem hsh).size = 2 * hsh.size := by
  simp [resize_symhash, Nat.shiftLeft_eq, Nat.mul_comm]

theorem resize_symhash_entries (mem : List SymReg) (hsh : SymHash) :
    (resize_symhash mem hsh).entries = hsh.entries := rfl

theorem resize_symhash_length (mem : List SymReg) (hsh : SymHash) :
    (resize_symhash mem hsh).data.length = 2 * hsh.size := by
  rw [resize_symhash_data, length_rehash]
  simp [Nat.shiftLeft_eq, Nat.mul_comm]

theorem syms_nil_of_size_zero (hsh : SymHash) (h : hsh.size = 0) : hsh.syms = [] := by
  simp [SymHash.syms, h]

theorem resize_symhash_bucket (mem : List SymReg) (hsh : SymHash) (j : Nat) :
    (resize_symhash mem hsh).bucket j
      = (hsh.syms.filter
          (fun r => hash_str (deref mem r).name % (2 * hsh.size) = j)).reverse := by
  unfold SymHash.bucket
  rw [resize_symhash_data]
  rcases Nat.eq_zero_or_pos hsh.size with h0 | hpos
  · simp [syms_nil_of_size_zero hsh h0, h0]
  · have hn : 0 < hsh.size <<< 1 := by simp [Nat.shiftLeft_eq]; exact hpos
    rw [getD_rehash mem _ hn _ _ (by simp)]
    have : hsh.size <<< 1 = 2 * hsh.size := by simp [Nat.shiftLeft_eq, Nat.mul_comm]
    rw [this]
    simp only [List.getD_eq_getElem?_getD, List.getElem?_replicate]
    split <;> simp

theorem syms_eq_flatten (hsh : SymHash) (hlen : hsh.data.length = hsh.size) :
    hsh.syms = hsh.data.flatten := by
  unfold SymHash.syms SymHash.bucket
  rw [← hlen]
  exact flatMap_getD_range hsh.data

theorem mem_syms (hsh : SymHash) (p : Ptr) :
    p ∈ hsh.syms ↔ ∃ i, i < hsh.size ∧ p ∈ hsh.bucket i := by
  simp [SymHash.syms, List.mem_flatMap]

theorem resize_symhash_perm (mem : List SymReg) (hsh : SymHash) :
    List.Perm (resize_symhash mem hsh).syms hsh.syms := by
  rw [syms_eq_flatten _ (by rw [resize_symhash_length, resize_symhash_size])]
  rw [resize_symhash_data]
  rcases Nat.eq_zero_or_pos hsh.size with h0 | hpos
  · simp [syms_nil_of_size_zero hsh h0, h0]
  · have hn : 0 < hsh.size <<< 1 := by simp [Nat.shiftLeft_eq]; exact hpos
    refine (flatten_rehash_perm mem _ hn _ _ (by simp)).trans ?_
    simp


/-! ## Storing -/

theorem create_symhash_wf : create_symhash.wf := by
  simp [SymHash.wf, create_symhash]

theorem create_symhash_syms : create_symhash.syms = [] := by
  rw [syms_eq_flatten _ create_symhash_wf.2]
  simp [create_symhash]

theorem store_of_lt (mem : List SymReg) (hsh : SymHash) (r : Ptr)
    (h : hsh.entries + 1 < hsh.size) :
    _store_symreg mem hsh r
      = { hsh with
          data := push_bucket hsh.data (hash_str (deref mem r).name % hsh.size) r,
          entries := hsh.entries + 1 } := by
  unfold _store_symreg
  simp only []
  rw [if_neg (by simp only [ge_iff_le, not_le]; exact h)]

theorem store_of_ge (mem : List SymReg) (hsh : SymHash) (r : Ptr)
    (h : hsh.size ≤ hsh.entries + 1) :
    _store_symreg mem hsh r
      = resize_symhash mem { hsh with
          data := push_bucket hsh.data (hash_str (deref mem r).name % hsh.size) r,
          entries := hsh.entries + 1 } := by
  unfold _store_symreg
  simp only []
  rw [if_pos (by simp only [ge_iff_le]; exact h)]

theorem store_entries (mem : List SymReg) (hsh : SymHash) (r : Ptr) :
    (_store_symreg mem hsh r).entries = hsh.entries + 1 := by
  rcases Nat.lt_or_ge (hsh.entries + 1) hsh.size with h | h
  · rw [store_of_lt mem hsh r h]
  · rw [store_of_ge mem hsh r h, resize_symhash_entries]

theorem store_size (mem : List SymReg) (hsh : SymHash) (r : Ptr) :
    (_store_symreg mem hsh r).size
      = if hsh.size ≤ hsh.entries + 1 then 2 * hsh.size else hsh.size := by
  rcases Nat.lt_or_ge (hsh.entries + 1) hsh.size with h | h
  · rw [store_of_lt mem hsh r h, if_neg (by omega)]
  · rw [store_of_ge mem hsh r h, resize_symhash_size, if_pos h]

theorem store_wf (mem : List SymReg) (hsh : SymHash) (r : Ptr) (hwf : hsh.wf) :
    (_store_symreg mem hsh r).wf := by
  obtain ⟨hpos, hlen⟩ := hwf
  rcases Nat.lt_or_ge (hsh.entries + 1) hsh.size with h | h
  · rw [store_of_lt mem hsh r h]
    exact ⟨hpos, by simp [length_push_bucket, hlen]⟩
  · rw [store_of_ge mem hsh r h]
    refine ⟨?_, ?_⟩
    · rw [resize_symhash_size]; simp only []; omega
    · rw [resize_symhash_length, resize_symhash_size]

theorem pushed_bucket (mem : List SymReg) (hsh : SymHash) (r : Ptr) (e j : Nat)
    (hwf : hsh.wf) :
    ({ hsh with
        data := push_bucket hsh.data (hash_str (deref mem r).name % hsh.size) r,
        entries := e } : SymHash).bucket j
      = if j = hash_str (deref mem r).name % hsh.size
        then r :: hsh.bucket (hash_str (deref mem r).name % hsh.size)
        else hsh.bucket j := by
  obtain ⟨hpos, hlen⟩ := hwf
  unfold SymHash.bucket
  simp only []
  rw [getD_push_bucket _ _ _ _ (by rw [hlen]; exact Nat.mod_lt _ hpos)]

theorem pushed_syms_perm (mem : List SymReg) (hsh : SymHash) (r : Ptr) (e : Nat)
    (hwf : hsh.wf) :
    List.Perm
      ({ hsh with
        data := push_bucket hsh.data (hash_str (deref mem r).name % hsh.size) r,
        entries := e } : SymHash).syms
      (r :: hsh.syms) := by
  obtain ⟨hpos, hlen⟩ := hwf
  rw [syms_eq_flatten _ (by simp [length_push_bucket, hlen]), syms_eq_flatten hsh hlen]
  exact flatten_push_bucket_perm _ _ _ (by rw [hlen]; exact Nat.mod_lt _ hpos)

theorem store_syms_perm (mem : List SymReg) (hsh : SymHash) (r : Ptr) (hwf : hsh.wf) :
    List.Perm (_store_symreg mem hsh r).syms (r :: hsh.syms) := by
  rcases Nat.lt_or_ge (hsh.entries + 1) hsh.size with h | h
  · rw [store_of_lt mem hsh r h]
    exact pushed_syms_perm mem hsh r _ hwf
  · rw [store_of_ge mem hsh r h]
    exact (resize_symhash_perm mem _).trans (pushed_syms_perm mem hsh r _ hwf)

theorem resize_bucket_inv (mem : List SymReg) (hsh : SymHash) :
    bucket_inv mem (resize_symhash mem hsh) := by
  intro i _ p hp
  rw [resize_symhash_bucket] at hp
  rw [resize_symhash_size]
  simpa using (List.mem_filter.1 (List.mem_reverse.1 hp)).2

theorem store_bucket_inv (mem : List SymReg) (hsh : SymHash) (r : Ptr) (hwf : hsh.wf)
    (hinv : bucket_inv mem hsh) : bucket_inv mem (_store_symreg mem hsh r) := by
  rcases Nat.lt_or_ge (hsh.entries + 1) hsh.size with h | h
  · rw [store_of_lt mem hsh r h]
    intro i hi p hp
    rw [pushed_bucket mem hsh r _ i hwf] at hp
    simp only [] at hi ⊢
    split at hp
    · rename_i hji
      rcases List.mem_cons.1 hp with rfl | hp
      · exact hji.symm
      · rw [← hji] at hp; exact hinv i hi p hp
    · exact hinv i hi p hp
  · rw [store_of_ge mem hsh r h]
    exact resize_bucket_inv mem _

theorem stores_wf (mem : List SymReg) (hsh : SymHash) (rs : List Ptr) (hwf : hsh.wf) :
    (stores mem hsh rs).wf := by
  unfold stores
  induction rs generalizing hsh with
  | nil => exact hwf
  | cons r rs ih => exact ih _ (store_wf mem hsh r hwf)

theorem stores_bucket_inv (mem : List SymReg) (hsh : SymHash) (rs : List Ptr) (hwf : hsh.wf)
    (hinv : bucket_inv mem hsh) : bucket_inv mem (stores mem hsh rs) := by
  unfold stores
  induction rs generalizing hsh with
  | nil => exact hinv
  | cons r rs ih => exact ih _ (store_wf mem hsh r hwf) (store_bucket_inv mem hsh r hwf hinv)

theorem stores_syms_perm (mem : List SymReg) (hsh : SymHash) (rs : List Ptr) (hwf : hsh.wf) :
    List.Perm (stores mem hsh rs).syms (rs ++ hsh.syms) := by
  unfold stores
  induction rs generalizing hsh with
  | nil => simp
  | cons r rs ih =>
    refine (ih _ (store_wf mem hsh r hwf)).trans ?_
    refine (List.Perm.append_left rs (store_syms_perm mem hsh r hwf)).trans ?_
    exact List.perm_middle

theorem create_symhash_bucket_inv (mem : List SymReg) : bucket_inv mem create_symhash := by
  intro i hi p hp
  have : create_symhash.bucket i = [] := by
    simp only [SymHash.bucket, create_symhash, List.getD_eq_getElem?_getD,
      List.getElem?_replicate]
    split <;> simp
  rw [this] at hp
  simp at hp


/-! ## Looking up -/

theorem get_sym_some (mem : List SymReg) (hsh : SymHash) (name : String) (p : Ptr)
    (hwf : hsh.wf) (h : _get_sym mem hsh name = some p) :
    p ∈ hsh.syms ∧ (deref mem p).name = name := by
  unfold _get_sym at h
  have h1 := List.find?_some h
  have h2 := List.mem_of_find?_eq_some h
  refine ⟨(mem_syms hsh p).2 ⟨_, Nat.mod_lt _ hwf.1, h2⟩, ?_⟩
  simp only [decide_eq_true_eq] at h1
  exact h1.symm

theorem get_sym_typed_some (mem : List SymReg) (hsh : SymHash) (name : String) (t : Int)
    (p : Ptr) (hwf : hsh.wf) (h : _get_sym_typed mem hsh name t = some p) :
    p ∈ hsh.syms ∧ (deref mem p).name = name ∧ (deref mem p).set = t := by
  unfold _get_sym_typed at h
  have h1 := List.find?_some h
  have h2 := List.mem_of_find?_eq_some h
  refine ⟨(mem_syms hsh p).2 ⟨_, Nat.mod_lt _ hwf.1, h2⟩, ?_⟩
  simp only [decide_eq_true_eq] at h1
  exact ⟨h1.1.symm, h1.2.symm⟩

theorem get_sym_none (mem : List SymReg) (hsh : SymHash) (name : String)
    (hinv : bucket_inv mem hsh) (h : _get_sym mem hsh name = none) :
    ∀ p ∈ hsh.syms, (deref mem p).name ≠ name := by
  intro p hp hname
  obtain ⟨i, hi, hpi⟩ := (mem_syms hsh p).1 hp
  have hidx := hinv i hi p hpi
  unfold _get_sym at h
  rw [List.find?_eq_none] at h
  rw [hname] at hidx
  rw [hidx] at h
  have := h p hpi
  simp [hname] at this

theorem get_sym_typed_none (mem : List SymReg) (hsh : SymHash) (name : String) (t : Int)
    (hinv : bucket_inv mem hsh) (h : _get_sym_typed mem hsh name t = none) :
    ∀ p ∈ hsh.syms, ¬ ((deref mem p).name = name ∧ (deref mem p).set = t) := by
  intro p hp hname
  obtain ⟨i, hi, hpi⟩ := (mem_syms hsh p).1 hp
  have hidx := hinv i hi p hpi
  unfold _get_sym_typed at h
  rw [List.find?_eq_none] at h
  rw [hname.1] at hidx
  rw [hidx] at h
  have := h p hpi
  simp [hname.1, hname.2] at this

theorem get_sym_typed_store_of_lt (mem : List SymReg) (hsh : SymHash) (r : Ptr)
    (name : String) (t : Int) (hwf : hsh.wf) (hroom : hsh.entries + 1 < hsh.size) :
    _get_sym_typed mem (_store_symreg mem hsh r) name t
      = if name = (deref mem r).name ∧ t = (deref mem r).set then some r
        else _get_sym_typed mem hsh name t := by
  rw [store_of_lt mem hsh r hroom]
  unfold _get_sym_typed
  simp only []
  rw [pushed_bucket mem hsh r _ _ hwf]
  by_cases hn : name = (deref mem r).name
  · subst hn
    by_cases ht : t = (deref mem r).set
    · simp [ht]
    · simp [ht, List.find?_cons]
  · by_cases hi : hash_str name % hsh.size = hash_str (deref mem r).name % hsh.size
    · simp [hi, hn, List.find?_cons]
    · simp [hi, hn]


/-! ## The symbol hash: claims -/

/-- C1 (as amended): over any sequence of `_store_symreg` calls none of
which triggers a resize, the typed lookup returns the most recently stored
symbol whose name and value kind equal the arguments, and what it returned
before the stores when no stored symbol matches. -/
theorem get_sym_typed_stores_lifo (mem : List SymReg) (hsh : SymHash) (rs : List Ptr)
    (name : String) (t : Int) (hwf : hsh.wf) (hroom : hsh.entries + rs.length < hsh.size) :
    _get_sym_typed mem (stores mem hsh rs) name t
      = match rs.reverse.find?
            (fun r => name = (deref mem r).name ∧ t = (deref mem r).set) with
        | some r => some r
        | none => _get_sym_typed mem hsh name t := by
  unfold stores
  induction rs generalizing hsh with
  | nil => simp
  | cons r rs ih =>
    have h1 : hsh.entries + 1 < hsh.size := by simp at hroom; omega
    have hroom2 : (_store_symreg mem hsh r).entries + rs.length
        < (_store_symreg mem hsh r).size := by
      rw [store_entries, store_size, if_neg (by omega)]
      simp at hroom; omega
    rw [List.foldl_cons, ih _ (store_wf mem hsh r hwf) hroom2,
      get_sym_typed_store_of_lt mem hsh r name t hwf h1]
    simp only [List.reverse_cons, List.find?_append, List.find?_cons, List.find?_nil]
    cases List.find? (fun r => decide (name = (deref mem r).name ∧ t = (deref mem r).set))
        rs.reverse with
    | some q => simp
    | none =>
      by_cases hm : name = (deref mem r).name ∧ t = (deref mem r).set
      · simp [hm]
      · simp [hm]

/-- C1, witness: two symbols named `x` of kind `I` stored into a fresh
table; the lookup returns the second. -/
theorem get_sym_typed_stores_lifo_witness :
    create_symhash.wf ∧ create_symhash.entries + [0, 15].length < create_symhash.size ∧
    _get_sym_typed lifo_mem (stores lifo_mem create_symhash [0, 15]) "x" 73
      = match [0, 15].reverse.find?
            (fun r => "x" = (deref lifo_mem r).name ∧ (73 : Int) = (deref lifo_mem r).set) with
        | some r => some r
        | none => _get_sym_typed lifo_mem create_symhash "x" 73 :=
  ⟨create_symhash_wf, by decide,
    get_sym_typed_stores_lifo lifo_mem create_symhash [0, 15] "x" 73 create_symhash_wf
      (by decide)⟩

/-- C1, counterexample: sixteen symbols stored into a fresh table, the
first and the last named `x` with kind `I`.  The sixteenth store resizes
the table, and the lookup that follows returns the first symbol, not the
most recently stored one. -/
theorem get_sym_typed_not_lifo_after_resize :
    _get_sym_typed lifo_mem (stores lifo_mem create_symhash (List.range 16)) "x" 73 = some 0 ∧
    (List.range 16).reverse.find?
        (fun r => "x" = (deref lifo_mem r).name ∧ (73 : Int) = (deref lifo_mem r).set)
      = some 15 := by
  decide


theorem store_calls_entries_lt_size (calls : List (List SymReg × Ptr)) :
    (store_calls create_symhash calls).entries < (store_calls create_symhash calls).size := by
  have key : ∀ (cs : List (List SymReg × Ptr)) (hsh : SymHash), hsh.entries < hsh.size →
      (store_calls hsh cs).entries < (store_calls hsh cs).size := by
    intro cs
    induction cs with
    | nil => intro hsh h; exact h
    | cons c cs ih =>
      intro hsh h
      unfold store_calls
      rw [List.foldl_cons]
      apply ih
      rw [store_entries, store_size]
      split <;> omega
  exact key calls create_symhash (by decide)

/-- C3: in every table obtained from `create_symhash` by `_store_symreg`
calls the entry count is below the size; one more store raises the entry
count by one, resizes to twice the size exactly when the raised count
reaches the size, and leaves the count below the size again. -/
theorem store_symreg_entries_lt_size (calls : List (List SymReg × Ptr)) (mem : List SymReg)
    (r : Ptr) :
    (store_calls create_symhash calls).entries < (store_calls create_symhash calls).size ∧
    (_store_symreg mem (store_calls create_symhash calls) r).entries
      = (store_calls create_symhash calls).entries + 1 ∧
    (_store_symreg mem (store_calls create_symhash calls) r).entries
      < (_store_symreg mem (store_calls create_symhash calls) r).size ∧
    ((store_calls create_symhash calls).entries + 1 = (store_calls create_symhash calls).size →
      _store_symreg mem (store_calls create_symhash calls) r
          = resize_symhash mem (pushed mem (store_calls create_symhash calls) r) ∧
      (_store_symreg mem (store_calls create_symhash calls) r).size
          = 2 * (store_calls create_symhash calls).size) ∧
    ((store_calls create_symhash calls).entries + 1 ≠ (store_calls create_symhash calls).size →
      _store_symreg mem (store_calls create_symhash calls) r
          = pushed mem (store_calls create_symhash calls) r ∧
      (_store_symreg mem (store_calls create_symhash calls) r).size
          = (store_calls create_symhash calls).size) := by
  have hlt := store_calls_entries_lt_size calls
  refine ⟨hlt, store_entries _ _ _, ?_, ?_, ?_⟩
  · rw [store_entries, store_size]
    split <;> omega
  · intro h
    refine ⟨store_of_ge mem _ r (by omega), ?_⟩
    rw [store_size, if_pos (by omega)]
  · intro h
    refine ⟨store_of_lt mem _ r (by omega), ?_⟩
    rw [store_size, if_neg (by omega)]

/-- C4: `resize_symhash` doubles the size and keeps the entry count; the
symbols held afterwards are the symbols held before, each as often as
before, and each of them sits in exactly one bucket of the new table. -/
theorem resize_symhash_membership (mem : List SymReg) (hsh : SymHash) :
    (resize_symhash mem hsh).size = 2 * hsh.size ∧
    (resize_symhash mem hsh).entries = hsh.entries ∧
    List.Perm (resize_symhash mem hsh).syms hsh.syms ∧
    (∀ p, p ∈ (resize_symhash mem hsh).syms ↔ p ∈ hsh.syms) ∧
    (∀ p ∈ hsh.syms,
      ∃! j, j < (resize_symhash mem hsh).size ∧ p ∈ (resize_symhash mem hsh).bucket j) := by
  refine ⟨resize_symhash_size mem hsh, rfl, resize_symhash_perm mem hsh,
    fun p => (resize_symhash_perm mem hsh).mem_iff, ?_⟩
  intro p hp
  have hpos : 0 < hsh.size := by
    rcases Nat.eq_zero_or_pos hsh.size with h0 | h
    · rw [syms_nil_of_size_zero hsh h0] at hp; simp at hp
    · exact h
  refine ⟨hash_str (deref mem p).name % (2 * hsh.size), ⟨?_, ?_⟩, ?_⟩
  · rw [resize_symhash_size]; exact Nat.mod_lt _ (by omega)
  · rw [resize_symhash_bucket]
    simp [hp]
  · rintro j ⟨_, hj⟩
    rw [resize_symhash_bucket] at hj
    have := (List.mem_filter.1 (List.mem_reverse.1 hj)).2
    simp only [decide_eq_true_eq] at this
    exact this.symm

/-- C5: in a table built from `create_symhash` by `_store_symreg` calls,
`_get_sym` finds a symbol exactly when a stored symbol has the name, and
what it finds is a stored symbol of that name; `_get_sym_typed` finds one
exactly when a stored symbol has the name and the value kind, and what it
finds is a stored symbol with both. -/
theorem get_sym_iff_stored (mem : List SymReg) (rs : List Ptr) (name : String) (t : Int) :
    ((∃ p, _get_sym mem (stores mem create_symhash rs) name = some p)
      ↔ ∃ r ∈ rs, (deref mem r).name = name) ∧
    (∀ p, _get_sym mem (stores mem create_symhash rs) name = some p →
      p ∈ rs ∧ (deref mem p).name = name) ∧
    ((∃ p, _get_sym_typed mem (stores mem create_symhash rs) name t = some p)
      ↔ ∃ r ∈ rs, (deref mem r).name = name ∧ (deref mem r).set = t) ∧
    (∀ p, _get_sym_typed mem (stores mem create_symhash rs) name t = some p →
      p ∈ rs ∧ (deref mem p).name = name ∧ (deref mem p).set = t) := by
  have hwf := stores_wf mem create_symhash rs create_symhash_wf
  have hinv := stores_bucket_inv mem create_symhash rs create_symhash_wf
    (create_symhash_bucket_inv mem)
  have hmem : ∀ p, p ∈ (stores mem create_symhash rs).syms ↔ p ∈ rs := by
    intro p
    rw [(stores_syms_perm mem create_symhash rs create_symhash_wf).mem_iff,
      create_symhash_syms]
    simp
  have h1 : ∀ p, _get_sym mem (stores mem create_symhash rs) name = some p →
      p ∈ rs ∧ (deref mem p).name = name := by
    intro p h
    have := get_sym_some mem _ name p hwf h
    exact ⟨(hmem p).1 this.1, this.2⟩
  have h2 : ∀ p, _get_sym_typed mem (stores mem create_symhash rs) name t = some p →
      p ∈ rs ∧ (deref mem p).name = name ∧ (deref mem p).set = t := by
    intro p h
    have := get_sym_typed_some mem _ name t p hwf h
    exact ⟨(hmem p).1 this.1, this.2⟩
  refine ⟨⟨?_, ?_⟩, h1, ⟨?_, ?_⟩, h2⟩
  · rintro ⟨p, h⟩
    exact ⟨p, h1 p h⟩
  · rintro ⟨r, hr, hname⟩
    cases hg : _get_sym mem (stores mem create_symhash rs) name with
    | some p => exact ⟨p, rfl⟩
    | none => exact absurd hname (get_sym_none mem _ name hinv hg r ((hmem r).2 hr))
  · rintro ⟨p, h⟩
    exact ⟨p, h2 p h⟩
  · rintro ⟨r, hr, hname⟩
    cases hg : _get_sym_typed mem (stores mem create_symhash rs) name t with
    | some p => exact ⟨p, rfl⟩
    | none => exact absurd hname (get_sym_typed_none mem _ name t hinv hg r ((hmem r).2 hr))


/-! ## The heap -/

theorem deref_append_of_lt (mem l : List SymReg) (p : Ptr) (h : p < mem.length) :
    deref (mem ++ l) p = deref mem p := by
  simp [deref, List.getD_eq_getElem?_getD, List.getElem?_append_left h]

theorem deref_append_length (mem : List SymReg) (x : SymReg) :
    deref (mem ++ [x]) mem.length = x := by
  simp [deref, List.getD_eq_getElem?_getD]

theorem deref_set (mem : List SymReg) (i p : Ptr) (v : SymReg) :
    deref (mem.set i v) p = if p = i ∧ i < mem.length then v else deref mem p := by
  unfold deref
  by_cases h : p = i
  · subst h
    by_cases h2 : p < mem.length
    · simp [List.getD_eq_getElem?_getD, List.getElem?_set, h2]
    · have h3 : mem.length ≤ p := Nat.not_lt.1 h2
      simp [List.getD_eq_getElem?_getD, List.getElem?_set, h2, List.getElem?_eq_none h3]
  · have h2 : ¬ i = p := fun e => h e.symm
    simp [List.getD_eq_getElem?_getD, List.getElem?_set, h, h2]

theorem bucket_inv_congr (m1 m2 : List SymReg) (hsh : SymHash)
    (h : ∀ p ∈ hsh.syms, (deref m2 p).name = (deref m1 p).name)
    (hinv : bucket_inv m1 hsh) : bucket_inv m2 hsh := by
  intro i hi p hp
  rw [h p ((mem_syms hsh p).2 ⟨i, hi, hp⟩)]
  exact hinv i hi p hp

theorem mem_bucket_of_mem_syms (mem : List SymReg) (hsh : SymHash) (p : Ptr)
    (hinv : bucket_inv mem hsh) (hp : p ∈ hsh.syms) :
    p ∈ hsh.bucket (hash_str (deref mem p).name % hsh.size) := by
  obtain ⟨i, hi, hpi⟩ := (mem_syms hsh p).1 hp
  rw [hinv i hi p hpi]
  exact hpi

/-! ## `_mk_symreg` -/

theorem mk_symreg_of_some (mem : List SymReg) (hsh : SymHash) (name : String) (t : Int)
    (r : Ptr) (h : _get_sym_typed mem hsh name t = some r) :
    _mk_symreg mem hsh name t = (r, mem, hsh) := by
  unfold _mk_symreg
  rw [h]

theorem mk_symreg_of_none (mem : List SymReg) (hsh : SymHash) (name : String) (t : Int)
    (h : _get_sym_typed mem hsh name t = none) :
    _mk_symreg mem hsh name t
      = (mem.length,
          mem ++ [new_symreg name t],
          _store_symreg
            (mem ++ [new_symreg name t])
            hsh mem.length) := by
  unfold _mk_symreg
  rw [h]

/-- What `_mk_symreg` guarantees of the symbol it returns and the state it
leaves, for a table in use whose symbols are allocated. -/
theorem mk_symreg_spec (mem : List SymReg) (hsh : SymHash) (name : String) (t : Int)
    (hwf : hsh.wf) (hinv : bucket_inv mem hsh) (halloc : allocated mem hsh) :
    (_mk_symreg mem hsh name t).2.2.wf ∧
    bucket_inv (_mk_symreg mem hsh name t).2.1 (_mk_symreg mem hsh name t).2.2 ∧
    allocated (_mk_symreg mem hsh name t).2.1 (_mk_symreg mem hsh name t).2.2 ∧
    (_mk_symreg mem hsh name t).1 ∈ (_mk_symreg mem hsh name t).2.2.syms ∧
    (deref (_mk_symreg mem hsh name t).2.1 (_mk_symreg mem hsh name t).1).name = name ∧
    (deref (_mk_symreg mem hsh name t).2.1 (_mk_symreg mem hsh name t).1).set = t ∧
    (∀ p ∈ (_mk_symreg mem hsh name t).2.2.syms,
      (deref (_mk_symreg mem hsh name t).2.1 p).name = name →
      (deref (_mk_symreg mem hsh name t).2.1 p).set = t →
      p = (_mk_symreg mem hsh name t).1 ∨
        (_get_sym_typed mem hsh name t = some (_mk_symreg mem hsh name t).1)) ∧
    (∀ p ∈ (_mk_symreg mem hsh name t).2.2.syms,
      p = (_mk_symreg mem hsh name t).1 ∨
        (p ∈ hsh.syms ∧ deref (_mk_symreg mem hsh name t).2.1 p = deref mem p)) := by
  cases hg : _get_sym_typed mem hsh name t with
  | some r =>
    rw [mk_symreg_of_some mem hsh name t r hg]
    have hs := get_sym_typed_some mem hsh name t r hwf hg
    exact ⟨hwf, hinv, halloc, hs.1, hs.2.1, hs.2.2, fun _ _ _ _ => Or.inr rfl,
      fun p hp => Or.inr ⟨hp, rfl⟩⟩
  | none =>
    rw [mk_symreg_of_none mem hsh name t hg]
    simp only []
    have hold : ∀ p ∈ hsh.syms,
        deref (mem ++ [new_symreg name t]) p = deref mem p :=
      fun p hp => deref_append_of_lt mem _ p (halloc p hp)
    have hinv1 := bucket_inv_congr mem _ hsh (fun p hp => by rw [hold p hp]) hinv
    have hperm := store_syms_perm
      (mem ++ [new_symreg name t])
      hsh mem.length hwf
    refine ⟨store_wf _ hsh _ hwf, store_bucket_inv _ hsh _ hwf hinv1, ?_, ?_, ?_, ?_, ?_, ?_⟩
    · intro p hp
      rcases List.mem_cons.1 (hperm.mem_iff.1 hp) with h | h
      · simp [h]
      · have := halloc p h
        rw [List.length_append, List.length_singleton]
        exact Nat.lt_succ_of_lt this
    · exact hperm.mem_iff.2 (List.mem_cons_self _ _)
    · rw [deref_append_length]; rfl
    · rw [deref_append_length]; rfl
    · intro p hp hn ht
      rcases List.mem_cons.1 (hperm.mem_iff.1 hp) with h | h
      · exact Or.inl h
      · rw [hold p h] at hn ht
        exact absurd ⟨hn, ht⟩ (get_sym_typed_none mem hsh name t hinv hg p h)
    · intro p hp
      rcases List.mem_cons.1 (hperm.mem_iff.1 hp) with h | h
      · exact Or.inl h
      · exact Or.inr ⟨h, hold p h⟩

/-- After `_mk_symreg` the typed lookup finds the symbol it returned. -/
theorem get_sym_typed_mk_symreg (mem : List SymReg) (hsh : SymHash) (name : String) (t : Int)
    (hwf : hsh.wf) (hinv : bucket_inv mem hsh) (halloc : allocated mem hsh) :
    _get_sym_typed (_mk_symreg mem hsh name t).2.1 (_mk_symreg mem hsh name t).2.2 name t
      = some (_mk_symreg mem hsh name t).1 := by
  cases hg : _get_sym_typed mem hsh name t with
  | some r =>
    rw [mk_symreg_of_some mem hsh name t r hg]
    exact hg
  | none =>
    obtain ⟨_, hinv1, _, hmem, hname, hset, huniq, _⟩ :=
      mk_symreg_spec mem hsh name t hwf hinv halloc
    have hb := mem_bucket_of_mem_syms _ _ _ hinv1 hmem
    rw [hname] at hb
    unfold _get_sym_typed
    apply find?_eq_some_of_unique _ _ _ hb
    · simp [hname, hset]
    · intro x hx hpx
      simp only [decide_eq_true_eq] at hpx
      have hxs : x ∈ (_mk_symreg mem hsh name t).2.2.syms :=
        (mem_syms _ x).2 ⟨_, Nat.mod_lt _ (mk_symreg_spec mem hsh name t hwf hinv halloc).1.1, hx⟩
      rcases huniq x hxs hpx.1.symm hpx.2.symm with h | h
      · exact h
      · rw [hg] at h; cases h


/-- C2: on a table in use (positive size, one bucket per index, every
symbol allocated and in the bucket of its name) a second `_mk_symreg` with
the same name and value kind returns the symbol the first returned and
leaves heap and table as the first left them: same entry count, same
buckets. -/
theorem mk_symreg_twice (mem : List SymReg) (hsh : SymHash) (name : String) (t : Int)
    (hwf : hsh.wf) (hinv : bucket_inv mem hsh) (halloc : allocated mem hsh) :
    (_mk_symreg (_mk_symreg mem hsh name t).2.1 (_mk_symreg mem hsh name t).2.2 name t).1
      = (_mk_symreg mem hsh name t).1 ∧
    (_mk_symreg (_mk_symreg mem hsh name t).2.1 (_mk_symreg mem hsh name t).2.2 name t).2.1
      = (_mk_symreg mem hsh name t).2.1 ∧
    (_mk_symreg (_mk_symreg mem hsh name t).2.1 (_mk_symreg mem hsh name t).2.2 name t).2.2
      = (_mk_symreg mem hsh name t).2.2 ∧
    (_mk_symreg (_mk_symreg mem hsh name t).2.1
        (_mk_symreg mem hsh name t).2.2 name t).2.2.entries
      = (_mk_symreg mem hsh name t).2.2.entries ∧
    ∀ i, (_mk_symreg (_mk_symreg mem hsh name t).2.1
        (_mk_symreg mem hsh name t).2.2 name t).2.2.bucket i
      = (_mk_symreg mem hsh name t).2.2.bucket i := by
  have h := mk_symreg_of_some _ _ name t _ (get_sym_typed_mk_symreg mem hsh name t hwf hinv halloc)
  rw [h]
  exact ⟨rfl, rfl, rfl, rfl, fun _ => rfl⟩

theorem allocated_create_symhash (mem : List SymReg) : allocated mem create_symhash := by
  intro p hp
  rw [create_symhash_syms] at hp
  simp at hp

/-- C2, witness: the register `x` of kind `I` made twice in a fresh table. -/
theorem mk_symreg_twice_witness :
    create_symhash.wf ∧ bucket_inv [] create_symhash ∧ allocated [] create_symhash ∧
    (_mk_symreg (_mk_symreg [] create_symhash "x" 73).2.1
        (_mk_symreg [] create_symhash "x" 73).2.2 "x" 73).1
      = (_mk_symreg [] create_symhash "x" 73).1 ∧
    (_mk_symreg (_mk_symreg [] create_symhash "x" 73).2.1
        (_mk_symreg [] create_symhash "x" 73).2.2 "x" 73).2.1
      = (_mk_symreg [] create_symhash "x" 73).2.1 ∧
    (_mk_symreg (_mk_symreg [] create_symhash "x" 73).2.1
        (_mk_symreg [] create_symhash "x" 73).2.2 "x" 73).2.2
      = (_mk_symreg [] create_symhash "x" 73).2.2 ∧
    (_mk_symreg (_mk_symreg [] create_symhash "x" 73).2.1
        (_mk_symreg [] create_symhash "x" 73).2.2 "x" 73).2.2.entries
      = (_mk_symreg [] create_symhash "x" 73).2.2.entries ∧
    ∀ i, (_mk_symreg (_mk_symreg [] create_symhash "x" 73).2.1
        (_mk_symreg [] create_symhash "x" 73).2.2 "x" 73).2.2.bucket i
      = (_mk_symreg [] create_symhash "x" 73).2.2.bucket i :=
  ⟨create_symhash_wf, create_symhash_bucket_inv [], allocated_create_symhash [],
    mk_symreg_twice [] create_symhash "x" 73 create_symhash_wf (create_symhash_bucket_inv [])
      (allocated_create_symhash [])⟩


/-! ## `_mk_address` -/

/-- The symbol `_mk_symreg` returns: allocated, with the name and the kind
asked for, and with the use count it had before, zero if it is new. -/
theorem mk_symreg_result (mem : List SymReg) (hsh : SymHash) (name : String) (t : Int)
    (hpos : 0 < hsh.size) (halloc : allocated mem hsh) :
    (_mk_symreg mem hsh name t).1 < (_mk_symreg mem hsh name t).2.1.length ∧
    (deref (_mk_symreg mem hsh name t).2.1 (_mk_symreg mem hsh name t).1).name = name ∧
    (deref (_mk_symreg mem hsh name t).2.1 (_mk_symreg mem hsh name t).1).set = t ∧
    (deref (_mk_symreg mem hsh name t).2.1 (_mk_symreg mem hsh name t).1).lhs_use_count
      = (deref mem (_mk_symreg mem hsh name t).1).lhs_use_count := by
  cases hg : _get_sym_typed mem hsh name t with
  | some r =>
    rw [mk_symreg_of_some mem hsh name t r hg]
    unfold _get_sym_typed at hg
    have h1 := List.find?_some hg
    have h2 := List.mem_of_find?_eq_some hg
    simp only [decide_eq_true_eq] at h1
    exact ⟨halloc r ((mem_syms hsh r).2 ⟨_, Nat.mod_lt _ hpos, h2⟩), h1.1.symm, h1.2.symm, rfl⟩
  | none =>
    rw [mk_symreg_of_none mem hsh name t hg]
    simp only []
    rw [deref_append_length]
    refine ⟨by simp, rfl, rfl, ?_⟩
    simp [deref, new_symreg, List.getD_eq_getElem?_getD]


theorem mk_ident_stack (top : Namespace) (parent : List Namespace) (st : Interp)
    (name : String) (t : Int) :
    (mk_ident (top :: parent) st name t).2.1
      = { top with idents := _mk_fullname (some top) name :: top.idents } :: parent := by
  simp [mk_ident]

theorem mk_idents_stack (n : String) (parent : List Namespace) (ids : List (String × Int))
    (l : List String) (st : Interp) :
    ∃ l2, (mk_idents ({ name := n, idents := l } :: parent) st ids).1
      = { name := n, idents := l2 } :: parent := by
  unfold mk_idents
  induction ids generalizing l st with
  | nil => exact ⟨l, rfl⟩
  | cons id ids ih =>
    rw [List.foldl_cons]
    have h := mk_ident_stack { name := n, idents := l } parent st id.1 id.2
    have h2 : (mk_ident ({ name := n, idents := l } :: parent) st id.1 id.2).2
        = ({ name := n, idents := _mk_fullname (some { name := n, idents := l }) id.1 :: l }
            :: parent, (mk_ident ({ name := n, idents := l } :: parent) st id.1 id.2).2.2) := by
      rw [← h]
    simp only []
    rw [h2]
    exact ih _ _

/-- C8: `push_namespace(n)`, any number of `mk_ident` calls, then
`pop_namespace(n)`: the pop succeeds and the namespace stack is the stack
before the push, frame by frame with names and identifier lists. -/
theorem push_pop_namespace (_namespace : List Namespace) (st : Interp) (n : String)
    (ids : List (String × Int)) :
    pop_namespace (mk_idents (push_namespace _namespace n) st ids).1 (some n)
      = (.ok (), _namespace) := by
  obtain ⟨l2, h⟩ := mk_idents_stack n _namespace ids [] st
  unfold push_namespace
  rw [h]
  simp [pop_namespace]

/-- C9: `pop_namespace` aborts exactly on an empty stack and on a name
that is given and differs from the name of the top frame, and then leaves
the stack alone; otherwise, also without a name, it succeeds and the
parent of the popped frame is the new top. -/
theorem pop_namespace_fails_iff (_namespace : List Namespace) (name : Option String) :
    ((∃ msg, (pop_namespace _namespace name).1 = .error msg)
      ↔ _namespace = [] ∨
        ∃ n top parent, name = some n ∧ _namespace = top :: parent ∧ n ≠ top.name) ∧
    (∀ msg, (pop_namespace _namespace name).1 = .error msg →
      (pop_namespace _namespace name).2 = _namespace) ∧
    ((¬ ∃ msg, (pop_namespace _namespace name).1 = .error msg) →
      (pop_namespace _namespace name).1 = .ok ()) ∧
    (∀ top parent, _namespace = top :: parent →
      (pop_namespace _namespace name).1 = .ok () →
      (pop_namespace _namespace name).2 = parent) := by
  cases _namespace with
  | nil => simp [pop_namespace]
  | cons top parent =>
    cases name with
    | none => simp [pop_namespace]
    | some n =>
      by_cases h : n = top.name
      · simp [pop_namespace, h]
      · simp [pop_namespace, h]

/-! ## Key chains: claims -/

/-- C10: `link_keys` on one component without a slice marker and with
`force` false returns that component and leaves the whole state alone:
nothing is allocated, no table and no symbol changes. -/
theorem link_keys_single (st : Interp) (a : Ptr)
    (h : (deref st.mem a).type &&& VT_SLICE_BITS = 0) :
    link_keys st [a] 0 = (.ok a, st) := by
  simp [link_keys, h]

/-- C10, witness: a constant `a` as the only key. -/
theorem link_keys_single_witness :
    (deref ({ mem := [{ name := "a", type := VTCONST }], ghash := create_symhash } : Interp).mem
        0).type &&& VT_SLICE_BITS = 0 ∧
    link_keys { mem := [{ name := "a", type := VTCONST }], ghash := create_symhash } [0] 0
      = (.ok 0, { mem := [{ name := "a", type := VTCONST }], ghash := create_symhash }) :=
  ⟨by decide,
    link_keys_single { mem := [{ name := "a", type := VTCONST }], ghash := create_symhash } 0
      (by decide)⟩


/-! ## `link_keys` -/

theorem link_keys_eq (st : Interp) (keys : List Ptr) (force : Int) (hne : keys ≠ [])
    (hs : ¬ short_circuit st.mem keys force) :
    link_keys st keys force =
      match (if any_slice st.mem keys then none
             else _get_sym (slice_heap st.mem keys) st.key_hash (key_name st.mem keys)) with
      | some keychain => (.ok keychain, st.with_mem (slice_heap st.mem keys))
      | none => (.ok (slice_heap st.mem keys).length, built_state st keys) := by
  have h0 : keys.length ≠ 0 := by
    intro h; exact hne (List.length_eq_zero.1 h)
  unfold short_circuit at hs
  unfold link_keys
  simp only [h0, if_false, hs]
  rfl


/-! ## Joining names -/

theorem intercalate_go_append (s p q : String) (l : List String) :
    String.intercalate.go (p ++ q) s l = p ++ String.intercalate.go q s l := by
  induction l generalizing q with
  | nil => rfl
  | cons x l ih =>
    simp only [String.intercalate.go]
    rw [String.append_assoc, String.append_assoc, ih, String.append_assoc]

theorem intercalate_cons_cons (s a b : String) (l : List String) :
    String.intercalate s (a :: b :: l) = a ++ s ++ String.intercalate s (b :: l) := by
  simp only [String.intercalate, String.intercalate.go]
  rw [String.append_assoc, intercalate_go_append, String.append_assoc, intercalate_go_append]

theorem intercalate_singleton (s a : String) : String.intercalate s [a] = a := rfl

theorem link_keys_str_from (mem : List SymReg) (keys : List Ptr) (hne : keys ≠ [])
    (key_str : String) (i : Nat) :
    (keys.enumFrom i).foldl
        (fun key_str ik =>
          if ik.1 + 1 < i + keys.length then key_str ++ (deref mem ik.2).name ++ ";"
          else key_str ++ (deref mem ik.2).name)
        key_str
      = key_str ++ String.intercalate ";" (keys.map (fun k => (deref mem k).name)) := by
  induction keys generalizing key_str i with
  | nil => exact absurd rfl hne
  | cons k rest ih =>
    cases rest with
    | nil =>
      simp [List.enumFrom, intercalate_singleton]
    | cons k2 rest =>
      have h := ih (List.cons_ne_nil k2 rest) (key_str ++ (deref mem k).name ++ ";") (i + 1)
      have hlen : i + 1 + (k2 :: rest).length = i + (k :: k2 :: rest).length := by
        simp only [List.length_cons]; omega
      rw [hlen] at h
      rw [List.enumFrom_cons, List.foldl_cons]
      have hlt : i + 1 < i + (k :: k2 :: rest).length := by
        simp only [List.length_cons]; omega
      simp only [hlt, if_true]
      rw [h]
      simp only [List.map_cons]
      rw [intercalate_cons_cons]
      simp only [String.append_assoc]

theorem link_keys_str_eq (mem : List SymReg) (keys : List Ptr) (hne : keys ≠ []) :
    link_keys_str mem keys.length keys
      = String.intercalate ";" (keys.map (fun k => (deref mem k).name)) := by
  have h := link_keys_str_from mem keys hne "" 0
  simp only [Nat.zero_add, String.empty_append] at h
  rw [← h]
  unfold link_keys_str List.enum
  congr 1


/-! ## The heaps of `link_keys` -/

theorem slice_heap_length (mem : List SymReg) (keys : List Ptr) :
    (slice_heap mem keys).length = mem.length := by
  unfold slice_heap
  split <;> simp

theorem slice_heap_name (mem : List SymReg) (keys : List Ptr) (p : Ptr) :
    (deref (slice_heap mem keys) p).name = (deref mem p).name := by
  unfold slice_heap
  split
  · rw [deref_set]
    split
    · rename_i h; rw [h.1]
    · rfl
  · rfl

theorem slice_heap_of_not (mem : List SymReg) (keys : List Ptr)
    (h : any_slice mem keys = false) : slice_heap mem keys = mem := by
  unfold slice_heap
  simp [h]

theorem key_name_eq (mem : List SymReg) (keys : List Ptr) (hne : keys ≠ []) :
    key_name mem keys = String.intercalate ";" (keys.map (fun k => (deref mem k).name)) := by
  unfold key_name
  rw [link_keys_str_eq _ keys hne]
  congr 1
  apply List.map_congr_left
  intro k _
  exact slice_heap_name mem keys k

theorem length_ite_set (c : Bool) (m : List SymReg) (i : Nat) (v : SymReg) :
    (if c = true then m.set i v else m).length = m.length := by
  split <;> simp

theorem deref_ite_set (c : Bool) (m : List SymReg) (i p : Nat) (v : SymReg) (h : p ≠ i) :
    deref (if c = true then m.set i v else m) p = deref m p := by
  split
  · rw [deref_set, if_neg (fun hh => h hh.1)]
  · rfl

theorem link_keys_step_length (base : Ptr) (m : List SymReg) (key k : Ptr) :
    (link_keys_step base (m, key) k).1.length = m.length + 1 := by
  simp only [link_keys_step, dup_sym, length_ite_set, List.length_set, List.length_append,
    List.length_singleton]

theorem link_keys_step_key (base : Ptr) (m : List SymReg) (key k : Ptr) :
    (link_keys_step base (m, key) k).2 = m.length := by
  simp only [link_keys_step, dup_sym, length_ite_set]

theorem link_keys_step_deref (base : Ptr) (m : List SymReg) (key k p : Ptr)
    (h1 : p ≠ base) (h2 : p ≠ key) (h3 : p < m.length) :
    deref (link_keys_step base (m, key) k).1 p = deref m p := by
  have h4 : p ≠ m.length := Nat.ne_of_lt h3
  simp only [link_keys_step, dup_sym, length_ite_set]
  rw [deref_ite_set _ _ _ _ _ h4, deref_set, if_neg (fun hh => h2 hh.1),
    deref_append_of_lt _ _ _ (by rw [length_ite_set]; exact h3), deref_ite_set _ _ _ _ _ h1]

/-- The invariant of the copying loop of `link_keys` on a heap that
started as `mem` with the chain head at `mem.length`. -/
theorem link_keys_loop_inv (mem : List SymReg) (keys : List Ptr) (m : List SymReg) (key : Ptr)
    (h1 : mem.length < m.length) (h2 : mem.length ≤ key)
    (h3 : ∀ p, p < mem.length → deref m p = deref mem p) :
    mem.length < (keys.foldl (link_keys_step mem.length) (m, key)).1.length ∧
    ∀ p, p < mem.length →
      deref (keys.foldl (link_keys_step mem.length) (m, key)).1 p = deref mem p := by
  induction keys generalizing m key with
  | nil => exact ⟨h1, h3⟩
  | cons k keys ih =>
    rw [List.foldl_cons]
    have e : link_keys_step mem.length (m, key) k
        = ((link_keys_step mem.length (m, key) k).1, (link_keys_step mem.length (m, key) k).2) :=
      rfl
    rw [e]
    apply ih
    · rw [link_keys_step_length]; exact Nat.lt_succ_of_lt h1
    · rw [link_keys_step_key]; exact Nat.le_of_lt h1
    · intro p hp
      rw [link_keys_step_deref _ _ _ _ _ (Nat.ne_of_lt hp)
        (Nat.ne_of_lt (Nat.lt_of_lt_of_le hp h2)) (Nat.lt_trans hp h1)]
      exact h3 p hp

theorem chain_heap_length (mem : List SymReg) (keys : List Ptr) (key_str : String) :
    mem.length < (chain_heap mem keys key_str).length := by
  unfold chain_heap
  rw [List.length_set]
  exact (link_keys_loop_inv mem keys _ _ (by simp) (Nat.le_refl _)
    (fun p hp => deref_append_of_lt mem _ p hp)).1

theorem chain_heap_deref (mem : List SymReg) (keys : List Ptr) (key_str : String) (p : Ptr)
    (hp : p < mem.length) : deref (chain_heap mem keys key_str) p = deref mem p := by
  unfold chain_heap
  rw [deref_set, if_neg (fun hh => Nat.ne_of_lt hp hh.1)]
  exact (link_keys_loop_inv mem keys _ _ (by simp) (Nat.le_refl _)
    (fun p hp => deref_append_of_lt mem _ p hp)).2 p hp

theorem chain_heap_head (mem : List SymReg) (keys : List Ptr) (key_str : String) :
    (deref (chain_heap mem keys key_str) mem.length).name = key_str ∧
    (deref (chain_heap mem keys key_str) mem.length).set = 75 ∧
    (deref (chain_heap mem keys key_str) mem.length).color = -1 := by
  have hl := (link_keys_loop_inv mem keys (mem ++ [new_keychain]) mem.length (by simp)
    (Nat.le_refl _) (fun p hp => deref_append_of_lt mem _ p hp)).1
  unfold chain_heap
  rw [deref_set, if_pos ⟨rfl, hl⟩]
  exact ⟨rfl, rfl, rfl⟩


/-! ## The compiler state under `link_keys` -/

theorem with_mem_self (st : Interp) : st.with_mem st.mem = st := rfl

theorem with_mem_mem (st : Interp) (m : List SymReg) : (st.with_mem m).mem = m := rfl

theorem with_mem_key_hash (st : Interp) (m : List SymReg) :
    (st.with_mem m).key_hash = st.key_hash := rfl

theorem with_mem_cur_unit_ok (st : Interp) (m : List SymReg) (h : st.cur_unit_ok) :
    (st.with_mem m).cur_unit_ok := h

theorem set_key_hash_mem (st : Interp) (hsh : SymHash) : (st.set_key_hash hsh).mem = st.mem := by
  unfold Interp.set_key_hash Interp.set_unit_hash
  cases st.cur_unit <;> rfl

theorem set_key_hash_cur_unit (st : Interp) (hsh : SymHash) :
    (st.set_key_hash hsh).cur_unit = st.cur_unit := by
  unfold Interp.set_key_hash Interp.set_unit_hash
  cases h : st.cur_unit <;> simp [h]

theorem set_key_hash_cur_unit_ok (st : Interp) (hsh : SymHash) (h : st.cur_unit_ok) :
    (st.set_key_hash hsh).cur_unit_ok := by
  intro u hu
  rw [set_key_hash_cur_unit] at hu
  have := h u hu
  unfold Interp.set_key_hash Interp.set_unit_hash
  cases hc : st.cur_unit with
  | none => simpa [hc] using this
  | some v => simpa [hc] using this

theorem set_key_hash_key_hash (st : Interp) (hsh : SymHash) (h : st.cur_unit_ok) :
    (st.set_key_hash hsh).key_hash = hsh := by
  unfold Interp.key_hash
  rw [set_key_hash_cur_unit]
  unfold Interp.set_key_hash Interp.set_unit_hash Interp.unit_hash
  cases hc : st.cur_unit with
  | none => rfl
  | some v =>
    have hv := h v hc
    simp [List.getD_eq_getElem?_getD, List.getElem?_set, hv]

theorem built_state_mem (st : Interp) (keys : List Ptr) :
    (built_state st keys).mem
      = chain_heap (slice_heap st.mem keys) keys (key_name st.mem keys) := by
  unfold built_state
  rw [set_key_hash_mem, with_mem_mem]

theorem built_state_key_hash (st : Interp) (keys : List Ptr) (h : st.cur_unit_ok) :
    (built_state st keys).key_hash
      = _store_symreg (chain_heap (slice_heap st.mem keys) keys (key_name st.mem keys))
          st.key_hash (slice_heap st.mem keys).length := by
  unfold built_state
  rw [set_key_hash_key_hash _ _ (with_mem_cur_unit_ok st _ h)]

theorem built_state_cur_unit_ok (st : Interp) (keys : List Ptr) (h : st.cur_unit_ok) :
    (built_state st keys).cur_unit_ok :=
  set_key_hash_cur_unit_ok _ _ (with_mem_cur_unit_ok st _ h)

theorem get_sym_name (mem : List SymReg) (hsh : SymHash) (name : String) (p : Ptr)
    (h : _get_sym mem hsh name = some p) : (deref mem p).name = name := by
  unfold _get_sym at h
  have h1 := List.find?_some h
  simp only [decide_eq_true_eq] at h1
  exact h1.symm

/-! ## Key chains: the name, the chain found again, slices -/

/-- C11: when `link_keys` does not return its only component, it returns
a symbol whose name is the names of the components, in order, joined with
one `;` between neighbours; for two components `a` and `b` that is the
name of `a`, a `;`, the name of `b`. -/
theorem link_keys_name (st : Interp) (keys : List Ptr) (force : Int) (hne : keys ≠ [])
    (hs : ¬ short_circuit st.mem keys force) :
    ∃ r, (link_keys st keys force).1 = .ok r ∧
      (deref (link_keys st keys force).2.mem r).name
        = String.intercalate ";" (keys.map (fun k => (deref st.mem k).name)) ∧
      ∀ a b, keys = [a, b] →
        (deref (link_keys st keys force).2.mem r).name
          = (deref st.mem a).name ++ ";" ++ (deref st.mem b).name := by
  have key : ∃ r, (link_keys st keys force).1 = .ok r ∧
      (deref (link_keys st keys force).2.mem r).name
        = String.intercalate ";" (keys.map (fun k => (deref st.mem k).name)) := by
    rw [link_keys_eq st keys force hne hs, ← key_name_eq st.mem keys hne]
    cases ho : (if any_slice st.mem keys then none
        else _get_sym (slice_heap st.mem keys) st.key_hash (key_name st.mem keys)) with
    | some kc =>
      refine ⟨kc, rfl, ?_⟩
      simp only [with_mem_mem]
      split at ho
      · cases ho
      · exact get_sym_name _ _ _ _ ho
    | none =>
      refine ⟨_, rfl, ?_⟩
      simp only [built_state_mem]
      exact (chain_heap_head _ keys _).1
  obtain ⟨r, h1, h2⟩ := key
  refine ⟨r, h1, h2, ?_⟩
  intro a b hab
  rw [h2, hab]
  rfl

/-- C11, witness: the constants `a` and `b` linked; the chain is named
`a;b`. -/
theorem link_keys_name_witness :
    [0, 1] ≠ ([] : List Ptr) ∧ ¬ short_circuit two_keys.mem [0, 1] 0 ∧
    ∃ r, (link_keys two_keys [0, 1] 0).1 = .ok r ∧
      (deref (link_keys two_keys [0, 1] 0).2.mem r).name
        = String.intercalate ";" ([0, 1].map (fun k => (deref two_keys.mem k).name)) ∧
      ∀ a b, [0, 1] = [a, b] →
        (deref (link_keys two_keys [0, 1] 0).2.mem r).name
          = (deref two_keys.mem a).name ++ ";" ++ (deref two_keys.mem b).name :=
  ⟨by decide, by decide, link_keys_name two_keys [0, 1] 0 (by decide) (by decide)⟩

/-- C14: `link_keys` without components fails with its diagnostic,
whatever the table and `force`, and leaves the whole state, so every
table, as it was. -/
theorem link_keys_no_keys (st : Interp) (force : Int) :
    link_keys st [] force = (.error "link_keys: hu? no keys\n", st) := by
  simp [link_keys]


theorem link_keys_short (st : Interp) (keys : List Ptr) (force : Int)
    (hs : short_circuit st.mem keys force) :
    link_keys st keys force = (.ok (keys.headD 0), st) := by
  have h0 : keys.length ≠ 0 := by rw [hs.1]; decide
  unfold short_circuit at hs
  unfold link_keys
  simp only [h0, if_false, hs, if_true, and_self]
  rfl

theorem headD_mem (keys : List Ptr) (hne : keys ≠ []) : keys.headD 0 ∈ keys := by
  cases keys with
  | nil => exact absurd rfl hne
  | cons k rest => simp

theorem ne_nil_of_any_slice (mem : List SymReg) (keys : List Ptr)
    (h : any_slice mem keys = true) : keys ≠ [] := by
  intro hk
  rw [hk] at h
  simp [any_slice] at h

theorem not_short_of_any_slice (mem : List SymReg) (keys : List Ptr) (force : Int)
    (h : any_slice mem keys = true) : ¬ short_circuit mem keys force := by
  rintro ⟨hlen, _, hbits⟩
  cases keys with
  | nil => simp at hlen
  | cons k rest =>
    cases rest with
    | nil =>
      simp only [any_slice, List.any_cons, List.any_nil, Bool.or_false, List.headD_cons,
        decide_eq_true_eq] at h hbits
      exact h hbits
    | cons k2 rest => simp at hlen

theorem any_slice_congr (m1 m2 : List SymReg) (keys : List Ptr)
    (h : ∀ k ∈ keys, (deref m1 k).type = (deref m2 k).type) :
    any_slice m1 keys = any_slice m2 keys := by
  unfold any_slice
  induction keys with
  | nil => rfl
  | cons k rest ih =>
    simp only [List.any_cons]
    rw [h k (List.mem_cons_self _ _), ih (fun x hx => h x (List.mem_cons_of_mem _ hx))]

theorem short_circuit_congr (m1 m2 : List SymReg) (keys : List Ptr) (force : Int)
    (hne : keys ≠ []) (h : ∀ k ∈ keys, (deref m1 k).type = (deref m2 k).type) :
    short_circuit m1 keys force ↔ short_circuit m2 keys force := by
  unfold short_circuit
  rw [h _ (headD_mem keys hne)]

theorem key_name_congr (m1 m2 : List SymReg) (keys : List Ptr) (hne : keys ≠ [])
    (h : ∀ k ∈ keys, (deref m1 k).name = (deref m2 k).name) :
    key_name m1 keys = key_name m2 keys := by
  rw [key_name_eq _ _ hne, key_name_eq _ _ hne]
  congr 1
  exact List.map_congr_left h

/-- After a symbol is stored whose name no symbol of the table has, the
lookup of that name finds it. -/
theorem get_sym_store_fresh (mem : List SymReg) (hsh : SymHash) (r : Ptr) (name : String)
    (hwf : hsh.wf) (hinv : bucket_inv mem hsh) (hname : (deref mem r).name = name)
    (hfresh : ∀ p ∈ hsh.syms, (deref mem p).name ≠ name) :
    _get_sym mem (_store_symreg mem hsh r) name = some r := by
  have hinv1 := store_bucket_inv mem hsh r hwf hinv
  have hperm := store_syms_perm mem hsh r hwf
  have hmem : r ∈ (_store_symreg mem hsh r).syms := hperm.mem_iff.2 (List.mem_cons_self _ _)
  have hb := mem_bucket_of_mem_syms _ _ _ hinv1 hmem
  rw [hname] at hb
  unfold _get_sym
  apply find?_eq_some_of_unique _ _ _ hb
  · simp [hname]
  · intro x hx hpx
    simp only [decide_eq_true_eq] at hpx
    have hxs : x ∈ (_store_symreg mem hsh r).syms :=
      (mem_syms _ x).2 ⟨_, Nat.mod_lt _ (store_wf mem hsh r hwf).1, hx⟩
    rcases List.mem_cons.1 (hperm.mem_iff.1 hxs) with h | h
    · exact h
    · exact absurd hpx.symm (hfresh x h)

/-- C12: on a state whose key table is in use (positive size, one bucket
per index, every symbol allocated and in the bucket of its name), for
allocated components without slice markers, a second `link_keys` with the
same components and the same `force` returns the symbol the first
returned and leaves the whole state, so the table, as the first left it. -/
theorem link_keys_twice (st : Interp) (keys : List Ptr) (force : Int) (hne : keys ≠ [])
    (hns : any_slice st.mem keys = false) (hkeys : ∀ k ∈ keys, k < st.mem.length)
    (hunit : st.cur_unit_ok) (hwf : st.key_hash.wf) (hinv : bucket_inv st.mem st.key_hash)
    (halloc : allocated st.mem st.key_hash) :
    ∃ r, (link_keys st keys force).1 = .ok r ∧
      link_keys (link_keys st keys force).2 keys force
        = (.ok r, (link_keys st keys force).2) := by
  by_cases hs : short_circuit st.mem keys force
  · rw [link_keys_short st keys force hs]
    exact ⟨_, rfl, link_keys_short st keys force hs⟩
  · have hsh : slice_heap st.mem keys = st.mem := slice_heap_of_not _ _ hns
    have e1 := link_keys_eq st keys force hne hs
    rw [hns, hsh] at e1
    simp only [Bool.false_eq_true, if_false] at e1
    cases hg : _get_sym st.mem st.key_hash (key_name st.mem keys) with
    | some kc =>
      rw [hg] at e1
      simp only [with_mem_self] at e1
      rw [e1]
      exact ⟨kc, rfl, e1⟩
    | none =>
      rw [hg] at e1
      simp only [] at e1
      rw [e1]
      refine ⟨_, rfl, ?_⟩
      have hmem := built_state_mem st keys
      rw [hsh] at hmem
      have hd : ∀ k, k < st.mem.length →
          deref (built_state st keys).mem k = deref st.mem k := by
        intro k hk
        rw [hmem]
        exact chain_heap_deref st.mem keys _ k hk
      have htype : ∀ k ∈ keys, (deref (built_state st keys).mem k).type = (deref st.mem k).type :=
        fun k hk => by rw [hd k (hkeys k hk)]
      have hnm : ∀ k ∈ keys, (deref (built_state st keys).mem k).name = (deref st.mem k).name :=
        fun k hk => by rw [hd k (hkeys k hk)]
      have hs2 : ¬ short_circuit (built_state st keys).mem keys force :=
        fun h => hs ((short_circuit_congr _ _ keys force hne htype).1 h)
      have hns2 : any_slice (built_state st keys).mem keys = false := by
        rw [any_slice_congr _ _ keys htype]; exact hns
      have hsh2 : slice_heap (built_state st keys).mem keys = (built_state st keys).mem :=
        slice_heap_of_not _ _ hns2
      have hkn : key_name (built_state st keys).mem keys = key_name st.mem keys :=
        key_name_congr _ _ keys hne hnm
      have hkh := built_state_key_hash st keys hunit
      rw [hsh, ← hmem] at hkh
      have hinv2 : bucket_inv (built_state st keys).mem st.key_hash :=
        bucket_inv_congr st.mem _ _ (fun p hp => by rw [hd p (halloc p hp)]) hinv
      have hfound : _get_sym (built_state st keys).mem (built_state st keys).key_hash
          (key_name st.mem keys) = some st.mem.length := by
        rw [hkh]
        apply get_sym_store_fresh _ _ _ _ hwf hinv2
        · rw [hmem]; exact (chain_heap_head st.mem keys _).1
        · intro p hp
          rw [hd p (halloc p hp)]
          exact get_sym_none st.mem _ _ hinv hg p hp
      have e2 := link_keys_eq (built_state st keys) keys force hne hs2
      rw [hns2, hsh2, hkn] at e2
      simp only [Bool.false_eq_true, if_false] at e2
      rw [hfound] at e2
      simp only [with_mem_self] at e2
      exact e2

/-- C12, witness: the constants `a` and `b` linked twice. -/
theorem link_keys_twice_witness :
    [0, 1] ≠ ([] : List Ptr) ∧ any_slice two_keys.mem [0, 1] = false ∧
    (∀ k ∈ [0, 1], k < two_keys.mem.length) ∧ two_keys.cur_unit_ok ∧ two_keys.key_hash.wf ∧
    bucket_inv two_keys.mem two_keys.key_hash ∧ allocated two_keys.mem two_keys.key_hash ∧
    ∃ r, (link_keys two_keys [0, 1] 0).1 = .ok r ∧
      link_keys (link_keys two_keys [0, 1] 0).2 [0, 1] 0
        = (.ok r, (link_keys two_keys [0, 1] 0).2) :=
  ⟨by decide, by decide, by decide, by decide, by decide, by decide, by decide,
    link_keys_twice two_keys [0, 1] 0 (by decide) (by decide) (by decide) (by decide)
      (by decide) (by decide) (by decide)⟩


theorem slice_bits_or (x : Nat) :
    (x ||| (VT_START_SLICE ||| VT_END_SLICE)) &&& VT_SLICE_BITS ≠ 0 := by
  intro h
  have h10 := congrArg (fun n => Nat.testBit n 10) h
  simp only [Nat.testBit_and, Nat.testBit_or, Nat.zero_testBit] at h10
  have a : Nat.testBit VT_START_SLICE 10 = true := by decide
  have b : Nat.testBit VT_SLICE_BITS 10 = true := by decide
  rw [a, b] at h10
  simp at h10

theorem any_slice_slice_heap (mem : List SymReg) (keys : List Ptr)
    (h : any_slice mem keys = true) (hk : keys.headD 0 < mem.length) :
    any_slice (slice_heap mem keys) keys = true := by
  by_cases hu : any_slice mem keys = true ∧ (deref mem (keys.headD 0)).type &&& VT_SLICE_BITS = 0
  · have hne := ne_nil_of_any_slice mem keys h
    unfold any_slice
    rw [List.any_eq_true]
    refine ⟨keys.headD 0, headD_mem keys hne, ?_⟩
    unfold slice_heap
    rw [if_pos hu, deref_set, if_pos ⟨rfl, hk⟩]
    simp only [decide_eq_true_eq]
    exact slice_bits_or _
  · unfold slice_heap
    rw [if_neg hu]
    exact h

/-- C13: for allocated components of which one carries a slice marker,
each `link_keys` allocates a chain head at the end of the heap and stores
it in the key table: two calls in a row return two different symbols of
one name and raise the entry count by one each. -/
theorem link_keys_slice_twice (st : Interp) (keys : List Ptr) (force : Int)
    (hsl : any_slice st.mem keys = true) (hkeys : ∀ k ∈ keys, k < st.mem.length)
    (hunit : st.cur_unit_ok) (hwf : st.key_hash.wf) :
    ∃ r1 r2, (link_keys st keys force).1 = .ok r1 ∧
      (link_keys (link_keys st keys force).2 keys force).1 = .ok r2 ∧
      r1 = st.mem.length ∧ r2 = (link_keys st keys force).2.mem.length ∧ r1 ≠ r2 ∧
      r1 ∈ (link_keys st keys force).2.key_hash.syms ∧
      r2 ∈ (link_keys (link_keys st keys force).2 keys force).2.key_hash.syms ∧
      (deref (link_keys (link_keys st keys force).2 keys force).2.mem r1).name
        = (deref (link_keys (link_keys st keys force).2 keys force).2.mem r2).name ∧
      (link_keys st keys force).2.key_hash.entries = st.key_hash.entries + 1 ∧
      (link_keys (link_keys st keys force).2 keys force).2.key_hash.entries
        = st.key_hash.entries + 2 := by
  have hne := ne_nil_of_any_slice st.mem keys hsl
  have e1 := link_keys_eq st keys force hne (not_short_of_any_slice _ _ force hsl)
  rw [hsl] at e1
  simp only [if_true] at e1
  have hmem := built_state_mem st keys
  have hlen := slice_heap_length st.mem keys
  have hd : ∀ k, k < st.mem.length →
      deref (built_state st keys).mem k = deref (slice_heap st.mem keys) k := by
    intro k hk
    rw [hmem]
    exact chain_heap_deref _ keys _ k (by rw [hlen]; exact hk)
  have hsl2 : any_slice (built_state st keys).mem keys = true := by
    rw [any_slice_congr _ (slice_heap st.mem keys) keys
      (fun k hk => by rw [hd k (hkeys k hk)])]
    exact any_slice_slice_heap _ _ hsl (hkeys _ (headD_mem keys hne))
  have hkn : key_name (built_state st keys).mem keys = key_name st.mem keys :=
    key_name_congr _ _ keys hne
      (fun k hk => by rw [hd k (hkeys k hk), slice_heap_name])
  have e2 := link_keys_eq (built_state st keys) keys force hne
    (not_short_of_any_slice _ _ force hsl2)
  rw [hsl2] at e2
  simp only [if_true] at e2
  have hlen2 := slice_heap_length (built_state st keys).mem keys
  have hlt : st.mem.length < (built_state st keys).mem.length := by
    rw [hmem]
    have := chain_heap_length (slice_heap st.mem keys) keys (key_name st.mem keys)
    rw [hlen] at this
    exact this
  have hmem2 := built_state_mem (built_state st keys) keys
  have hkh1 := built_state_key_hash st keys hunit
  have hunit1 := built_state_cur_unit_ok st keys hunit
  have hkh2 := built_state_key_hash (built_state st keys) keys hunit1
  have hwf1 : (built_state st keys).key_hash.wf := by
    rw [hkh1]; exact store_wf _ _ _ hwf
  rw [e1]
  simp only []
  rw [e2]
  simp only []
  refine ⟨_, _, rfl, rfl, hlen, hlen2, ?_, ?_, ?_, ?_, ?_, ?_⟩
  · rw [hlen, hlen2]; exact Nat.ne_of_lt hlt
  · rw [hkh1]
    exact (store_syms_perm _ _ _ hwf).mem_iff.2 (List.mem_cons_self _ _)
  · rw [hkh2]
    exact (store_syms_perm _ _ _ hwf1).mem_iff.2 (List.mem_cons_self _ _)
  · rw [hmem2, (chain_heap_head _ keys _).1,
      chain_heap_deref _ keys _ _ (by rw [hlen, hlen2]; exact hlt), slice_heap_name, hkn, hmem,
      (chain_heap_head _ keys _).1]
  · rw [hkh1, store_entries]
  · rw [hkh2, store_entries, hkh1, store_entries]

/-- C13, witness: the slice start `a` and the constant `b` linked twice. -/
theorem link_keys_slice_twice_witness :
    any_slice slice_keys.mem [0, 1] = true ∧ (∀ k ∈ [0, 1], k < slice_keys.mem.length) ∧
    slice_keys.cur_unit_ok ∧ slice_keys.key_hash.wf ∧
    ∃ r1 r2, (link_keys slice_keys [0, 1] 0).1 = .ok r1 ∧
      (link_keys (link_keys slice_keys [0, 1] 0).2 [0, 1] 0).1 = .ok r2 ∧
      r1 = slice_keys.mem.length ∧ r2 = (link_keys slice_keys [0, 1] 0).2.mem.length ∧
      r1 ≠ r2 ∧
      r1 ∈ (link_keys slice_keys [0, 1] 0).2.key_hash.syms ∧
      r2 ∈ (link_keys (link_keys slice_keys [0, 1] 0).2 [0, 1] 0).2.key_hash.syms ∧
      (deref (link_keys (link_keys slice_keys [0, 1] 0).2 [0, 1] 0).2.mem r1).name
        = (deref (link_keys (link_keys slice_keys [0, 1] 0).2 [0, 1] 0).2.mem r2).name ∧
      (link_keys slice_keys [0, 1] 0).2.key_hash.entries = slice_keys.key_hash.entries + 1 ∧
      (link_keys (link_keys slice_keys [0, 1] 0).2 [0, 1] 0).2.key_hash.entries
        = slice_keys.key_hash.entries + 2 :=
  ⟨by decide, by decide, by decide, by decide,
    link_keys_slice_twice slice_keys [0, 1] 0 (by decide) (by decide) (by decide) (by decide)⟩


/-! ## PCC metadata: claims -/

theorem testBit_and_not (x m i : Nat) :
    (and_not x m).testBit i = (x.testBit i && !m.testBit i) := by
  unfold and_not
  rw [Nat.testBit_xor, Nat.testBit_and]
  cases x.testBit i <;> cases m.testBit i <;> rfl

theorem and_not_and_of_disjoint (x m f : Nat) (h : f &&& m = 0) :
    and_not x m &&& f = x &&& f := by
  apply Nat.eq_of_testBit_eq
  intro i
  have hi := congrArg (fun n => Nat.testBit n i) h
  simp only [Nat.testBit_and, Nat.zero_testBit] at hi
  rw [Nat.testBit_and, Nat.testBit_and, testBit_and_not]
  cases hx : x.testBit i <;> cases hm : m.testBit i <;> cases hf : f.testBit i <;>
    simp_all

theorem and_not_and_of_subset (x m f : Nat) (h : f &&& m = f) :
    and_not x m &&& f = 0 := by
  apply Nat.eq_of_testBit_eq
  intro i
  have hi := congrArg (fun n => Nat.testBit n i) h
  simp only [Nat.testBit_and] at hi
  rw [Nat.testBit_and, testBit_and_not, Nat.zero_testBit]
  cases hx : x.testBit i <;> cases hm : m.testBit i <;> cases hf : f.testBit i <;>
    simp_all

theorem deref_set_self (mem : List SymReg) (i : Ptr) (v : SymReg) (h : i < mem.length) :
    deref (mem.set i v) i = v := by
  rw [deref_set, if_pos ⟨rfl, h⟩]

/-- Two writes as in `add_pcc_arg`: a new PCC record in `r`, then a new
type, computed from the old one, in `x`. -/
theorem deref_set_pcc_set_type (mem : List SymReg) (r x : Ptr) (q : Option pcc_sub_t)
    (T : Nat → Nat) (hr : r < mem.length) (hx : x < mem.length) :
    (deref ((mem.set r { deref mem r with pcc_sub := q }).set x
        { deref (mem.set r { deref mem r with pcc_sub := q }) x with
          type := T (deref (mem.set r { deref mem r with pcc_sub := q }) x).type }) r).pcc_sub
      = q ∧
    (deref ((mem.set r { deref mem r with pcc_sub := q }).set x
        { deref (mem.set r { deref mem r with pcc_sub := q }) x with
          type := T (deref (mem.set r { deref mem r with pcc_sub := q }) x).type }) x).type
      = T (deref mem x).type := by
  have hx2 : x < (mem.set r { deref mem r with pcc_sub := q }).length := by
    rw [List.length_set]; exact hx
  by_cases h : x = r
  · subst h
    rw [deref_set_self _ _ _ hx2, deref_set_self _ _ _ hx]
    exact ⟨rfl, rfl⟩
  · have h2 : ¬ (r = x) := fun e => h e.symm
    rw [deref_set_self _ _ _ hx2]
    rw [deref_set, if_neg (fun hh => h2 hh.1), deref_set_self _ _ _ hr]
    rw [deref_set, if_neg (fun hh => h hh.1)]
    exact ⟨rfl, rfl⟩

theorem call_flags_subset :
    VT_FLAT &&& (VT_FLAT ||| VT_OPTIONAL ||| VT_OPT_FLAG ||| VT_NAMED) = VT_FLAT ∧
    VT_OPTIONAL &&& (VT_FLAT ||| VT_OPTIONAL ||| VT_OPT_FLAG ||| VT_NAMED) = VT_OPTIONAL ∧
    VT_OPT_FLAG &&& (VT_FLAT ||| VT_OPTIONAL ||| VT_OPT_FLAG ||| VT_NAMED) = VT_OPT_FLAG ∧
    VT_NAMED &&& (VT_FLAT ||| VT_OPTIONAL ||| VT_OPT_FLAG ||| VT_NAMED) = VT_NAMED := by
  decide

theorem add_pcc_arg_spec (mem : List SymReg) (r x : Ptr) (ps : pcc_sub_t)
    (hr : r < mem.length) (hx : x < mem.length) (hps : (deref mem r).pcc_sub = some ps) :
    (deref (add_pcc_arg mem r x) r).pcc_sub
        = some { ps with
            args := ps.args ++ [x], arg_flags := ps.arg_flags ++ [(deref mem x).type] } ∧
    (deref (add_pcc_arg mem r x) x).type
        = and_not (deref mem x).type (VT_FLAT ||| VT_OPTIONAL ||| VT_OPT_FLAG ||| VT_NAMED) := by
  unfold add_pcc_arg
  rw [hps]
  exact deref_set_pcc_set_type mem r x _
    (fun t => and_not t (VT_FLAT ||| VT_OPTIONAL ||| VT_OPT_FLAG ||| VT_NAMED)) hr hx

theorem add_pcc_result_spec (mem : List SymReg) (r x : Ptr) (ps : pcc_sub_t)
    (hr : r < mem.length) (hx : x < mem.length) (hps : (deref mem r).pcc_sub = some ps) :
    (deref (add_pcc_result mem r x) r).pcc_sub
        = some { ps with
            ret := ps.ret ++ [x], ret_flags := ps.ret_flags ++ [(deref mem x).type] } ∧
    (deref (add_pcc_result mem r x) x).type
        = and_not (deref mem x).type (VT_FLAT ||| VT_OPTIONAL ||| VT_OPT_FLAG ||| VT_NAMED) := by
  unfold add_pcc_result
  rw [hps]
  exact deref_set_pcc_set_type mem r x _
    (fun t => and_not t (VT_FLAT ||| VT_OPTIONAL ||| VT_OPT_FLAG ||| VT_NAMED)) hr hx

/-- C15: for allocated symbols `r` and `x`, `r` a PCC sub, `add_pcc_arg`
appends `x` to the arguments and the type flags `x` had to the argument
flags, changes nothing else of the PCC record, and leaves `x` with
`VT_FLAT`, `VT_OPTIONAL`, `VT_OPT_FLAG` and `VT_NAMED` cleared and every
other flag as it was; `add_pcc_result` does the same on the results and
the result flags. -/
theorem add_pcc_arg_result (mem : List SymReg) (r x : Ptr) (ps : pcc_sub_t)
    (hr : r < mem.length) (hx : x < mem.length) (hps : (deref mem r).pcc_sub = some ps) :
    ((deref (add_pcc_arg mem r x) r).pcc_sub
        = some { ps with
            args := ps.args ++ [x], arg_flags := ps.arg_flags ++ [(deref mem x).type] } ∧
      (ps.args ++ [x]).length = ps.args.length + 1 ∧
      (deref (add_pcc_arg mem r x) x).type &&& VT_FLAT = 0 ∧
      (deref (add_pcc_arg mem r x) x).type &&& VT_OPTIONAL = 0 ∧
      (deref (add_pcc_arg mem r x) x).type &&& VT_OPT_FLAG = 0 ∧
      (deref (add_pcc_arg mem r x) x).type &&& VT_NAMED = 0 ∧
      ∀ f, f &&& (VT_FLAT ||| VT_OPTIONAL ||| VT_OPT_FLAG ||| VT_NAMED) = 0 →
        (deref (add_pcc_arg mem r x) x).type &&& f = (deref mem x).type &&& f) ∧
    ((deref (add_pcc_result mem r x) r).pcc_sub
        = some { ps with
            ret := ps.ret ++ [x], ret_flags := ps.ret_flags ++ [(deref mem x).type] } ∧
      (ps.ret ++ [x]).length = ps.ret.length + 1 ∧
      (deref (add_pcc_result mem r x) x).type &&& VT_FLAT = 0 ∧
      (deref (add_pcc_result mem r x) x).type &&& VT_OPTIONAL = 0 ∧
      (deref (add_pcc_result mem r x) x).type &&& VT_OPT_FLAG = 0 ∧
      (deref (add_pcc_result mem r x) x).type &&& VT_NAMED = 0 ∧
      ∀ f, f &&& (VT_FLAT ||| VT_OPTIONAL ||| VT_OPT_FLAG ||| VT_NAMED) = 0 →
        (deref (add_pcc_result mem r x) x).type &&& f = (deref mem x).type &&& f) := by
  obtain ⟨a1, a2⟩ := add_pcc_arg_spec mem r x ps hr hx hps
  obtain ⟨b1, b2⟩ := add_pcc_result_spec mem r x ps hr hx hps
  obtain ⟨c1, c2, c3, c4⟩ := call_flags_subset
  refine ⟨⟨a1, by simp, ?_, ?_, ?_, ?_, ?_⟩, ⟨b1, by simp, ?_, ?_, ?_, ?_, ?_⟩⟩
  · rw [a2]; exact and_not_and_of_subset _ _ _ c1
  · rw [a2]; exact and_not_and_of_subset _ _ _ c2
  · rw [a2]; exact and_not_and_of_subset _ _ _ c3
  · rw [a2]; exact and_not_and_of_subset _ _ _ c4
  · intro f hf; rw [a2]; exact and_not_and_of_disjoint _ _ _ hf
  · rw [b2]; exact and_not_and_of_subset _ _ _ c1
  · rw [b2]; exact and_not_and_of_subset _ _ _ c2
  · rw [b2]; exact and_not_and_of_subset _ _ _ c3
  · rw [b2]; exact and_not_and_of_subset _ _ _ c4
  · intro f hf; rw [b2]; exact and_not_and_of_disjoint _ _ _ hf

/-- C15, witness: the register `x`, flagged `:flat` and `:named`, added
to the PCC sub `s` as an argument and as a result. -/
theorem add_pcc_arg_result_witness :
    0 < pcc_heap.length ∧ 1 < pcc_heap.length ∧ (deref pcc_heap 0).pcc_sub = some {} ∧
    (((deref (add_pcc_arg pcc_heap 0 1) 0).pcc_sub
        = some { ({} : pcc_sub_t) with
            args := ({} : pcc_sub_t).args ++ [1],
            arg_flags := ({} : pcc_sub_t).arg_flags ++ [(deref pcc_heap 1).type] } ∧
      (({} : pcc_sub_t).args ++ [1]).length = ({} : pcc_sub_t).args.length + 1 ∧
      (deref (add_pcc_arg pcc_heap 0 1) 1).type &&& VT_FLAT = 0 ∧
      (deref (add_pcc_arg pcc_heap 0 1) 1).type &&& VT_OPTIONAL = 0 ∧
      (deref (add_pcc_arg pcc_heap 0 1) 1).type &&& VT_OPT_FLAG = 0 ∧
      (deref (add_pcc_arg pcc_heap 0 1) 1).type &&& VT_NAMED = 0 ∧
      ∀ f, f &&& (VT_FLAT ||| VT_OPTIONAL ||| VT_OPT_FLAG ||| VT_NAMED) = 0 →
        (deref (add_pcc_arg pcc_heap 0 1) 1).type &&& f = (deref pcc_heap 1).type &&& f) ∧
    ((deref (add_pcc_result pcc_heap 0 1) 0).pcc_sub
        = some { ({} : pcc_sub_t) with
            ret := ({} : pcc_sub_t).ret ++ [1],
            ret_flags := ({} : pcc_sub_t).ret_flags ++ [(deref pcc_heap 1).type] } ∧
      (({} : pcc_sub_t).ret ++ [1]).length = ({} : pcc_sub_t).ret.length + 1 ∧
      (deref (add_pcc_result pcc_heap 0 1) 1).type &&& VT_FLAT = 0 ∧
      (deref (add_pcc_result pcc_heap 0 1) 1).type &&& VT_OPTIONAL = 0 ∧
      (deref (add_pcc_result pcc_heap 0 1) 1).type &&& VT_OPT_FLAG = 0 ∧
      (deref (add_pcc_result pcc_heap 0 1) 1).type &&& VT_NAMED = 0 ∧
      ∀ f, f &&& (VT_FLAT ||| VT_OPTIONAL ||| VT_OPT_FLAG ||| VT_NAMED) = 0 →
        (deref (add_pcc_result pcc_heap 0 1) 1).type &&& f = (deref pcc_heap 1).type &&& f)) :=
  ⟨by decide, by decide, by decide,
    add_pcc_arg_result pcc_heap 0 1 {} (by decide) (by decide) (by decide)⟩

/-- C16 (as amended): for an allocated PCC sub `r`, `add_pcc_multi`
appends its argument, which may be null, to the multi-dispatch signature
and changes nothing else: no flags are recorded, the other lists of the
PCC record and every other field of `r` stay, and every other symbol,
the appended one with its type flags too, is as before. -/
theorem add_pcc_multi_appends (mem : List SymReg) (r : Ptr) (x : Option Ptr) (ps : pcc_sub_t)
    (hr : r < mem.length) (hps : (deref mem r).pcc_sub = some ps) :
    deref (add_pcc_multi mem r x) r
      = { deref mem r with pcc_sub := some { ps with multi := ps.multi ++ [x] } } ∧
    (ps.multi ++ [x]).length = ps.multi.length + 1 ∧
    (∀ p, p ≠ r → deref (add_pcc_multi mem r x) p = deref mem p) ∧
    ∀ p, (deref (add_pcc_multi mem r x) p).type = (deref mem p).type := by
  unfold add_pcc_multi
  rw [hps]
  simp only []
  refine ⟨deref_set_self _ _ _ hr, by simp, ?_, ?_⟩
  · intro p hp
    rw [deref_set, if_neg (fun hh => hp hh.1)]
  · intro p
    rw [deref_set]
    split
    · rename_i h; rw [h.1]
    · rfl

/-- C16, witness: the register `x` appended to the signature of the PCC
sub `s`. -/
theorem add_pcc_multi_appends_witness :
    0 < pcc_heap.length ∧ (deref pcc_heap 0).pcc_sub = some {} ∧
    deref (add_pcc_multi pcc_heap 0 (some 1)) 0
      = { deref pcc_heap 0 with
          pcc_sub := some { ({} : pcc_sub_t) with
            multi := ({} : pcc_sub_t).multi ++ [some 1] } } ∧
    (({} : pcc_sub_t).multi ++ [some 1]).length = ({} : pcc_sub_t).multi.length + 1 ∧
    (∀ p, p ≠ 0 → deref (add_pcc_multi pcc_heap 0 (some 1)) p = deref pcc_heap p) ∧
    ∀ p, (deref (add_pcc_multi pcc_heap 0 (some 1)) p).type = (deref pcc_heap p).type :=
  ⟨by decide, by decide, add_pcc_multi_appends pcc_heap 0 (some 1) {} (by decide) (by decide)⟩

/-- C16, counterexample: the register `x` carries `:flat` and `:named`.
After `add_pcc_multi` it still carries both and no flags list of the sub
has an entry, whereas `add_pcc_arg` records the flags and clears them. -/
theorem add_pcc_multi_keeps_flags :
    (deref pcc_heap 1).type &&& VT_FLAT ≠ 0 ∧
    (deref (add_pcc_multi pcc_heap 0 (some 1)) 1).type = (deref pcc_heap 1).type ∧
    (deref (add_pcc_multi pcc_heap 0 (some 1)) 1).type &&& VT_FLAT ≠ 0 ∧
    (deref (add_pcc_multi pcc_heap 0 (some 1)) 1).type &&& VT_NAMED ≠ 0 ∧
    (deref (add_pcc_multi pcc_heap 0 (some 1)) 0).pcc_sub = some { multi := [some 1] } ∧
    (deref (add_pcc_arg pcc_heap 0 1) 1).type &&& VT_FLAT = 0 ∧
    (deref (add_pcc_arg pcc_heap 0 1) 0).pcc_sub
      = some { args := [1], arg_flags := [(deref pcc_heap 1).type] } := by
  decide


/-! ## Identifiers -/

theorem mk_symreg_heap_old (mem : List SymReg) (hsh : SymHash) (name : String) (t : Int)
    (p : Ptr) (hp : p < mem.length) :
    deref (_mk_symreg mem hsh name t).2.1 p = deref mem p := by
  cases hg : _get_sym_typed mem hsh name t with
  | some r => rw [mk_symreg_of_some mem hsh name t r hg]
  | none =>
    rw [mk_symreg_of_none mem hsh name t hg]
    exact deref_append_of_lt mem _ p hp

theorem mk_symreg_heap_length (mem : List SymReg) (hsh : SymHash) (name : String) (t : Int) :
    mem.length ≤ (_mk_symreg mem hsh name t).2.1.length := by
  cases hg : _get_sym_typed mem hsh name t with
  | some r => rw [mk_symreg_of_some mem hsh name t r hg]
  | none =>
    rw [mk_symreg_of_none mem hsh name t hg]
    simp

theorem set_unit_hash_unit_hash (st : Interp) (u : Nat) (hsh : SymHash)
    (hu : u < st.units.length) :
    (st.set_unit_hash (some u) hsh).unit_hash (some u) = hsh ∧
    u < (st.set_unit_hash (some u) hsh).units.length ∧
    (st.set_unit_hash (some u) hsh).last_unit = st.last_unit ∧
    (st.set_unit_hash (some u) hsh).mem = st.mem := by
  unfold Interp.set_unit_hash Interp.unit_hash
  simp [List.getD_eq_getElem?_getD, List.getElem?_set, hu]

theorem mk_symreg_of (st : Interp) (name : String) (t : Int) (u : Nat)
    (r : Ptr) (m : List SymReg) (h : SymHash)
    (hu : st.last_unit = some u) (hlt : u < st.units.length)
    (hX : _mk_symreg st.mem (st.unit_hash (some u)) name t = (r, m, h)) :
    (mk_symreg st name t).1 = r ∧ (mk_symreg st name t).2.mem = m ∧
    (mk_symreg st name t).2.unit_hash (some u) = h ∧
    u < (mk_symreg st name t).2.units.length ∧
    (mk_symreg st name t).2.last_unit = some u := by
  unfold mk_symreg
  simp only [hu, hX]
  obtain ⟨e1, e2, e3, e4⟩ := set_unit_hash_unit_hash
    ⟨m, st.ghash, st.units, st.cur_unit, some u, st.cur_namespace, st.cur_pmc_type⟩ u h hlt
  exact ⟨trivial, e4, e1, e2, e3⟩

theorem name_set_retype (m : List SymReg) (r q : Ptr) (v : SymReg)
    (hv : v.name = (deref m r).name) : (deref (m.set r v) q).name = (deref m q).name := by
  rw [deref_set]
  split
  · rename_i h; rw [hv, h.1]
  · rfl

theorem set_set_retype (m : List SymReg) (r q : Ptr) (v : SymReg)
    (hv : v.set = (deref m r).set) : (deref (m.set r v) q).set = (deref m q).set := by
  rw [deref_set]
  split
  · rename_i h; rw [hv, h.1]
  · rfl

/-- What `mk_ident` does, in terms of what `mk_symreg` returned. -/
theorem mk_ident_of_mk_symreg (ns : List Namespace) (st : Interp) (name : String) (t : Int) :
    (mk_ident ns st name t).1 = (mk_symreg st (_mk_fullname ns.head? name) t).1 ∧
    (mk_ident ns st name t).2.2.units = (mk_symreg st (_mk_fullname ns.head? name) t).2.units ∧
    (mk_ident ns st name t).2.2.last_unit
      = (mk_symreg st (_mk_fullname ns.head? name) t).2.last_unit ∧
    (mk_ident ns st name t).2.2.mem.length
      = (mk_symreg st (_mk_fullname ns.head? name) t).2.mem.length ∧
    (∀ q, (deref (mk_ident ns st name t).2.2.mem q).name
      = (deref (mk_symreg st (_mk_fullname ns.head? name) t).2.mem q).name) ∧
    (∀ q, (deref (mk_ident ns st name t).2.2.mem q).set
      = (deref (mk_symreg st (_mk_fullname ns.head? name) t).2.mem q).set) ∧
    ((mk_symreg st (_mk_fullname ns.head? name) t).1
        < (mk_symreg st (_mk_fullname ns.head? name) t).2.mem.length →
      (deref (mk_ident ns st name t).2.2.mem (mk_ident ns st name t).1).type = VTIDENTIFIER) := by
  unfold mk_ident
  simp only []
  generalize mk_symreg st (_mk_fullname ns.head? name) t = S
  obtain ⟨r, st1⟩ := S
  simp only []
  by_cases ht : t = 80
  · simp only [ht, if_true]
    refine ⟨trivial, trivial, trivial, by simp, ?_, ?_, ?_⟩
    · intro q
      exact Eq.trans (name_set_retype _ _ _ _ rfl) (name_set_retype _ _ _ _ rfl)
    · intro q
      exact Eq.trans (set_set_retype _ _ _ _ rfl) (set_set_retype _ _ _ _ rfl)
    · intro hr
      rw [deref_set_self _ _ _ (by rw [List.length_set]; exact hr), deref_set_self _ _ _ hr]
  · simp only [ht, if_false]
    refine ⟨trivial, trivial, trivial, by simp, ?_, ?_, ?_⟩
    · intro q
      exact name_set_retype _ _ _ _ rfl
    · intro q
      exact set_set_retype _ _ _ _ rfl
    · intro hr
      rw [deref_set_self _ _ _ hr]


/-- What `mk_ident` guarantees on a state whose last unit has a table in
use: the symbol it returns, and that the table stays in use. -/
theorem mk_ident_spec (ns : List Namespace) (st : Interp) (name : String) (t : Int) (u : Nat)
    (hu : st.last_unit = some u) (hlt : u < st.units.length)
    (hwf : (st.unit_hash (some u)).wf) (hinv : bucket_inv st.mem (st.unit_hash (some u)))
    (halloc : allocated st.mem (st.unit_hash (some u))) :
    (mk_ident ns st name t).1 < (mk_ident ns st name t).2.2.mem.length ∧
    (deref (mk_ident ns st name t).2.2.mem (mk_ident ns st name t).1).type = VTIDENTIFIER ∧
    (deref (mk_ident ns st name t).2.2.mem (mk_ident ns st name t).1).name
      = _mk_fullname ns.head? name ∧
    (deref (mk_ident ns st name t).2.2.mem (mk_ident ns st name t).1).set = t ∧
    (mk_ident ns st name t).2.2.last_unit = some u ∧
    u < (mk_ident ns st name t).2.2.units.length ∧
    ((mk_ident ns st name t).2.2.unit_hash (some u)).wf ∧
    bucket_inv (mk_ident ns st name t).2.2.mem ((mk_ident ns st name t).2.2.unit_hash (some u)) ∧
    allocated (mk_ident ns st name t).2.2.mem ((mk_ident ns st name t).2.2.unit_hash (some u)) ∧
    (∀ p, p < st.mem.length →
      (deref (mk_ident ns st name t).2.2.mem p).name = (deref st.mem p).name) := by
  obtain ⟨s1, s2, s3, s4, s5⟩ := mk_symreg_of st (_mk_fullname ns.head? name) t u
    (_mk_symreg st.mem (st.unit_hash (some u)) (_mk_fullname ns.head? name) t).1
    (_mk_symreg st.mem (st.unit_hash (some u)) (_mk_fullname ns.head? name) t).2.1
    (_mk_symreg st.mem (st.unit_hash (some u)) (_mk_fullname ns.head? name) t).2.2 hu hlt rfl
  obtain ⟨i1, i2, i3, i4, i5, i6, i7⟩ := mk_ident_of_mk_symreg ns st name t
  obtain ⟨hwf1, hinv1, halloc1, _, _, _, _, _⟩ :=
    mk_symreg_spec st.mem (st.unit_hash (some u)) (_mk_fullname ns.head? name) t hwf hinv halloc
  obtain ⟨r1, r2, r3, _⟩ :=
    mk_symreg_result st.mem (st.unit_hash (some u)) (_mk_fullname ns.head? name) t hwf.1 halloc
  have hh : (mk_ident ns st name t).2.2.unit_hash (some u)
      = (_mk_symreg st.mem (st.unit_hash (some u)) (_mk_fullname ns.head? name) t).2.2 := by
    unfold Interp.unit_hash
    rw [i2]
    exact s3
  rw [s1, s2] at i7
  rw [s2] at i4 i5 i6
  rw [hh, i1, s1]
  refine ⟨by rw [i4]; exact r1, ?_, ?_, ?_, ?_, ?_, hwf1, ?_, ?_, ?_⟩
  · have := i7 r1
    rw [i1, s1] at this
    exact this
  · rw [i5]; exact r2
  · rw [i6]; exact r3
  · rw [i3]; exact s5
  · rw [i2]; exact s4
  · exact bucket_inv_congr _ _ _ (fun p _ => i5 p) hinv1
  · intro p hp
    rw [i4]
    exact halloc1 p hp
  · intro p hp
    rw [i5, mk_symreg_heap_old _ _ _ _ p hp]

theorem fullname_ne (p x : String) : p ++ "::" ++ x ≠ x := by
  intro h
  have := congrArg String.length h
  simp only [String.length_append] at this
  have h2 : "::".length = 2 := rfl
  omega

/-- C17: on a state whose last unit has a table in use, `mk_ident` after
`push_namespace(p)` returns an identifier symbol named `p`, `::`, `x`,
whatever the stack below; and when `p` was pushed on the empty stack and
is popped again, `mk_ident` returns an identifier symbol named `x`, which
is not the first symbol. -/
theorem mk_ident_in_namespace (st : Interp) (u : Nat) (p x : String) (t : Int)
    (hu : st.last_unit = some u) (hlt : u < st.units.length)
    (hwf : (st.unit_hash (some u)).wf) (hinv : bucket_inv st.mem (st.unit_hash (some u)))
    (halloc : allocated st.mem (st.unit_hash (some u))) :
    (∀ ns,
      (deref (mk_ident (push_namespace ns p) st x t).2.2.mem
          (mk_ident (push_namespace ns p) st x t).1).type = VTIDENTIFIER ∧
      (deref (mk_ident (push_namespace ns p) st x t).2.2.mem
          (mk_ident (push_namespace ns p) st x t).1).name = p ++ "::" ++ x) ∧
    pop_namespace (ident_inside st p x t).2.1 (some p) = (.ok (), []) ∧
    (deref (ident_outside st p x t).2.2.mem (ident_outside st p x t).1).type = VTIDENTIFIER ∧
    (deref (ident_outside st p x t).2.2.mem (ident_outside st p x t).1).name = x ∧
    (deref (ident_outside st p x t).2.2.mem (ident_inside st p x t).1).name = p ++ "::" ++ x ∧
    (ident_outside st p x t).1 ≠ (ident_inside st p x t).1 := by
  have hpop : pop_namespace (ident_inside st p x t).2.1 (some p) = (.ok (), []) := by
    unfold ident_inside push_namespace
    rw [mk_ident_stack]
    simp [pop_namespace]
  have ha : mk_ident (push_namespace [] p) st x t = ident_inside st p x t := rfl
  have A := mk_ident_spec (push_namespace [] p) st x t u hu hlt hwf hinv halloc
  rw [ha] at A
  obtain ⟨a1, a2, a3, _, a5, a6, a7, a8, a9, _⟩ := A
  have hout : ident_outside st p x t = mk_ident [] (ident_inside st p x t).2.2 x t := by
    unfold ident_outside
    rw [hpop]
  obtain ⟨b1, b2, b3, _, _, _, _, _, _, b10⟩ :=
    mk_ident_spec [] (ident_inside st p x t).2.2 x t u a5 a6 a7 a8 a9
  rw [← hout] at b1 b2 b3 b10
  have hfirst : (deref (ident_outside st p x t).2.2.mem (ident_inside st p x t).1).name
      = p ++ "::" ++ x := by
    rw [b10 _ a1]
    exact a3
  refine ⟨?_, hpop, b2, b3, hfirst, ?_⟩
  · intro ns
    obtain ⟨_, c2, c3, _⟩ := mk_ident_spec (push_namespace ns p) st x t u hu hlt hwf hinv halloc
    exact ⟨c2, c3⟩
  · intro h
    rw [← h, b3] at hfirst
    exact fullname_ne p x hfirst.symm

/-- C17, witness: the identifier `x` of kind `I` in the namespace `Pkg`
and after it, in a state with one empty unit. -/
theorem mk_ident_in_namespace_witness :
    one_unit.last_unit = some 0 ∧ 0 < one_unit.units.length ∧
    (one_unit.unit_hash (some 0)).wf ∧ bucket_inv one_unit.mem (one_unit.unit_hash (some 0)) ∧
    allocated one_unit.mem (one_unit.unit_hash (some 0)) ∧
    ((∀ ns,
      (deref (mk_ident (push_namespace ns "Pkg") one_unit "x" 73).2.2.mem
          (mk_ident (push_namespace ns "Pkg") one_unit "x" 73).1).type = VTIDENTIFIER ∧
      (deref (mk_ident (push_namespace ns "Pkg") one_unit "x" 73).2.2.mem
          (mk_ident (push_namespace ns "Pkg") one_unit "x" 73).1).name = "Pkg" ++ "::" ++ "x") ∧
    pop_namespace (ident_inside one_unit "Pkg" "x" 73).2.1 (some "Pkg") = (.ok (), []) ∧
    (deref (ident_outside one_unit "Pkg" "x" 73).2.2.mem
        (ident_outside one_unit "Pkg" "x" 73).1).type = VTIDENTIFIER ∧
    (deref (ident_outside one_unit "Pkg" "x" 73).2.2.mem
        (ident_outside one_unit "Pkg" "x" 73).1).name = "x" ∧
    (deref (ident_outside one_unit "Pkg" "x" 73).2.2.mem
        (ident_inside one_unit "Pkg" "x" 73).1).name = "Pkg" ++ "::" ++ "x" ∧
    (ident_outside one_unit "Pkg" "x" 73).1 ≠ (ident_inside one_unit "Pkg" "x" 73).1) :=
  ⟨by decide, by decide, by decide, by decide, by decide,
    mk_ident_in_namespace one_unit 0 "Pkg" "x" 73 (by decide) (by decide) (by decide)
      (by decide) (by decide)⟩

/-- C18: `_mk_fullname` returns the name as it is when no frame is given
and else the name of the frame, `::` and the name; `mk_fullname` uses the
top frame only, whatever lies below it: with `A` then `B` pushed, the
full name of `x` is `B::x`. -/
theorem mk_fullname_top (name : String) :
    _mk_fullname none name = name ∧
    (∀ frame : Namespace, _mk_fullname (some frame) name = frame.name ++ "::" ++ name) ∧
    mk_fullname [] name = name ∧
    (∀ (ns : List Namespace) (a b : String),
      mk_fullname (push_namespace (push_namespace ns a) b) name = b ++ "::" ++ name) ∧
    mk_fullname (push_namespace (push_namespace [] "A") "B") "x" = "B::x" :=
  ⟨rfl, fun _ => rfl, rfl, fun _ _ _ => rfl, by decide⟩


/-! ## Constants and add-all addresses: claims -/

/-- The heap `_mk_const` leaves, in terms of what `_mk_symreg` returned. -/
theorem mk_const_of (mem : List SymReg) (hsh : SymHash) (name : String) (t : Int) :
    (_mk_const mem hsh name t).1 = (_mk_symreg mem hsh name t).1 ∧
    (_mk_const mem hsh name t).2.2 = (_mk_symreg mem hsh name t).2.2 ∧
    ((_mk_symreg mem hsh name t).1 < (_mk_symreg mem hsh name t).2.1.length →
      (deref (_mk_const mem hsh name t).2.1 (_mk_const mem hsh name t).1).name
        = (deref (_mk_symreg mem hsh name t).2.1 (_mk_symreg mem hsh name t).1).name ∧
      (deref (_mk_const mem hsh name t).2.1 (_mk_const mem hsh name t).1).use_count
        = (deref (_mk_symreg mem hsh name t).2.1 (_mk_symreg mem hsh name t).1).use_count + 1 ∧
      (deref (_mk_const mem hsh name t).2.1 (_mk_const mem hsh name t).1).type
        = (if t = 85 then VTCONST ||| VT_ENCODED else VTCONST) ∧
      (deref (_mk_const mem hsh name t).2.1 (_mk_const mem hsh name t).1).set
        = (if t = 85 then 83
            else (deref (_mk_symreg mem hsh name t).2.1 (_mk_symreg mem hsh name t).1).set)) := by
  unfold _mk_const
  generalize _mk_symreg mem hsh name t = X
  obtain ⟨r, m, h⟩ := X
  simp only []
  refine ⟨trivial, trivial, ?_⟩
  intro hr
  by_cases ht : t = 85
  · simp only [ht, if_true]
    rw [deref_set_self _ _ _ (by simp only [List.length_set]; exact hr),
      deref_set_self _ _ _ (by simp only [List.length_set]; exact hr), deref_set_self _ _ _ hr]
    exact ⟨rfl, rfl, rfl, rfl⟩
  · simp only [ht, if_false]
    rw [deref_set_self _ _ _ (by simp only [List.length_set]; exact hr),
      deref_set_self _ _ _ hr]
    exact ⟨rfl, rfl, rfl, rfl⟩

/-- C19 (as amended): on a table of positive size whose symbols are
allocated, `_mk_const` returns the symbol the typed lookup finds for the
name and the kind, if there is one, and then stores nothing; only when
there is none it allocates a symbol, different from every symbol of the
table, and stores it, so that the entry count grows by one, and its use
count is 1.  Either way the use count goes up by one, the type becomes
`VTCONST` (with `VT_ENCODED` for the kind `U`) and the kind is the one
asked for (`S` for `U`). -/
theorem mk_const_reuses (mem : List SymReg) (hsh : SymHash) (name : String) (t : Int)
    (hpos : 0 < hsh.size) (halloc : allocated mem hsh) :
    (∀ r, _get_sym_typed mem hsh name t = some r →
      (_mk_const mem hsh name t).1 = r ∧ (_mk_const mem hsh name t).2.2 = hsh ∧
      r ∈ hsh.syms ∧
      (deref (_mk_const mem hsh name t).2.1 r).use_count = (deref mem r).use_count + 1) ∧
    (_get_sym_typed mem hsh name t = none →
      (_mk_const mem hsh name t).1 = mem.length ∧
      (∀ p ∈ hsh.syms, p ≠ (_mk_const mem hsh name t).1) ∧
      (_mk_const mem hsh name t).2.2 = _store_symreg (mem ++ [new_symreg name t]) hsh mem.length ∧
      (_mk_const mem hsh name t).2.2.entries = hsh.entries + 1 ∧
      (deref (_mk_const mem hsh name t).2.1 mem.length).use_count = 1) ∧
    (deref (_mk_const mem hsh name t).2.1 (_mk_const mem hsh name t).1).name = name ∧
    (deref (_mk_const mem hsh name t).2.1 (_mk_const mem hsh name t).1).type
      = (if t = 85 then VTCONST ||| VT_ENCODED else VTCONST) ∧
    (deref (_mk_const mem hsh name t).2.1 (_mk_const mem hsh name t).1).set
      = (if t = 85 then 83 else t) := by
  obtain ⟨c1, c2, c3⟩ := mk_const_of mem hsh name t
  obtain ⟨r1, r2, r3, _⟩ := mk_symreg_result mem hsh name t hpos halloc
  obtain ⟨d1, d2, d3, d4⟩ := c3 r1
  refine ⟨?_, ?_, by rw [d1]; exact r2, d3, by rw [d4, r3]⟩
  · intro r hg
    have e := mk_symreg_of_some mem hsh name t r hg
    rw [e] at c1 c2 d2
    simp only [] at c1 c2 d2
    refine ⟨c1, c2, ?_, ?_⟩
    · unfold _get_sym_typed at hg
      exact (mem_syms hsh r).2 ⟨_, Nat.mod_lt _ hpos, List.mem_of_find?_eq_some hg⟩
    · rw [c1] at d2
      exact d2
  · intro hg
    have e := mk_symreg_of_none mem hsh name t hg
    rw [e] at c1 c2 d2
    simp only [] at c1 c2 d2
    refine ⟨c1, ?_, c2, by rw [c2, store_entries], ?_⟩
    · intro p hp h
      rw [c1] at h
      exact absurd (halloc p hp) (by rw [h]; exact Nat.lt_irrefl _)
    · rw [c1, deref_append_length] at d2
      exact d2

/-- C19, witness: the constant `42` of kind `I` made in a fresh table. -/
theorem mk_const_reuses_witness :
    0 < create_symhash.size ∧ allocated [] create_symhash ∧
    ((∀ r, _get_sym_typed [] create_symhash "42" 73 = some r →
      (_mk_const [] create_symhash "42" 73).1 = r ∧
      (_mk_const [] create_symhash "42" 73).2.2 = create_symhash ∧
      r ∈ create_symhash.syms ∧
      (deref (_mk_const [] create_symhash "42" 73).2.1 r).use_count
        = (deref [] r).use_count + 1) ∧
    (_get_sym_typed [] create_symhash "42" 73 = none →
      (_mk_const [] create_symhash "42" 73).1 = ([] : List SymReg).length ∧
      (∀ p ∈ create_symhash.syms, p ≠ (_mk_const [] create_symhash "42" 73).1) ∧
      (_mk_const [] create_symhash "42" 73).2.2
        = _store_symreg ([] ++ [new_symreg "42" 73]) create_symhash ([] : List SymReg).length ∧
      (_mk_const [] create_symhash "42" 73).2.2.entries = create_symhash.entries + 1 ∧
      (deref (_mk_const [] create_symhash "42" 73).2.1 ([] : List SymReg).length).use_count
        = 1) ∧
    (deref (_mk_const [] create_symhash "42" 73).2.1
        (_mk_const [] create_symhash "42" 73).1).name = "42" ∧
    (deref (_mk_const [] create_symhash "42" 73).2.1
        (_mk_const [] create_symhash "42" 73).1).type
      = (if (73 : Int) = 85 then VTCONST ||| VT_ENCODED else VTCONST) ∧
    (deref (_mk_const [] create_symhash "42" 73).2.1
        (_mk_const [] create_symhash "42" 73).1).set
      = (if (73 : Int) = 85 then 83 else 73)) :=
  ⟨by decide, allocated_create_symhash [],
    mk_const_reuses [] create_symhash "42" 73 (by decide) (allocated_create_symhash [])⟩

/-- C19, counterexample: the constant `42` of kind `I` made twice in a
fresh table.  The second call returns the symbol of the first, which is
in the table, leaves the entry count at 1 and the use count at 2; and a
register `x` of kind `I` that is in the table is what `_mk_const` returns
for `x` and `I`, with nothing stored. -/
theorem mk_const_twice_same_symbol :
    (_mk_const [] create_symhash "42" 73).1 = 0 ∧
    (_mk_const [] create_symhash "42" 73).2.2.entries = 1 ∧
    0 ∈ (_mk_const [] create_symhash "42" 73).2.2.syms ∧
    (_mk_const (_mk_const [] create_symhash "42" 73).2.1
      (_mk_const [] create_symhash "42" 73).2.2 "42" 73).1 = 0 ∧
    (_mk_const (_mk_const [] create_symhash "42" 73).2.1
      (_mk_const [] create_symhash "42" 73).2.2 "42" 73).2.2.entries = 1 ∧
    (deref (_mk_const (_mk_const [] create_symhash "42" 73).2.1
      (_mk_const [] create_symhash "42" 73).2.2 "42" 73).2.1 0).use_count = 2 ∧
    (_mk_symreg [] create_symhash "x" 73).1 = 0 ∧
    (_mk_const (_mk_symreg [] create_symhash "x" 73).2.1
      (_mk_symreg [] create_symhash "x" 73).2.2 "x" 73).1 = 0 ∧
    (_mk_const (_mk_symreg [] create_symhash "x" 73).2.1
      (_mk_symreg [] create_symhash "x" 73).2.2 "x" 73).2.2.entries
      = (_mk_symreg [] create_symhash "x" 73).2.2.entries := by
  decide

/-- C20: `_mk_address` with the policy add-all, on a table in use whose
symbols are allocated, never fails: it allocates an address symbol with
the name as given, different from every symbol of the table whatever
their names, and stores it, so that the entry count grows by one and the
table holds the new symbol next to the old ones. -/
theorem mk_address_add_all (mem : List SymReg) (ns : Option Ptr) (hsh : SymHash)
    (name : String) (hwf : hsh.wf) (halloc : allocated mem hsh) :
    (_mk_address mem ns hsh name U_add_all).1 = .ok mem.length ∧
    (∀ p ∈ hsh.syms, p ≠ mem.length) ∧
    (_mk_address mem ns hsh name U_add_all).2.1 = mem ++ [{ type := VTADDRESS, name := name }] ∧
    (deref (_mk_address mem ns hsh name U_add_all).2.1 mem.length).name = name ∧
    (deref (_mk_address mem ns hsh name U_add_all).2.1 mem.length).type = VTADDRESS ∧
    (_mk_address mem ns hsh name U_add_all).2.2.entries = hsh.entries + 1 ∧
    (∀ p, p ∈ (_mk_address mem ns hsh name U_add_all).2.2.syms ↔ p = mem.length ∨ p ∈ hsh.syms) := by
  have e : _mk_address mem ns hsh name U_add_all
      = (.ok mem.length, mem ++ [{ type := VTADDRESS, name := name }],
          _store_symreg (mem ++ [{ type := VTADDRESS, name := name }]) hsh mem.length) := by
    unfold _mk_address
    rw [if_pos rfl]
  rw [e]
  simp only []
  refine ⟨trivial, ?_, trivial, ?_, ?_, store_entries _ _ _, ?_⟩
  · intro p hp h
    exact absurd (halloc p hp) (by rw [h]; exact Nat.lt_irrefl _)
  · rw [deref_append_length]
  · rw [deref_append_length]
  · intro p
    rw [(store_syms_perm _ hsh mem.length hwf).mem_iff, List.mem_cons]

/-- C20, witness: a second entry point `main` added to a table that holds
an address symbol `main`. -/
theorem mk_address_add_all_witness :
    (_mk_address [] none create_symhash "main" U_add_all).2.2.wf ∧
    allocated (_mk_address [] none create_symhash "main" U_add_all).2.1
      (_mk_address [] none create_symhash "main" U_add_all).2.2 ∧
    ((_mk_address (_mk_address [] none create_symhash "main" U_add_all).2.1 none
        (_mk_address [] none create_symhash "main" U_add_all).2.2 "main" U_add_all).1
      = .ok (_mk_address [] none create_symhash "main" U_add_all).2.1.length ∧
    (∀ p ∈ (_mk_address [] none create_symhash "main" U_add_all).2.2.syms,
      p ≠ (_mk_address [] none create_symhash "main" U_add_all).2.1.length) ∧
    (_mk_address (_mk_address [] none create_symhash "main" U_add_all).2.1 none
        (_mk_address [] none create_symhash "main" U_add_all).2.2 "main" U_add_all).2.1
      = (_mk_address [] none create_symhash "main" U_add_all).2.1
          ++ [{ type := VTADDRESS, name := "main" }] ∧
    (deref (_mk_address (_mk_address [] none create_symhash "main" U_add_all).2.1 none
        (_mk_address [] none create_symhash "main" U_add_all).2.2 "main" U_add_all).2.1
      (_mk_address [] none create_symhash "main" U_add_all).2.1.length).name = "main" ∧
    (deref (_mk_address (_mk_address [] none create_symhash "main" U_add_all).2.1 none
        (_mk_address [] none create_symhash "main" U_add_all).2.2 "main" U_add_all).2.1
      (_mk_address [] none create_symhash "main" U_add_all).2.1.length).type = VTADDRESS ∧
    (_mk_address (_mk_address [] none create_symhash "main" U_add_all).2.1 none
        (_mk_address [] none create_symhash "main" U_add_all).2.2 "main" U_add_all).2.2.entries
      = (_mk_address [] none create_symhash "main" U_add_all).2.2.entries + 1 ∧
    (∀ p, p ∈ (_mk_address (_mk_address [] none create_symhash "main" U_add_all).2.1 none
        (_mk_address [] none create_symhash "main" U_add_all).2.2 "main" U_add_all).2.2.syms
      ↔ p = (_mk_address [] none create_symhash "main" U_add_all).2.1.length ∨
        p ∈ (_mk_address [] none create_symhash "main" U_add_all).2.2.syms)) :=
  ⟨by decide, by decide,
    mk_address_add_all (_mk_address [] none create_symhash "main" U_add_all).2.1 none
      (_mk_address [] none create_symhash "main" U_add_all).2.2 "main" (by decide) (by decide)⟩


/-! ## The hash function, the scoped lookup, constant identifiers: claims -/

theorem first_hit_append_none (l1 l2 : List (Option Ptr)) (h : ∀ o ∈ l1, o = none) :
    first_hit (l1 ++ l2) = first_hit l2 := by
  induction l1 with
  | nil => rfl
  | cons o l1 ih =>
    have ho := h o (List.mem_cons_self _ _)
    subst ho
    exact ih (fun x hx => h x (List.mem_cons_of_mem _ hx))

theorem first_hit_eq_none (l : List (Option Ptr)) :
    first_hit l = none ↔ ∀ o ∈ l, o = none := by
  induction l with
  | nil => simp [first_hit]
  | cons o l ih =>
    cases o with
    | none => simp [first_hit, ih]
    | some p => simp [first_hit]

theorem find_sym_eq_first_hit (st : Interp) (nspace : List Namespace) (hsh : SymHash)
    (name : String) :
    _find_sym st nspace hsh name = first_hit (scoped_lookups st nspace hsh name) := by
  unfold scoped_lookups
  induction nspace with
  | nil =>
    simp only [_find_sym, List.map_nil, List.nil_append]
    cases _get_sym st.mem hsh name with
    | some p => rfl
    | none =>
      cases _get_sym st.mem st.ghash name <;> rfl
  | cons frame parent ih =>
    simp only [_find_sym, _mk_fullname, List.map_cons, List.cons_append]
    cases _get_sym st.mem hsh (frame.name ++ "::" ++ name) with
    | some p => rfl
    | none => exact ih

/-- C25: `_find_sym` returns the first hit among the lookups of the full
name under each frame from the given one outward, of the plain name in
the given table and of the plain name in the global table, in this
order, and not-found exactly when all of them miss; `find_sym` is this
lookup from the top of the stack in the hash of the current unit. -/
theorem find_sym_first_hit (st : Interp) (nspace : List Namespace) (hsh : SymHash)
    (name : String) :
    _find_sym st nspace hsh name = first_hit (scoped_lookups st nspace hsh name) ∧
    (_find_sym st nspace hsh name = none
      ↔ (∀ frame ∈ nspace, _get_sym st.mem hsh (frame.name ++ "::" ++ name) = none) ∧
        _get_sym st.mem hsh name = none ∧ _get_sym st.mem st.ghash name = none) ∧
    (∀ u, st.cur_unit = some u →
      find_sym nspace st name
        = first_hit (scoped_lookups st nspace (st.unit_hash (some u)) name)) ∧
    (st.cur_unit = none → find_sym nspace st name = none) := by
  have h1 := find_sym_eq_first_hit st nspace hsh name
  refine ⟨h1, ?_, ?_, ?_⟩
  · rw [h1, first_hit_eq_none]
    unfold scoped_lookups
    simp only [List.mem_append, List.mem_map, List.mem_cons, List.mem_singleton,
      List.not_mem_nil, or_false]
    constructor
    · intro h
      refine ⟨fun frame hf => h _ (Or.inl ⟨frame, hf, rfl⟩), h _ (Or.inr (Or.inl rfl)),
        h _ (Or.inr (Or.inr rfl))⟩
    · rintro ⟨ha, hb, hc⟩ o ho
      rcases ho with ⟨frame, hf, rfl⟩ | rfl | rfl
      · exact ha frame hf
      · exact hb
      · exact hc
  · intro u hu
    unfold find_sym
    rw [hu]
    exact find_sym_eq_first_hit st nspace _ name
  · intro hu
    unfold find_sym
    rw [hu]

/-- C23: `mk_const_ident` reports `bad const initialisation` when the
kind is `I` or `N` and the value is a string, and `global PMC constant
not allowed` when `global` is set and the kind is `P`; either way the
namespace stack and the whole state, so every table and the value
symbol, stay as they were and no symbol is returned. -/
theorem mk_const_ident_rejects (ext : Extern) (_namespace : List Namespace) (st : Interp)
    (name : String) (t : Int) (val : Ptr) (global : Int)
    (h : ((t = 73 ∨ t = 78) ∧ (deref st.mem val).set = 83) ∨ (global ≠ 0 ∧ t = 80)) :
    (((t = 73 ∨ t = 78) ∧ (deref st.mem val).set = 83) →
      mk_const_ident ext _namespace st name t val global
        = (.error "bad const initialisation", _namespace, st)) ∧
    ((global ≠ 0 ∧ t = 80) →
      mk_const_ident ext _namespace st name t val global
        = (.error "global PMC constant not allowed", _namespace, st)) ∧
    ∃ msg, mk_const_ident ext _namespace st name t val global = (.error msg, _namespace, st) := by
  have a : ((t = 73 ∨ t = 78) ∧ (deref st.mem val).set = 83) →
      mk_const_ident ext _namespace st name t val global
        = (.error "bad const initialisation", _namespace, st) := by
    rintro ⟨ht, hs⟩
    unfold mk_const_ident
    rw [if_pos ⟨ht.symm, hs⟩]
  have b : (global ≠ 0 ∧ t = 80) →
      mk_const_ident ext _namespace st name t val global
        = (.error "global PMC constant not allowed", _namespace, st) := by
    rintro ⟨hg, ht⟩
    subst ht
    unfold mk_const_ident
    simp [hg]
  refine ⟨a, b, ?_⟩
  rcases h with h | h
  · exact ⟨_, a h⟩
  · exact ⟨_, b h⟩

/-- C23, witness: the string `"abc"` given as the value of an integer
constant. -/
theorem mk_const_ident_rejects_witness :
    ((((73 : Int) = 73 ∨ (73 : Int) = 78) ∧ (deref string_value.mem 0).set = 83)
      ∨ ((0 : Int) ≠ 0 ∧ (73 : Int) = 80)) ∧
    (((((73 : Int) = 73 ∨ (73 : Int) = 78) ∧ (deref string_value.mem 0).set = 83) →
      mk_const_ident no_extern [] string_value "c" 73 0 0
        = (.error "bad const initialisation", [], string_value)) ∧
    (((0 : Int) ≠ 0 ∧ (73 : Int) = 80) →
      mk_const_ident no_extern [] string_value "c" 73 0 0
        = (.error "global PMC constant not allowed", [], string_value)) ∧
    ∃ msg, mk_const_ident no_extern [] string_value "c" 73 0 0
      = (.error msg, [], string_value)) :=
  ⟨by decide, mk_const_ident_rejects no_extern [] string_value "c" 73 0 0 (by decide)⟩


/-! ## Machine registers and name mangling: claims -/

/-- Library `atoi` of a string that denotes a number in the range of
`int` is that number. -/
theorem atoi_of_in_range (s : List Char) (h1 : -(2 ^ 31) ≤ decimal_value s)
    (h2 : decimal_value s < 2 ^ 31) : atoi s = decimal_value s := by
  unfold atoi strtol LONG_MIN LONG_MAX
  norm_num at h1 h2 ⊢
  split
  · omega
  · split
    · omega
    · omega

/-- The `int` that `atoi` returns is in the range of `int`. -/
theorem atoi_range (s : List Char) : -(2 ^ 31) ≤ atoi s ∧ atoi s < 2 ^ 31 := by
  unfold atoi
  norm_num
  omega

/-- The machine register `I4294967295`: the number is out of the range of
`int`, `atoi` returns -1, and `mk_pasm_reg` reports it. -/
theorem mk_pasm_reg_out_of_int :
    atoi ("I4294967295".data.drop 1) = -1 ∧
    (mk_pasm_reg one_unit "I4294967295").1
      = .error "register number out of range 'I4294967295'\n" := by
  decide

/-- C24 (as amended): for a name that is not in the hash of the current
unit, on a state whose last unit has a table of positive size with
allocated symbols, `mk_pasm_reg` reports `register number out of range`
exactly when the `int` that `atoi` returns for the text after the first
character is negative; otherwise it returns the new symbol, whose color is
that `int`.  The `int` is in the range of `int`, and for a text that
denotes a number in that range it is this number. -/
theorem mk_pasm_reg_negative (st : Interp) (name : String) (u : Nat)
    (hu : st.last_unit = some u) (hlt : u < st.units.length)
    (hpos : 0 < (st.unit_hash (some u)).size) (halloc : allocated st.mem (st.unit_hash (some u)))
    (hnew : _get_sym st.mem (st.unit_hash st.cur_unit) name = none) :
    ((∃ msg, (mk_pasm_reg st name).1 = .error msg) ↔ atoi (name.data.drop 1) < 0) ∧
    (atoi (name.data.drop 1) < 0 →
      (mk_pasm_reg st name).1 = .error ("register number out of range '" ++ name ++ "'\n")) ∧
    (0 ≤ atoi (name.data.drop 1) →
      ∃ r, (mk_pasm_reg st name).1 = .ok r ∧
        (deref (mk_pasm_reg st name).2.mem r).color = atoi (name.data.drop 1) ∧
        (deref (mk_pasm_reg st name).2.mem r).type = VTPASM) ∧
    (-(2 ^ 31) ≤ atoi (name.data.drop 1) ∧ atoi (name.data.drop 1) < 2 ^ 31) ∧
    (-(2 ^ 31) ≤ decimal_value (name.data.drop 1) → decimal_value (name.data.drop 1) < 2 ^ 31 →
      atoi (name.data.drop 1) = decimal_value (name.data.drop 1)) := by
  obtain ⟨s1, s2, _, _, _⟩ := mk_symreg_of st name (name.data.headD (Char.ofNat 0)).toNat u
    (_mk_symreg st.mem (st.unit_hash (some u)) name (name.data.headD (Char.ofNat 0)).toNat).1
    (_mk_symreg st.mem (st.unit_hash (some u)) name (name.data.headD (Char.ofNat 0)).toNat).2.1
    (_mk_symreg st.mem (st.unit_hash (some u)) name (name.data.headD (Char.ofNat 0)).toNat).2.2
    hu hlt rfl
  have hr : (mk_symreg st name (name.data.headD (Char.ofNat 0)).toNat).1
      < (mk_symreg st name (name.data.headD (Char.ofNat 0)).toNat).2.mem.length := by
    rw [s1, s2]
    exact (mk_symreg_result _ _ _ _ hpos halloc).1
  refine ⟨?_, ?_, ?_, atoi_range _, atoi_of_in_range _⟩ <;>
    unfold mk_pasm_reg <;> rw [hnew] <;> simp only [] <;>
    generalize mk_symreg st name (name.data.headD (Char.ofNat 0)).toNat = S at hr <;>
    obtain ⟨r, st1⟩ := S <;> simp only [] at hr ⊢ <;>
    have hc : (deref ((st1.mem.set r { deref st1.mem r with type := VTPASM }).set r
      { deref (st1.mem.set r { deref st1.mem r with type := VTPASM }) r with
        color := atoi (name.data.drop 1) }) r)
      = { deref st1.mem r with type := VTPASM, color := atoi (name.data.drop 1) } := by
      rw [deref_set_self _ _ _ (by rw [List.length_set]; exact hr), deref_set_self _ _ _ hr]
  all_goals rw [hc]
  all_goals simp only []
  all_goals by_cases hneg : atoi (name.data.drop 1) < 0
  · rw [if_pos hneg]
    exact ⟨fun _ => hneg, fun _ => ⟨_, rfl⟩⟩
  · rw [if_neg hneg]
    refine ⟨?_, fun h => absurd h hneg⟩
    rintro ⟨msg, h⟩
    cases h
  · rw [if_pos hneg]
    exact fun _ => rfl
  · rw [if_neg hneg]
    exact fun h => absurd h hneg
  · rw [if_pos hneg]
    exact fun h => absurd hneg (not_lt.2 h)
  · rw [if_neg hneg]
    intro _
    exact ⟨r, rfl, by rw [hc], by rw [hc]⟩

/-- C24, witness: the machine register `I-1` in a state with one empty
unit. -/
theorem mk_pasm_reg_negative_witness :
    one_unit.last_unit = some 0 ∧ 0 < one_unit.units.length ∧
    0 < (one_unit.unit_hash (some 0)).size ∧
    allocated one_unit.mem (one_unit.unit_hash (some 0)) ∧
    _get_sym one_unit.mem (one_unit.unit_hash one_unit.cur_unit) "I-1" = none ∧
    (((∃ msg, (mk_pasm_reg one_unit "I-1").1 = .error msg) ↔ atoi ("I-1".data.drop 1) < 0) ∧
    (atoi ("I-1".data.drop 1) < 0 →
      (mk_pasm_reg one_unit "I-1").1
        = .error ("register number out of range '" ++ "I-1" ++ "'\n")) ∧
    (0 ≤ atoi ("I-1".data.drop 1) →
      ∃ r, (mk_pasm_reg one_unit "I-1").1 = .ok r ∧
        (deref (mk_pasm_reg one_unit "I-1").2.mem r).color = atoi ("I-1".data.drop 1) ∧
        (deref (mk_pasm_reg one_unit "I-1").2.mem r).type = VTPASM) ∧
    (-(2 ^ 31) ≤ atoi ("I-1".data.drop 1) ∧ atoi ("I-1".data.drop 1) < 2 ^ 31) ∧
    (-(2 ^ 31) ≤ decimal_value ("I-1".data.drop 1) →
      decimal_value ("I-1".data.drop 1) < 2 ^ 31 →
      atoi ("I-1".data.drop 1) = decimal_value ("I-1".data.drop 1))) :=
  ⟨by decide, by decide, by decide, by decide, by decide,
    mk_pasm_reg_negative one_unit "I-1" 0 (by decide) (by decide) (by decide) (by decide)
      (by decide)⟩

/-- C24, counterexample: the name `Ix`, not in the table, whose suffix is
no number: `mk_pasm_reg` reports nothing and returns a machine register
of color 0. -/
theorem mk_pasm_reg_accepts_non_numeric :
    _get_sym one_unit.mem (one_unit.unit_hash one_unit.cur_unit) "Ix" = none ∧
    (mk_pasm_reg one_unit "Ix").1 = .ok 0 ∧
    (deref (mk_pasm_reg one_unit "Ix").2.mem 0).color = 0 ∧
    (deref (mk_pasm_reg one_unit "Ix").2.mem 0).type = VTPASM := by
  decide

/-- C22, the code at the failing input: in the namespace rendered
`"Foo";"Bar";"Baz"` the sub `x` is mangled to `_Foo@@@Bar";"Baz@@@x`;
the second quoted separator is still there, at offset 10. -/
theorem add_ns_leaves_second_separator :
    2 < (deref three_parts 0).name.length ∧
    add_ns three_parts (some 0) "x" = "_Foo@@@Bar\";\"Baz@@@x" ∧
    strstr (add_ns three_parts (some 0) "x").data quoted_separator = some 10 := by
  decide

/-- C28, the code at the failing input: the symbol `_mk_address` creates
under the policy add-all has color 0, and 0 as the register asked for,
where the symbols it creates under the other three policies, the symbol
`_mk_symreg` creates and the chain head `link_keys` creates have
color -1. -/
theorem mk_address_add_all_color :
    (_mk_address [] none create_symhash "main" U_add_all).1 = .ok 0 ∧
    (deref (_mk_address [] none create_symhash "main" U_add_all).2.1 0).color = 0 ∧
    (deref (_mk_address [] none create_symhash "main" U_add_all).2.1 0).want_regno = 0 ∧
    (_mk_address [] none create_symhash "main" U_add_once).1 = .ok 0 ∧
    (deref (_mk_address [] none create_symhash "main" U_add_once).2.1 0).color = -1 ∧
    (deref (_mk_address [] none create_symhash "main" U_add_uniq_label).2.1 0).color = -1 ∧
    (deref (_mk_address [] none create_symhash "main" U_add_uniq_sub).2.1 0).color = -1 ∧
    (deref (_mk_symreg [] create_symhash "x" 73).2.1 (_mk_symreg [] create_symhash "x" 73).1).color
      = -1 ∧
    (link_keys two_keys [0, 1] 0).1 = .ok 2 ∧
    (deref (link_keys two_keys [0, 1] 0).2.mem 2).color = -1 := by
  decide


/-! ## `strstr` and the buffer of `add_ns` -/

/-- Library `strstr` finds nothing exactly when the needle is no infix of
the text. -/
theorem strstr_eq_none_iff (hay pat : List Char) :
    strstr hay pat = none ↔ ¬ pat <:+: hay := by
  induction hay with
  | nil =>
    cases pat with
    | nil => simp [strstr]
    | cons p ps => simp [strstr]
  | cons c cs ih =>
    unfold strstr
    rw [List.infix_cons_iff]
    by_cases hp : pat.isPrefixOf (c :: cs) = true
    · rw [if_pos hp]
      have := List.isPrefixOf_iff_prefix.1 hp
      simp [this]
    · rw [if_neg hp]
      have hn : ¬ pat <+: c :: cs := fun h => hp (List.isPrefixOf_iff_prefix.2 h)
      simp only [Option.map_eq_none', ih, hn, false_or]

/-- A needle found in two texts joined by a character it does not hold is
found in one of the texts. -/
theorem infix_append_cons (pat : List Char) (c : Char) (hc : c ∉ pat) :
    ∀ A B : List Char, pat <:+: A ++ c :: B → pat <:+: A ∨ pat <:+: B := by
  intro A B
  induction A with
  | nil =>
    intro h
    rw [List.nil_append, List.infix_cons_iff] at h
    rcases h with h | h
    · cases pat with
      | nil => exact Or.inr List.nil_infix
      | cons p ps =>
        obtain ⟨t, ht⟩ := h
        rw [List.cons_append] at ht
        injection ht with h1 _
        exact absurd (h1 ▸ List.mem_cons_self p ps) hc
    · exact Or.inr h
  | cons a A ih =>
    intro h
    rw [List.cons_append, List.infix_cons_iff] at h
    rcases h with h | h
    · have hA : a :: A <+: a :: (A ++ c :: B) := ⟨c :: B, by simp⟩
      rcases List.prefix_or_prefix_of_prefix h hA with h1 | h1
      · exact Or.inl h1.isInfix
      · obtain ⟨r, hr⟩ := h1
        cases r with
        | nil =>
          rw [List.append_nil] at hr
          exact Or.inl (hr ▸ List.infix_refl _)
        | cons x r =>
          obtain ⟨t, ht⟩ := h
          rw [← hr, List.append_assoc, ← List.cons_append a A] at ht
          have ht := List.append_cancel_left ht
          rw [List.cons_append] at ht
          injection ht with h1 _
          refine absurd ?_ hc
          rw [← hr, h1]
          simp
    · rcases ih h with h1 | h1
      · exact Or.inl (List.infix_cons h1)
      · exact Or.inr h1

/-- The quoted separator is in neither part of the buffer of `add_ns` if
it is in neither the namespace name nor the sub name. -/
theorem add_ns_buffer_free (ns name : List Char) (n : Nat)
    (hns : ¬ quoted_separator <:+: ns) (hname : ¬ quoted_separator <:+: name) :
    ¬ quoted_separator <:+: (ns.set 0 '_').take n ++ ['@', '@', '@'] ++ name := by
  have hat : '@' ∉ quoted_separator := by decide
  have hne : ∀ l : List Char, quoted_separator <:+: l → l ≠ [] := by
    intro l h hl
    rw [hl, List.infix_nil] at h
    exact absurd h (by decide)
  intro h
  rw [List.append_assoc, List.cons_append] at h
  rcases infix_append_cons _ _ hat _ _ h with h | h
  · have h1 : quoted_separator <:+: ns.set 0 '_' :=
      h.trans (List.take_prefix _ _).isInfix
    cases ns with
    | nil => exact hns h1
    | cons c cs =>
      rw [List.set_cons_zero, List.infix_cons_iff] at h1
      rcases h1 with h2 | h2
      · obtain ⟨t, ht⟩ := h2
        have : dquote = '_' := by
          unfold quoted_separator at ht
          rw [List.cons_append] at ht
          injection ht
        exact absurd this (by decide)
      · exact hns (List.infix_cons h2)
  · rcases infix_append_cons _ _ hat [] _ h with h | h
    · exact hne _ h rfl
    · rcases infix_append_cons _ _ hat [] _ h with h | h
      · exact hne _ h rfl
      · exact hname h

/-- The loop of `add_ns` leaves the buffer alone when nothing was found. -/
theorem add_ns_loop_none (fuel : Nat) (buf : List Char) : add_ns_loop fuel buf none = buf := by
  cases fuel <;> rfl

/-! ## `add_ns`: claims -/

/-- C21 (as amended): without a current namespace, or with one whose
rendered name has at most two characters, `add_ns` returns the name
unchanged.  With a current namespace whose rendered name has more than
two characters, when the quoted separator occurs neither in that name nor
in the sub name, `add_ns` returns the rendered name with its first
character replaced by `_` and its last character cut off, followed by
`@@@`, followed by the name. -/
theorem add_ns_no_separator (mem : List SymReg) (ns : Ptr) (name : String)
    (hlen : 2 < (deref mem ns).name.length)
    (hns : strstr (deref mem ns).name.data quoted_separator = none)
    (hname : strstr name.data quoted_separator = none) :
    add_ns mem (some ns) name
      = String.mk (((deref mem ns).name.data.set 0 '_').take ((deref mem ns).name.length - 1))
          ++ "@@@" ++ name ∧
    add_ns mem none name = name ∧
    ∀ p, (deref mem p).name.length ≤ 2 → add_ns mem (some p) name = name := by
  refine ⟨?_, rfl, ?_⟩
  · unfold add_ns
    simp only []
    rw [if_neg (by omega)]
    have hfree := add_ns_buffer_free _ _ ((deref mem ns).name.length - 1)
      ((strstr_eq_none_iff _ _).1 hns) ((strstr_eq_none_iff _ _).1 hname)
    have hnone := (strstr_eq_none_iff _ _).2 hfree
    unfold quoted_separator at hnone
    rw [hnone, add_ns_loop_none]
    rfl
  · intro p hp
    unfold add_ns
    simp only []
    rw [if_pos hp]

/-- C21, witness: the sub `bar` in the namespace rendered `"Foo"`. -/
theorem add_ns_no_separator_witness :
    2 < (deref one_part 0).name.length ∧
    strstr (deref one_part 0).name.data quoted_separator = none ∧
    strstr "bar".data quoted_separator = none ∧
    (add_ns one_part (some 0) "bar"
      = String.mk (((deref one_part 0).name.data.set 0 '_').take
          ((deref one_part 0).name.length - 1)) ++ "@@@" ++ "bar" ∧
    add_ns one_part none "bar" = "bar" ∧
    ∀ p, (deref one_part p).name.length ≤ 2 → add_ns one_part (some p) "bar" = "bar") :=
  ⟨by decide, by decide, by decide,
    add_ns_no_separator one_part 0 "bar" (by decide) (by decide) (by decide)⟩

/-- C21, counterexample: in the namespace rendered `"Foo"`, five
characters without a quoted separator, the sub `bar` is mangled to
`_Foo@@@bar`, not to the rendered name with only its first character
replaced, `_Foo"`, followed by `@@@bar`. -/
theorem add_ns_cuts_last_character :
    2 < (deref one_part 0).name.length ∧
    strstr (deref one_part 0).name.data quoted_separator = none ∧
    add_ns one_part (some 0) "bar" = "_Foo@@@bar" ∧
    add_ns one_part (some 0) "bar"
      ≠ String.mk ((deref one_part 0).name.data.set 0 '_') ++ "@@@" ++ "bar" := by
  decide


/-! ## The copying loop of `link_keys` -/

theorem REG_NEEDS_ALLOC_congr (m1 m2 : List SymReg) (k : Ptr)
    (h : deref m1 k = deref m2 k) : REG_NEEDS_ALLOC m1 k = REG_NEEDS_ALLOC m2 k := by
  unfold REG_NEEDS_ALLOC
  rw [h]

/-- One round of the copying loop, record by record: the link `key`
points to the copy, the chain head gains the flag for a register key, the
copy is the component with its `reg` field set for a register. -/
theorem link_keys_step_spec (base : Ptr) (m : List SymReg) (key k : Ptr)
    (hk : k < base) (hb : base ≤ key) (hkey : key < m.length) :
    (key ≠ base → deref (link_keys_step base (m, key) k).1 key
        = { deref m key with nextkey := some m.length }) ∧
    deref (link_keys_step base (m, key) k).1 base
        = { deref m base with
            type := if REG_NEEDS_ALLOC m k then (deref m base).type ||| VTREGKEY
              else (deref m base).type,
            nextkey := if key = base then some m.length else (deref m base).nextkey } ∧
    deref (link_keys_step base (m, key) k).1 m.length
        = { deref m k with
            reg := if REG_NEEDS_ALLOC m k then some k else (deref m k).reg } := by
  have hkb : k ≠ base := Nat.ne_of_lt hk
  have hkk : k ≠ key := Nat.ne_of_lt (Nat.lt_of_lt_of_le hk hb)
  have hbL : base < m.length := Nat.lt_of_le_of_lt hb hkey
  have hkL : k < m.length := Nat.lt_trans hk hbL
  have hLk : m.length ≠ key := Nat.ne_of_gt hkey
  have hLb : m.length ≠ base := Nat.ne_of_gt hbL
  cases hr : REG_NEEDS_ALLOC m k
  · have hr2 : REG_NEEDS_ALLOC ((m ++ [deref m k]).set key
        { deref (m ++ [deref m k]) key with nextkey := some m.length }) k = false := by
      rw [← hr]
      apply REG_NEEDS_ALLOC_congr
      rw [deref_set, if_neg (fun hh => hkk hh.1), deref_append_of_lt _ _ _ hkL]
    simp only [link_keys_step, dup_sym, hr, hr2, Bool.false_eq_true, if_false]
    have hkey2 : key < (m ++ [deref m k]).length := by
      rw [List.length_append]; exact Nat.lt_succ_of_lt hkey
    refine ⟨fun _ => ?_, ?_, ?_⟩
    · rw [deref_set_self _ _ _ hkey2, deref_append_of_lt _ _ _ hkey]
    · by_cases hkb2 : key = base
      · subst hkb2
        rw [deref_set_self _ _ _ hkey2, deref_append_of_lt _ _ _ hkey, if_pos rfl]
      · rw [deref_set, if_neg (fun hh => hkb2 hh.1.symm), deref_append_of_lt _ _ _ hbL,
          if_neg hkb2]
    · rw [deref_set, if_neg (fun hh => hLk hh.1), deref_append_length]
  · obtain ⟨mA, hmA⟩ : ∃ mA, mA = m.set base
        { deref m base with type := (deref m base).type ||| VTREGKEY } := ⟨_, rfl⟩
    have hlA : mA.length = m.length := by rw [hmA, List.length_set]
    have hdA : ∀ p, p ≠ base → deref mA p = deref m p := by
      intro p hp
      rw [hmA, deref_set, if_neg (fun hh => hp hh.1)]
    have hbA : deref mA base = { deref m base with type := (deref m base).type ||| VTREGKEY } := by
      rw [hmA, deref_set_self _ _ _ hbL]
    have hr2 : REG_NEEDS_ALLOC ((mA ++ [deref mA k]).set key
        { deref (mA ++ [deref mA k]) key with nextkey := some mA.length }) k = true := by
      rw [← hr]
      apply REG_NEEDS_ALLOC_congr
      rw [deref_set, if_neg (fun hh => hkk hh.1), deref_append_of_lt _ _ _ (hlA.symm ▸ hkL),
        hdA k hkb]
    simp only [link_keys_step, dup_sym, hr, if_true, ← hmA, hr2]
    have hkA : key < mA.length := hlA.symm ▸ hkey
    have hkB : key < (mA ++ [deref mA k]).length := by
      rw [List.length_append]; exact Nat.lt_succ_of_lt hkA
    have hLC : ∀ v, mA.length < ((mA ++ [deref mA k]).set key v).length := by
      intro v
      rw [List.length_set, List.length_append]; exact Nat.lt_succ_self _
    have hLkA : mA.length ≠ key := hlA.symm ▸ hLk
    have hLbA : mA.length ≠ base := hlA.symm ▸ hLb
    refine ⟨fun hkb2 => ?_, ?_, ?_⟩
    · rw [deref_set, if_neg (fun hh => hLkA hh.1.symm), deref_set_self _ _ _ hkB,
        deref_append_of_lt _ _ _ hkA, hdA key hkb2, hlA]
    · rw [deref_set, if_neg (fun hh => hLbA hh.1.symm)]
      by_cases hkb2 : key = base
      · subst hkb2
        rw [deref_set_self _ _ _ hkB, deref_append_of_lt _ _ _ hkA, hbA, if_pos rfl, hlA]
      · rw [deref_set, if_neg (fun hh => hkb2 hh.1.symm),
          deref_append_of_lt _ _ _ (hlA.symm ▸ hbL), hbA, if_neg hkb2]
    · rw [← hlA, deref_set_self _ _ _ (hLC _), deref_set, if_neg (fun hh => hLkA hh.1),
        deref_append_length, hdA k hkb]


theorem any_congr_mem (l : List Ptr) (f g : Ptr → Bool) (h : ∀ x ∈ l, f x = g x) :
    l.any f = l.any g := by
  induction l with
  | nil => rfl
  | cons x l ih =>
    rw [List.any_cons, List.any_cons, h x (List.mem_cons_self x l),
      ih (fun y hy => h y (List.mem_cons_of_mem x hy))]

theorem or_VTREGKEY_idem (t : Nat) : (t ||| VTREGKEY) ||| VTREGKEY = t ||| VTREGKEY := by
  rw [Nat.lor_assoc, Nat.or_self]

/-- The copying loop of `link_keys`, record by record, from a heap `m`
whose last link so far is `key`: records other than the chain head and
`key` stay, `key` points to the first copy, the chain head gains the flag
for a register key when some component is a register, and copy `i` is
component `i` with the link to the next copy and, for a register, the
`reg` field. -/
theorem link_keys_fold (base : Ptr) (keys : List Ptr) (m : List SymReg) (key : Ptr)
    (hk : ∀ k ∈ keys, k < base) (hb : base ≤ key) (hkey : key < m.length) :
    (keys.foldl (link_keys_step base) (m, key)).1.length = m.length + keys.length ∧
    (∀ p, p < m.length → p ≠ base → p ≠ key →
      deref (keys.foldl (link_keys_step base) (m, key)).1 p = deref m p) ∧
    (key ≠ base → deref (keys.foldl (link_keys_step base) (m, key)).1 key
      = { deref m key with
          nextkey := if keys = [] then (deref m key).nextkey else some m.length }) ∧
    deref (keys.foldl (link_keys_step base) (m, key)).1 base
      = { deref m base with
          type := if keys.any (REG_NEEDS_ALLOC m) then (deref m base).type ||| VTREGKEY
            else (deref m base).type,
          nextkey := if key = base ∧ keys ≠ [] then some m.length
            else (deref m base).nextkey } ∧
    ∀ i, i < keys.length →
      deref (keys.foldl (link_keys_step base) (m, key)).1 (m.length + i)
        = { deref m (keys.getD i 0) with
            reg := if REG_NEEDS_ALLOC m (keys.getD i 0) then some (keys.getD i 0)
              else (deref m (keys.getD i 0)).reg,
            nextkey := if i + 1 < keys.length then some (m.length + i + 1)
              else (deref m (keys.getD i 0)).nextkey } := by
  induction keys generalizing m key with
  | nil =>
    refine ⟨rfl, fun _ _ _ _ => rfl, fun _ => ?_, ?_, ?_⟩
    · simp
    · simp
    · intro i hi
      exact absurd hi (Nat.not_lt_zero _)
  | cons k rest ih =>
    have hkb : k < base := hk k (List.mem_cons_self k rest)
    have hbL : base < m.length := Nat.lt_of_le_of_lt hb hkey
    have hrest : ∀ k2 ∈ rest, k2 < base := fun k2 h2 => hk k2 (List.mem_cons_of_mem k h2)
    obtain ⟨S3, S4, S5⟩ := link_keys_step_spec base m key k hkb hb hkey
    have S2 : ∀ p, p < m.length → p ≠ base → p ≠ key →
        deref (link_keys_step base (m, key) k).1 p = deref m p :=
      fun p h1 h2 h3 => link_keys_step_deref base m key k p h2 h3 h1
    have hlen1 := link_keys_step_length base m key k
    have e : link_keys_step base (m, key) k = ((link_keys_step base (m, key) k).1, m.length) :=
      Prod.ext rfl (link_keys_step_key base m key k)
    rw [List.foldl_cons, e]
    obtain ⟨I1, I2, I3, I4, I5⟩ := ih (link_keys_step base (m, key) k).1 m.length hrest
      (Nat.le_of_lt hbL) (by rw [hlen1]; exact Nat.lt_succ_self _)
    generalize (link_keys_step base (m, key) k).1 = m1 at S2 S3 S4 S5 hlen1 I1 I2 I3 I4 I5 ⊢
    have hR : ∀ k2 ∈ rest, REG_NEEDS_ALLOC m1 k2 = REG_NEEDS_ALLOC m k2 := by
      intro k2 h2
      have h3 := hrest k2 h2
      exact REG_NEEDS_ALLOC_congr _ _ _ (S2 k2 (Nat.lt_trans h3 hbL) (Nat.ne_of_lt h3)
        (Nat.ne_of_lt (Nat.lt_of_lt_of_le h3 hb)))
    have hD : ∀ k2 ∈ rest, deref m1 k2 = deref m k2 := by
      intro k2 h2
      have h3 := hrest k2 h2
      exact S2 k2 (Nat.lt_trans h3 hbL) (Nat.ne_of_lt h3)
        (Nat.ne_of_lt (Nat.lt_of_lt_of_le h3 hb))
    have hLb : m.length ≠ base := Nat.ne_of_gt hbL
    refine ⟨?_, ?_, ?_, ?_, ?_⟩
    · rw [I1, hlen1, List.length_cons]; omega
    · intro p h1 h2 h3
      rw [I2 p (by rw [hlen1]; exact Nat.lt_succ_of_lt h1) h2 (Nat.ne_of_lt h1)]
      exact S2 p h1 h2 h3
    · intro hkb2
      rw [I2 key (by rw [hlen1]; exact Nat.lt_succ_of_lt hkey) hkb2 (Nat.ne_of_lt hkey),
        S3 hkb2, if_neg (List.cons_ne_nil k rest)]
    · rw [I4, S4, any_congr_mem rest _ _ hR, List.any_cons]
      simp only [hLb, false_and, if_false, List.cons_ne_nil k rest, ne_eq, not_false_eq_true,
        and_true]
      cases h1 : REG_NEEDS_ALLOC m k <;> cases h2 : rest.any (REG_NEEDS_ALLOC m) <;>
        simp [or_VTREGKEY_idem]
    · intro i hi
      cases i with
      | zero =>
        rw [Nat.add_zero, I3 hLb, S5]
        cases rest with
        | nil => simp
        | cons k2 rest2 => simp [hlen1]
      | succ j =>
        have hj : j < rest.length := by
          rw [List.length_cons] at hi; omega
        have hmem : rest.getD j 0 ∈ rest := by
          rw [List.getD_eq_getElem _ _ hj]
          exact List.getElem_mem hj
        have hI := I5 j hj
        rw [hlen1, hR _ hmem, hD _ hmem] at hI
        have e1 : m.length + (j + 1) = m.length + 1 + j := by omega
        rw [e1, hI]
        simp only [List.getD_cons_succ, List.length_cons]
        have e2 : (j + 1 + 1 < rest.length + 1) = (j + 1 < rest.length) := by
          apply propext; omega
        simp only [e2]


theorem or_and_of_disjoint (t s r : Nat) (h : s &&& r = 0) : (t ||| s) &&& r = t &&& r := by
  apply Nat.eq_of_testBit_eq
  intro i
  have hi := congrArg (fun n => Nat.testBit n i) h
  simp only [Nat.testBit_and, Nat.zero_testBit] at hi
  simp only [Nat.testBit_and, Nat.testBit_or]
  cases h1 : t.testBit i <;> cases h2 : s.testBit i <;> cases h3 : r.testBit i <;> simp_all

/-- The heap after the slice test, record by record. -/
theorem slice_heap_deref (mem : List SymReg) (keys : List Ptr) (p : Ptr)
    (hk : ∀ k ∈ keys, k < mem.length) :
    deref (slice_heap mem keys) p
      = if any_slice mem keys = true ∧ (deref mem (keys.headD 0)).type &&& VT_SLICE_BITS = 0
          ∧ p = keys.headD 0
        then { deref mem p with
          type := (deref mem p).type ||| (VT_START_SLICE ||| VT_END_SLICE) }
        else deref mem p := by
  unfold slice_heap
  by_cases h : any_slice mem keys = true ∧ (deref mem (keys.headD 0)).type &&& VT_SLICE_BITS = 0
  · have hne := ne_nil_of_any_slice mem keys h.1
    have hlt := hk _ (headD_mem keys hne)
    rw [if_pos h, deref_set]
    by_cases hp : p = keys.headD 0
    · rw [if_pos ⟨hp, hlt⟩, if_pos ⟨h.1, h.2, hp⟩, hp]
    · rw [if_neg (fun hh => hp hh.1), if_neg (fun hh => hp hh.2.2)]
  · rw [if_neg h, if_neg (fun hh => h ⟨hh.1, hh.2.1⟩)]

/-- The slice markers are no register categories: the slice test does not
change which components need allocation. -/
theorem REG_NEEDS_ALLOC_slice_heap (mem : List SymReg) (keys : List Ptr) (p : Ptr)
    (hk : ∀ k ∈ keys, k < mem.length) :
    REG_NEEDS_ALLOC (slice_heap mem keys) p = REG_NEEDS_ALLOC mem p := by
  unfold REG_NEEDS_ALLOC
  rw [slice_heap_deref mem keys p hk]
  split
  · simp only []
    rw [or_and_of_disjoint _ _ _ (by decide)]
  · rfl

theorem any_slice_of_short (mem : List SymReg) (keys : List Ptr) (force : Int)
    (h : short_circuit mem keys force) : any_slice mem keys = false := by
  cases ha : any_slice mem keys with
  | false => rfl
  | true => exact absurd h (not_short_of_any_slice mem keys force ha)

/-- Whatever `link_keys` does, the records allocated before the call are
afterwards as the slice test leaves them. -/
theorem link_keys_old (st : Interp) (keys : List Ptr) (force : Int) (p : Ptr)
    (hp : p < st.mem.length) :
    deref (link_keys st keys force).2.mem p = deref (slice_heap st.mem keys) p := by
  by_cases hne : keys = []
  · subst hne
    rfl
  · by_cases hs : short_circuit st.mem keys force
    · rw [link_keys_short st keys force hs,
        slice_heap_of_not _ _ (any_slice_of_short _ _ _ hs)]
    · rw [link_keys_eq st keys force hne hs]
      generalize (if any_slice st.mem keys = true then none
        else _get_sym (slice_heap st.mem keys) st.key_hash (key_name st.mem keys)) = o
      cases o with
      | some kc => rfl
      | none =>
        simp only []
        rw [built_state_mem, chain_heap_deref _ _ _ _ (by rw [slice_heap_length]; exact hp)]

/-- When `link_keys` builds a chain, the head is the next record of the
heap and the state is the one with the chain built and stored. -/
theorem link_keys_built (st : Interp) (keys : List Ptr) (force : Int)
    (hb : builds_chain st keys force) :
    link_keys st keys force = (.ok st.mem.length, built_state st keys) := by
  rw [link_keys_eq st keys force hb.1 hb.2.1, hb.2.2, slice_heap_length]

/-- The heap with a new chain, record by record: the head and the
copies. -/
theorem chain_heap_spec (mem : List SymReg) (keys : List Ptr) (key_str : String)
    (hk : ∀ k ∈ keys, k < mem.length) :
    deref (chain_heap mem keys key_str) mem.length
      = { new_keychain with
          name := key_str, set := 75, color := -1,
          type := if keys.any (REG_NEEDS_ALLOC mem) then VTCONST ||| VTREGKEY else VTCONST,
          nextkey := if keys = [] then none else some (mem.length + 1) } ∧
    ∀ i, i < keys.length →
      deref (chain_heap mem keys key_str) (mem.length + 1 + i)
        = { deref mem (keys.getD i 0) with
            reg := if REG_NEEDS_ALLOC mem (keys.getD i 0) then some (keys.getD i 0)
              else (deref mem (keys.getD i 0)).reg,
            nextkey := if i + 1 < keys.length then some (mem.length + 1 + i + 1)
              else (deref mem (keys.getD i 0)).nextkey } := by
  have hL : (mem ++ [new_keychain]).length = mem.length + 1 := by simp
  obtain ⟨F1, _, _, F4, F5⟩ := link_keys_fold mem.length keys (mem ++ [new_keychain]) mem.length
    hk (Nat.le_refl _) (by rw [hL]; exact Nat.lt_succ_self _)
  have hR : ∀ k ∈ keys, REG_NEEDS_ALLOC (mem ++ [new_keychain]) k = REG_NEEDS_ALLOC mem k :=
    fun k h => REG_NEEDS_ALLOC_congr _ _ _ (deref_append_of_lt _ _ _ (hk k h))
  have hlt : mem.length < (keys.foldl (link_keys_step mem.length)
      (mem ++ [new_keychain], mem.length)).1.length := by
    rw [F1, hL]
    exact Nat.lt_of_lt_of_le (Nat.lt_succ_self _) (Nat.le_add_right _ _)
  unfold chain_heap
  refine ⟨?_, ?_⟩
  · rw [deref_set_self _ _ _ hlt, F4, deref_append_length,
      any_congr_mem keys _ _ hR, hL]
    by_cases hne : keys = []
    · simp [hne, new_keychain]
    · simp [hne, new_keychain]
  · intro i hi
    have hmem : keys.getD i 0 ∈ keys := by
      rw [List.getD_eq_getElem _ _ hi]
      exact List.getElem_mem hi
    have h5 := F5 i hi
    rw [hL, hR _ hmem, deref_append_of_lt _ _ _ (hk _ hmem)] at h5
    have hne : mem.length + 1 + i ≠ mem.length :=
      Nat.ne_of_gt (Nat.lt_of_lt_of_le (Nat.lt_succ_self _) (Nat.le_add_right _ _))
    rw [deref_set, if_neg (fun hh => hne hh.1), h5]

/-- A run of records each linked to the next is what the walk along
`nextkey` finds. -/
theorem nextkey_chain_range (mem : List SymReg) (n b : Nat)
    (h : ∀ j, j + 1 < n → (deref mem (b + j)).nextkey = some (b + j + 1)) :
    nextkey_chain mem n (some b) = (List.range n).map (fun i => b + i) := by
  induction n generalizing b with
  | zero => rfl
  | succ n ih =>
    rw [nextkey_chain, List.range_succ_eq_map, List.map_cons, List.map_map]
    congr 1
    cases n with
    | zero => rfl
    | succ n2 =>
      have h0 := h 0 (by omega)
      rw [Nat.add_zero] at h0
      rw [h0, ih (b + 1) (fun j hj => by
        have := h (j + 1) (by omega)
        rw [show b + 1 + j = b + (j + 1) by omega]
        exact this)]
      apply List.map_congr_left
      intro i _
      simp only [Function.comp, Nat.succ_eq_add_one]
      omega

theorem nextkey_chain_none (mem : List SymReg) (fuel : Nat) :
    nextkey_chain mem fuel none = [] := by
  cases fuel <;> rfl

/-- A run of linked records whose last has no link: the walk finds the
run, whatever fuel is left. -/
theorem nextkey_chain_end (mem : List SymReg) (n b fuel : Nat)
    (h : ∀ j, j + 1 < n + 1 → (deref mem (b + j)).nextkey = some (b + j + 1))
    (hend : (deref mem (b + n)).nextkey = none) (hf : n + 1 ≤ fuel) :
    nextkey_chain mem fuel (some b) = (List.range (n + 1)).map (fun i => b + i) := by
  induction n generalizing b fuel with
  | zero =>
    obtain ⟨f, rfl⟩ : ∃ f, fuel = f + 1 := ⟨fuel - 1, by omega⟩
    rw [Nat.add_zero] at hend
    rw [nextkey_chain, hend, nextkey_chain_none]
    rfl
  | succ n ih =>
    obtain ⟨f, rfl⟩ : ∃ f, fuel = f + 1 := ⟨fuel - 1, by omega⟩
    have h0 := h 0 (by omega)
    rw [Nat.add_zero] at h0
    rw [nextkey_chain, h0, ih (b + 1) f (fun j hj => by
        have := h (j + 1) (by omega)
        rw [show b + 1 + j = b + (j + 1) by omega]
        exact this)
      (by rw [show b + 1 + n = b + (n + 1) by omega]; exact hend) (by omega),
      List.range_succ_eq_map (n + 1), List.map_cons, List.map_map]
    congr 1
    apply List.map_congr_left
    intro i _
    simp only [Function.comp, Nat.succ_eq_add_one]
    omega


theorem slice_heap_links (mem : List SymReg) (keys : List Ptr) (p : Ptr) :
    (deref (slice_heap mem keys) p).nextkey = (deref mem p).nextkey ∧
    (deref (slice_heap mem keys) p).reg = (deref mem p).reg ∧
    (deref (slice_heap mem keys) p).set = (deref mem p).set := by
  unfold slice_heap
  split
  · rw [deref_set]
    split
    · rename_i h; rw [h.1]; exact ⟨rfl, rfl, rfl⟩
    · exact ⟨rfl, rfl, rfl⟩
  · exact ⟨rfl, rfl, rfl⟩

/-- What `link_keys` leaves when it builds a chain, record by record: the
head, and the copy of each component. -/
theorem link_keys_chain_spec (st : Interp) (keys : List Ptr) (force : Int)
    (hb : builds_chain st keys force) (hk : ∀ k ∈ keys, k < st.mem.length) :
    (link_keys st keys force).1 = .ok st.mem.length ∧
    deref (link_keys st keys force).2.mem st.mem.length
      = { new_keychain with
          name := key_name st.mem keys, set := 75, color := -1,
          type := if keys.any (REG_NEEDS_ALLOC st.mem) then VTCONST ||| VTREGKEY else VTCONST,
          nextkey := some (st.mem.length + 1) } ∧
    ∀ i, i < keys.length →
      deref (link_keys st keys force).2.mem (st.mem.length + 1 + i)
        = { deref (slice_heap st.mem keys) (keys.getD i 0) with
            reg := if REG_NEEDS_ALLOC st.mem (keys.getD i 0) then some (keys.getD i 0)
              else (deref st.mem (keys.getD i 0)).reg,
            nextkey := if i + 1 < keys.length then some (st.mem.length + 1 + i + 1)
              else (deref st.mem (keys.getD i 0)).nextkey } := by
  have hk2 : ∀ k ∈ keys, k < (slice_heap st.mem keys).length := by
    intro k h; rw [slice_heap_length]; exact hk k h
  obtain ⟨H1, H2⟩ := chain_heap_spec (slice_heap st.mem keys) keys (key_name st.mem keys) hk2
  rw [slice_heap_length] at H1 H2
  rw [any_congr_mem keys _ _ (fun k _ => REG_NEEDS_ALLOC_slice_heap st.mem keys k hk),
    if_neg hb.1] at H1
  rw [link_keys_built st keys force hb]
  simp only []
  rw [built_state_mem]
  refine ⟨trivial, H1, ?_⟩
  intro i hi
  rw [H2 i hi, REG_NEEDS_ALLOC_slice_heap st.mem keys _ hk,
    (slice_heap_links st.mem keys _).1, (slice_heap_links st.mem keys _).2.1]

theorem getD_mem (keys : List Ptr) (i : Nat) (hi : i < keys.length) : keys.getD i 0 ∈ keys := by
  rw [List.getD_eq_getElem _ _ hi]
  exact List.getElem_mem hi

/-- The walk along `nextkey` from the head of a chain `link_keys` has
built finds the copies, one after the other. -/
theorem link_keys_chain_walk (st : Interp) (keys : List Ptr) (force : Int)
    (hb : builds_chain st keys force) (hk : ∀ k ∈ keys, k < st.mem.length) :
    nextkey_chain (link_keys st keys force).2.mem keys.length
        (deref (link_keys st keys force).2.mem st.mem.length).nextkey
      = (List.range keys.length).map (fun i => st.mem.length + 1 + i) := by
  obtain ⟨_, H1, H2⟩ := link_keys_chain_spec st keys force hb hk
  rw [H1]
  simp only []
  apply nextkey_chain_range
  intro j hj
  rw [H2 j (by omega)]
  simp only [hj, if_true]


/-! ## Key chains: the components, the head, the copies -/

/-- C29: when `link_keys` builds a new chain for allocated components,
the head has value kind `K`, use count 1 and the category constant; it
carries the flag `VTREGKEY` exactly when some component is a register
that needs allocation; and for each such component the `reg` field of
the corresponding element of the chain refers to the component. -/
theorem link_keys_head (st : Interp) (keys : List Ptr) (force : Int)
    (hb : builds_chain st keys force) (hk : ∀ k ∈ keys, k < st.mem.length) :
    (link_keys st keys force).1 = .ok st.mem.length ∧
    (deref (link_keys st keys force).2.mem st.mem.length).set = 75 ∧
    (deref (link_keys st keys force).2.mem st.mem.length).use_count = 1 ∧
    (deref (link_keys st keys force).2.mem st.mem.length).type
      = (if keys.any (REG_NEEDS_ALLOC st.mem) then VTCONST ||| VTREGKEY else VTCONST) ∧
    (deref (link_keys st keys force).2.mem st.mem.length).type &&& VTCONST ≠ 0 ∧
    ((deref (link_keys st keys force).2.mem st.mem.length).type &&& VTREGKEY ≠ 0
      ↔ ∃ k ∈ keys, REG_NEEDS_ALLOC st.mem k = true) ∧
    ∀ i, i < keys.length → REG_NEEDS_ALLOC st.mem (keys.getD i 0) = true →
      (deref (link_keys st keys force).2.mem
        ((nextkey_chain (link_keys st keys force).2.mem keys.length
          (deref (link_keys st keys force).2.mem st.mem.length).nextkey).getD i 0)).reg
        = some (keys.getD i 0) := by
  have hw := link_keys_chain_walk st keys force hb hk
  obtain ⟨H0, H1, H2⟩ := link_keys_chain_spec st keys force hb hk
  refine ⟨H0, ?_, ?_, ?_, ?_, ?_, ?_⟩
  · rw [H1]
  · rw [H1]; rfl
  · rw [H1]
  · rw [H1]
    simp only []
    split <;> decide
  · rw [H1]
    simp only []
    rw [← List.any_eq_true]
    cases keys.any (REG_NEEDS_ALLOC st.mem) <;> decide
  · intro i hi hr
    rw [hw, List.getD_eq_getElem _ _ (by simpa using hi), List.getElem_map,
      List.getElem_range, H2 i hi]
    simp only [hr, if_true]

/-- C29, witness: the register `x` and the constant `b`. -/
theorem link_keys_head_witness :
    builds_chain reg_keys [0, 1] 0 ∧ (∀ k ∈ [0, 1], k < reg_keys.mem.length) ∧
    ((link_keys reg_keys [0, 1] 0).1 = .ok reg_keys.mem.length ∧
    (deref (link_keys reg_keys [0, 1] 0).2.mem reg_keys.mem.length).set = 75 ∧
    (deref (link_keys reg_keys [0, 1] 0).2.mem reg_keys.mem.length).use_count = 1 ∧
    (deref (link_keys reg_keys [0, 1] 0).2.mem reg_keys.mem.length).type
      = (if [0, 1].any (REG_NEEDS_ALLOC reg_keys.mem) then VTCONST ||| VTREGKEY else VTCONST) ∧
    (deref (link_keys reg_keys [0, 1] 0).2.mem reg_keys.mem.length).type &&& VTCONST ≠ 0 ∧
    ((deref (link_keys reg_keys [0, 1] 0).2.mem reg_keys.mem.length).type &&& VTREGKEY ≠ 0
      ↔ ∃ k ∈ [0, 1], REG_NEEDS_ALLOC reg_keys.mem k = true) ∧
    ∀ i, i < [0, 1].length → REG_NEEDS_ALLOC reg_keys.mem ([0, 1].getD i 0) = true →
      (deref (link_keys reg_keys [0, 1] 0).2.mem
        ((nextkey_chain (link_keys reg_keys [0, 1] 0).2.mem [0, 1].length
          (deref (link_keys reg_keys [0, 1] 0).2.mem reg_keys.mem.length).nextkey).getD i 0)).reg
        = some ([0, 1].getD i 0)) :=
  ⟨by decide, by decide, link_keys_head reg_keys [0, 1] 0 (by decide) (by decide)⟩

/-- C27 (as amended): when `link_keys` builds a new chain head for
allocated components, the first links of the head's `nextkey` chain, as
many as there are components, are new records, one per component in the
order supplied; each is distinct from the component and from every record
there was before, and agrees with its component on name, value kind and
type.  The last of them keeps the `nextkey` link of the last component:
the chain ends there if that component has no such link, and goes on
along the links of that component otherwise. -/
theorem link_keys_copies (st : Interp) (keys : List Ptr) (force : Int)
    (hb : builds_chain st keys force) (hk : ∀ k ∈ keys, k < st.mem.length) :
    (link_keys st keys force).1 = .ok st.mem.length ∧
    nextkey_chain (link_keys st keys force).2.mem keys.length
        (deref (link_keys st keys force).2.mem st.mem.length).nextkey
      = (List.range keys.length).map (fun i => st.mem.length + 1 + i) ∧
    (∀ i, i < keys.length →
      st.mem.length < st.mem.length + 1 + i ∧
      st.mem.length + 1 + i ≠ keys.getD i 0 ∧
      (deref (link_keys st keys force).2.mem (st.mem.length + 1 + i)).name
        = (deref (link_keys st keys force).2.mem (keys.getD i 0)).name ∧
      (deref (link_keys st keys force).2.mem (st.mem.length + 1 + i)).set
        = (deref (link_keys st keys force).2.mem (keys.getD i 0)).set ∧
      (deref (link_keys st keys force).2.mem (st.mem.length + 1 + i)).type
        = (deref (link_keys st keys force).2.mem (keys.getD i 0)).type) ∧
    (deref (link_keys st keys force).2.mem (st.mem.length + keys.length)).nextkey
      = (deref st.mem (keys.getD (keys.length - 1) 0)).nextkey ∧
    ((deref st.mem (keys.getD (keys.length - 1) 0)).nextkey = none →
      ∀ fuel, keys.length ≤ fuel →
        nextkey_chain (link_keys st keys force).2.mem fuel
            (deref (link_keys st keys force).2.mem st.mem.length).nextkey
          = (List.range keys.length).map (fun i => st.mem.length + 1 + i)) := by
  have hw := link_keys_chain_walk st keys force hb hk
  obtain ⟨H0, H1, H2⟩ := link_keys_chain_spec st keys force hb hk
  have hpos : 0 < keys.length := List.length_pos.2 hb.1
  have hlast : (deref (link_keys st keys force).2.mem (st.mem.length + keys.length)).nextkey
      = (deref st.mem (keys.getD (keys.length - 1) 0)).nextkey := by
    have e : st.mem.length + keys.length = st.mem.length + 1 + (keys.length - 1) := by omega
    rw [e, H2 _ (by omega)]
    simp only []
    rw [if_neg (by omega)]
  refine ⟨H0, hw, ?_, hlast, ?_⟩
  · intro i hi
    have hm := getD_mem keys i hi
    have hlt := hk _ hm
    refine ⟨Nat.lt_of_lt_of_le (Nat.lt_succ_self _) (Nat.le_add_right _ _), ?_, ?_, ?_, ?_⟩
    · exact Nat.ne_of_gt (Nat.lt_trans hlt
        (Nat.lt_of_lt_of_le (Nat.lt_succ_self _) (Nat.le_add_right _ _)))
    · rw [H2 i hi, link_keys_old st keys force _ hlt]
    · rw [H2 i hi, link_keys_old st keys force _ hlt]
    · rw [H2 i hi, link_keys_old st keys force _ hlt]
  · intro hnone fuel hf
    rw [H1]
    simp only []
    obtain ⟨n, hn⟩ : ∃ n, keys.length = n + 1 := ⟨keys.length - 1, by omega⟩
    rw [hn]
    apply nextkey_chain_end
    · intro j hj
      rw [H2 j (by omega)]
      simp only []
      rw [if_pos (by omega)]
    · have e : st.mem.length + 1 + n = st.mem.length + keys.length := by omega
      rw [e, hlast, hnone]
    · omega

/-- C27, witness: the chain of the constants `a` and `b`. -/
theorem link_keys_copies_witness :
    builds_chain two_keys [0, 1] 0 ∧ (∀ k ∈ [0, 1], k < two_keys.mem.length) ∧
    ((link_keys two_keys [0, 1] 0).1 = .ok two_keys.mem.length ∧
    nextkey_chain (link_keys two_keys [0, 1] 0).2.mem [0, 1].length
        (deref (link_keys two_keys [0, 1] 0).2.mem two_keys.mem.length).nextkey
      = (List.range [0, 1].length).map (fun i => two_keys.mem.length + 1 + i) ∧
    (∀ i, i < [0, 1].length →
      two_keys.mem.length < two_keys.mem.length + 1 + i ∧
      two_keys.mem.length + 1 + i ≠ [0, 1].getD i 0 ∧
      (deref (link_keys two_keys [0, 1] 0).2.mem (two_keys.mem.length + 1 + i)).name
        = (deref (link_keys two_keys [0, 1] 0).2.mem ([0, 1].getD i 0)).name ∧
      (deref (link_keys two_keys [0, 1] 0).2.mem (two_keys.mem.length + 1 + i)).set
        = (deref (link_keys two_keys [0, 1] 0).2.mem ([0, 1].getD i 0)).set ∧
      (deref (link_keys two_keys [0, 1] 0).2.mem (two_keys.mem.length + 1 + i)).type
        = (deref (link_keys two_keys [0, 1] 0).2.mem ([0, 1].getD i 0)).type) ∧
    (deref (link_keys two_keys [0, 1] 0).2.mem (two_keys.mem.length + [0, 1].length)).nextkey
      = (deref two_keys.mem ([0, 1].getD ([0, 1].length - 1) 0)).nextkey ∧
    ((deref two_keys.mem ([0, 1].getD ([0, 1].length - 1) 0)).nextkey = none →
      ∀ fuel, [0, 1].length ≤ fuel →
        nextkey_chain (link_keys two_keys [0, 1] 0).2.mem fuel
            (deref (link_keys two_keys [0, 1] 0).2.mem two_keys.mem.length).nextkey
          = (List.range [0, 1].length).map (fun i => two_keys.mem.length + 1 + i))) :=
  ⟨by decide, by decide, link_keys_copies two_keys [0, 1] 0 (by decide) (by decide)⟩

/-- C27, counterexample: after `link_keys` has built the chain of the
constants `a` and `b`, with head 2, it builds a new head, 5, for the two
components `a` and that head; the `nextkey` chain of the new head has four
elements, not two: the copies 6 and 7, then 3 and 4, the chain of the
last component. -/
theorem link_keys_chain_longer :
    builds_chain chained_keys [0, 2] 0 ∧ (∀ k ∈ [0, 2], k < chained_keys.mem.length) ∧
    (link_keys chained_keys [0, 2] 0).1 = .ok 5 ∧
    nextkey_chain (link_keys chained_keys [0, 2] 0).2.mem
        (link_keys chained_keys [0, 2] 0).2.mem.length
        (deref (link_keys chained_keys [0, 2] 0).2.mem 5).nextkey
      = [6, 7, 3, 4] := by
  decide


/-! ## The loop of `add_ns` -/

theorem strstr_some_at (hay pat : List Char) (p : Nat) (h : strstr hay pat = some p) :
    pat <+: hay.drop p := by
  induction hay generalizing p with
  | nil =>
    unfold strstr at h
    split at h
    · rename_i he
      cases h
      rw [List.isEmpty_iff] at he
      rw [he]
      exact List.nil_prefix
    · cases h
  | cons c cs ih =>
    unfold strstr at h
    split at h
    · rename_i hp
      cases h
      exact List.isPrefixOf_iff_prefix.1 hp
    · cases hq : strstr cs pat with
      | none => rw [hq] at h; cases h
      | some q =>
        rw [hq] at h
        cases h
        exact ih q hq

/-- Where `strstr` finds a sequence that starts with a double quote, the
buffer holds a double quote. -/
theorem strstr_some_head (hay rest : List Char) (p : Nat)
    (h : strstr hay (dquote :: rest) = some p) : hay[p]? = some dquote := by
  have h1 := List.isPrefix_iff.1 (strstr_some_at hay _ p h) 0 (by simp)
  rw [List.getElem?_drop] at h1
  simpa using h1

theorem count_set_at_le (l : List Char) (i : Nat) :
    (l.set i '@').count dquote ≤ l.count dquote := by
  by_cases h : i < l.length
  · rw [List.count_set _ _ _ _ h]
    have : ('@' == dquote) = false := by decide
    simp only [this, Bool.false_eq_true, if_false, Nat.add_zero]
    exact Nat.sub_le _ _
  · rw [List.set_eq_of_length_le (Nat.le_of_not_lt h)]

/-- The variant of the loop of `add_ns`: a round that overwrites a double
quote leaves fewer double quotes in the buffer. -/
theorem overwrite_count_lt (buf : List Char) (p : Nat) (h : buf[p]? = some dquote) :
    (overwrite buf p).count dquote < buf.count dquote := by
  obtain ⟨hp, hget⟩ := List.getElem?_eq_some_iff.1 h
  have h1 : (buf.set p '@').count dquote < buf.count dquote := by
    rw [List.count_set _ _ _ _ hp]
    have e1 : ('@' == dquote) = false := by decide
    have e2 : (buf[p] == dquote) = true := by rw [hget]; decide
    have hpos : 0 < buf.count dquote :=
      List.count_pos_iff.2 (hget ▸ List.getElem_mem hp)
    simp only [e1, e2, Bool.false_eq_true, if_false, if_true, Nat.add_zero]
    omega
  unfold overwrite
  exact Nat.lt_of_le_of_lt
    (Nat.le_trans (count_set_at_le _ _) (count_set_at_le _ _)) h1

theorem prefix_drop_set (pat l : List Char) (k i : Nat) (hat : '@' ∉ pat)
    (h : pat <+: (l.set k '@').drop i) : pat <+: l.drop i := by
  rw [List.isPrefix_iff] at h ⊢
  intro j hj
  have h1 := h j hj
  rw [List.getElem?_drop, List.getElem?_set] at h1
  rw [List.getElem?_drop]
  split at h1
  · split at h1
    · have : pat[j] = '@' := by
        injection h1 with h2
        exact h2.symm
      exact absurd (this ▸ List.getElem_mem hj) hat
    · cases h1
  · exact h1

/-- A round of the loop of `add_ns` creates no occurrence of a sequence
without `@`: where the sequence starts in the buffer after the round, it
started before the round. -/
theorem overwrite_no_new (pat buf : List Char) (p i : Nat) (hat : '@' ∉ pat)
    (h : pat <+: (overwrite buf p).drop i) : pat <+: buf.drop i := by
  unfold overwrite at h
  exact prefix_drop_set _ _ _ _ hat (prefix_drop_set _ _ _ _ hat (prefix_drop_set _ _ _ _ hat h))

/-- The occurrence a round of the loop has overwritten is gone. -/
theorem overwrite_gone (buf rest : List Char) (p : Nat) (hp : p + 2 < buf.length) :
    ¬ (dquote :: rest) <+: (overwrite buf p).drop p := by
  intro h
  have h1 := List.isPrefix_iff.1 h 0 (by simp)
  rw [List.getElem?_drop] at h1
  unfold overwrite at h1
  simp only [Nat.add_zero, List.getElem?_set, List.length_set] at h1
  have e1 : ¬ p + 2 = p := by omega
  have e2 : ¬ p + 1 = p := by omega
  have e3 : p < buf.length := by omega
  simp only [e1, e2, if_false, if_true, e3] at h1
  simp at h1
  exact absurd h1 (by decide)

theorem add_ns_round_none (buf : List Char) (n : Nat) :
    add_ns_round^[n] (buf, none) = (buf, none) := by
  induction n with
  | zero => rfl
  | succ n ih => rw [Function.iterate_succ_apply]; exact ih

/-- The loop of `add_ns` with fuel is the iteration of its round: once a
search has failed after `n` rounds, any fuel from `n` on yields the buffer
of that moment. -/
theorem add_ns_loop_rounds (n : Nat) (buf : List Char) (p : Option Nat)
    (h : (add_ns_round^[n] (buf, p)).2 = none) (fuel : Nat) (hf : n ≤ fuel) :
    add_ns_loop fuel buf p = (add_ns_round^[n] (buf, p)).1 := by
  induction n generalizing buf p fuel with
  | zero =>
    simp only [Function.iterate_zero, id_eq] at h ⊢
    subst h
    cases fuel <;> rfl
  | succ n ih =>
    cases p with
    | none =>
      rw [add_ns_round_none]
      cases fuel <;> rfl
    | some q =>
      obtain ⟨f, rfl⟩ : ∃ f, fuel = f + 1 := ⟨fuel - 1, by omega⟩
      rw [Function.iterate_succ_apply] at h ⊢
      exact ih _ _ h f (by omega)

/-- The loop of `add_ns` ends: from a buffer and a `p` that is null or
points to a double quote, a search fails after at most as many rounds as
the buffer holds double quotes. -/
theorem add_ns_rounds_end (c : Nat) (buf : List Char) (p : Option Nat)
    (hc : buf.count dquote ≤ c) (hp : ∀ q, p = some q → buf[q]? = some dquote) :
    ∃ n, n ≤ c ∧ (add_ns_round^[n] (buf, p)).2 = none := by
  induction c generalizing buf p with
  | zero =>
    cases p with
    | none => exact ⟨0, Nat.le_refl _, rfl⟩
    | some q =>
      have h1 := overwrite_count_lt buf q (hp q rfl)
      omega
  | succ c ih =>
    cases p with
    | none => exact ⟨0, Nat.zero_le _, rfl⟩
    | some q =>
      have h1 := overwrite_count_lt buf q (hp q rfl)
      obtain ⟨n, hn, hend⟩ := ih (overwrite buf q) (strstr (overwrite buf q) loop_separator)
        (by omega) (fun q2 h2 => strstr_some_head _ _ _ h2)
      exact ⟨n + 1, by omega, by rw [Function.iterate_succ_apply]; exact hend⟩


theorem add_ns_eq_loop (mem : List SymReg) (ns : Ptr) (name : String)
    (h : 2 < (deref mem ns).name.length) :
    add_ns mem (some ns) name
      = String.mk (add_ns_loop (add_ns_buffer mem ns name).length (add_ns_buffer mem ns name)
          (strstr (add_ns_buffer mem ns name) quoted_separator)) := by
  unfold add_ns
  simp only []
  rw [if_neg (by omega)]
  rfl

/-- C33: `add_ns` terminates for every namespace name and every sub name.
From every buffer the loop, which searches again from the start of the
buffer after each replacement, leaves after at most as many rounds as the
buffer holds double quotes, and `add_ns` returns the buffer of that
moment, or the name as it is without a namespace of more than two
characters.  The reason: a round overwrites the double quote at the start
of the occurrence it found, so that the buffer holds fewer double quotes,
the occurrence is gone, and the sequence searched for starts nowhere where
it did not start before. -/
theorem add_ns_terminates (mem : List SymReg) (cur_namespace : Option Ptr) (name : String) :
    (∀ buf : List Char, ∃ n, n ≤ buf.count dquote ∧
      (add_ns_round^[n] (buf, strstr buf quoted_separator)).2 = none ∧
      ∀ fuel, n ≤ fuel →
        add_ns_loop fuel buf (strstr buf quoted_separator)
          = (add_ns_round^[n] (buf, strstr buf quoted_separator)).1) ∧
    (∀ ns, cur_namespace = some ns → 2 < (deref mem ns).name.length →
      ∃ n, n ≤ (add_ns_buffer mem ns name).length ∧
        (add_ns_round^[n] (add_ns_buffer mem ns name,
          strstr (add_ns_buffer mem ns name) quoted_separator)).2 = none ∧
        add_ns mem cur_namespace name
          = String.mk (add_ns_round^[n] (add_ns_buffer mem ns name,
              strstr (add_ns_buffer mem ns name) quoted_separator)).1) ∧
    ((cur_namespace = none ∨ ∃ ns, cur_namespace = some ns ∧ (deref mem ns).name.length ≤ 2) →
      add_ns mem cur_namespace name = name) ∧
    (∀ buf pat q, pat = quoted_separator ∨ pat = loop_separator → strstr buf pat = some q →
      (overwrite buf q).count dquote < buf.count dquote ∧
      ¬ pat <+: (overwrite buf q).drop q ∧
      ∀ i, loop_separator <+: (overwrite buf q).drop i → loop_separator <+: buf.drop i) := by
  have hloop : ∀ buf : List Char, ∃ n, n ≤ buf.count dquote ∧
      (add_ns_round^[n] (buf, strstr buf quoted_separator)).2 = none ∧
      ∀ fuel, n ≤ fuel →
        add_ns_loop fuel buf (strstr buf quoted_separator)
          = (add_ns_round^[n] (buf, strstr buf quoted_separator)).1 := by
    intro buf
    obtain ⟨n, hn, hend⟩ := add_ns_rounds_end (buf.count dquote) buf
      (strstr buf quoted_separator) (Nat.le_refl _) (fun q hq => strstr_some_head _ _ _ hq)
    exact ⟨n, hn, hend, fun fuel hf => add_ns_loop_rounds n buf _ hend fuel hf⟩
  refine ⟨hloop, ?_, ?_, ?_⟩
  · intro ns hns hlen
    obtain ⟨n, hn, hend, hfuel⟩ := hloop (add_ns_buffer mem ns name)
    have hle : n ≤ (add_ns_buffer mem ns name).length := Nat.le_trans hn (List.count_le_length _ _)
    refine ⟨n, hle, hend, ?_⟩
    rw [hns, add_ns_eq_loop mem ns name hlen, hfuel _ hle]
  · rintro (h | ⟨ns, h, hlen⟩)
    · rw [h]; rfl
    · rw [h]
      unfold add_ns
      simp only []
      rw [if_pos hlen]
  · intro buf pat q hpat hq
    have hpre := strstr_some_at buf pat q hq
    have hhead : buf[q]? = some dquote := by
      rcases hpat with h | h <;> subst h <;> exact strstr_some_head _ _ _ hq
    have hlen : q + 2 < buf.length := by
      have h1 := hpre.length_le
      rw [List.length_drop] at h1
      have h2 : 3 ≤ pat.length := by
        rcases hpat with h | h <;> subst h <;> decide
      omega
    refine ⟨overwrite_count_lt buf q hhead, ?_, ?_⟩
    · rcases hpat with h | h <;> subst h <;> exact overwrite_gone buf _ q hlen
    · intro i hi
      exact overwrite_no_new _ buf q i (by decide) hi


/-! ## The bucket invariant -/

theorem keeps_names_refl (m : List SymReg) : keeps_names m m :=
  ⟨Nat.le_refl _, fun _ _ => rfl⟩

theorem keeps_names_trans (m1 m2 m3 : List SymReg) (h1 : keeps_names m1 m2)
    (h2 : keeps_names m2 m3) : keeps_names m1 m3 :=
  ⟨Nat.le_trans h1.1 h2.1, fun p hp => by
    rw [h2.2 p (Nat.lt_of_lt_of_le hp h1.1), h1.2 p hp]⟩

theorem keeps_names_append (m l : List SymReg) : keeps_names m (m ++ l) :=
  ⟨by rw [List.length_append]; exact Nat.le_add_right _ _,
    fun p hp => by rw [deref_append_of_lt m l p hp]⟩

theorem table_inv_congr (m1 m2 : List SymReg) (hsh : SymHash) (h : table_inv m1 hsh)
    (hk : keeps_names m1 m2) : table_inv m2 hsh := by
  obtain ⟨hwf, halloc, hinv⟩ := h
  refine ⟨hwf, fun p hp => Nat.lt_of_lt_of_le (halloc p hp) hk.1, ?_⟩
  exact bucket_inv_congr m1 m2 hsh (fun p hp => hk.2 p (halloc p hp)) hinv

theorem table_inv_create (mem : List SymReg) : table_inv mem create_symhash :=
  ⟨create_symhash_wf, allocated_create_symhash mem, create_symhash_bucket_inv mem⟩

theorem table_inv_store (mem : List SymReg) (hsh : SymHash) (r : Ptr) (h : table_inv mem hsh)
    (hr : r < mem.length) : table_inv mem (_store_symreg mem hsh r) := by
  obtain ⟨hwf, halloc, hinv⟩ := h
  refine ⟨store_wf mem hsh r hwf, ?_, store_bucket_inv mem hsh r hwf hinv⟩
  intro p hp
  rcases List.mem_cons.1 ((store_syms_perm mem hsh r hwf).mem_iff.1 hp) with h | h
  · rw [h]; exact hr
  · exact halloc p h

theorem table_inv_resize (mem : List SymReg) (hsh : SymHash) (h : table_inv mem hsh) :
    table_inv mem (resize_symhash mem hsh) := by
  obtain ⟨hwf, halloc, _⟩ := h
  refine ⟨⟨?_, ?_⟩, ?_, resize_bucket_inv mem hsh⟩
  · rw [resize_symhash_size]
    have := hwf.1
    omega
  · rw [resize_symhash_length, resize_symhash_size]
  · intro p hp
    exact halloc p ((resize_symhash_perm mem hsh).mem_iff.1 hp)

theorem mk_symreg_keeps_names (mem : List SymReg) (hsh : SymHash) (name : String) (t : Int) :
    keeps_names mem (_mk_symreg mem hsh name t).2.1 :=
  ⟨mk_symreg_heap_length mem hsh name t,
    fun p hp => by rw [mk_symreg_heap_old mem hsh name t p hp]⟩

theorem table_inv_mk_symreg (mem : List SymReg) (hsh : SymHash) (name : String) (t : Int)
    (h : table_inv mem hsh) :
    table_inv (_mk_symreg mem hsh name t).2.1 (_mk_symreg mem hsh name t).2.2 := by
  obtain ⟨hwf, halloc, hinv⟩ := h
  obtain ⟨h1, h2, h3, _⟩ := mk_symreg_spec mem hsh name t hwf hinv halloc
  exact ⟨h1, h3, h2⟩

theorem set_keeps_names (m : List SymReg) (i : Ptr) (v : SymReg)
    (hv : v.name = (deref m i).name) : keeps_names m (m.set i v) := by
  refine ⟨by simp, fun p _ => ?_⟩
  rw [deref_set]
  split
  · rename_i hh; rw [hh.1, hv]
  · rfl

theorem mark_address_keeps_names (mem : List SymReg) (r : Ptr) (uniq : Int) :
    keeps_names mem (mark_address mem r uniq) := by
  have h1 := set_keeps_names mem r { deref mem r with type := VTADDRESS } rfl
  unfold mark_address
  simp only []
  split
  · exact keeps_names_trans _ _ _ h1 (set_keeps_names _ r _ rfl)
  · exact h1

/-- What `_mk_address` leaves, under every policy and also when it
reports a diagnostic: the old records with their names on a heap that has
only grown, and the table in use. -/
theorem mk_address_inv (mem : List SymReg) (ns : Option Ptr) (hsh : SymHash) (name : String)
    (uniq : Int) (h : table_inv mem hsh) :
    keeps_names mem (_mk_address mem ns hsh name uniq).2.1 ∧
    table_inv (_mk_address mem ns hsh name uniq).2.1 (_mk_address mem ns hsh name uniq).2.2 := by
  unfold _mk_address
  by_cases h1 : uniq = U_add_all
  · rw [if_pos h1]
    simp only []
    have hk := keeps_names_append mem [{ type := VTADDRESS, name := name }]
    refine ⟨hk, ?_⟩
    exact table_inv_store _ hsh _ (table_inv_congr mem _ hsh h hk) (by simp)
  · rw [if_neg h1]
    simp only []
    generalize (if uniq = U_add_uniq_sub then add_ns mem ns name else name) = nm
    by_cases h2 : already_defined mem (_get_sym mem hsh nm) uniq = true ∧ uniq = U_add_uniq_label
    · rw [if_pos h2]
      exact ⟨keeps_names_refl mem, h⟩
    · rw [if_neg h2]
      by_cases h3 : already_defined mem (_get_sym mem hsh nm) uniq = true ∧ uniq = U_add_uniq_sub
      · rw [if_pos h3]
        exact ⟨keeps_names_refl mem, h⟩
      · rw [if_neg h3]
        have h4 := mk_symreg_keeps_names mem hsh nm 0
        have h5 := table_inv_mk_symreg mem hsh nm 0 h
        generalize _mk_symreg mem hsh nm 0 = S at h4 h5
        obtain ⟨r, m, hs⟩ := S
        simp only [] at h4 h5 ⊢
        have h6 := mark_address_keeps_names m r uniq
        exact ⟨keeps_names_trans _ _ _ h4 h6, table_inv_congr _ _ _ h5 h6⟩

theorem slice_heap_keeps_names (mem : List SymReg) (keys : List Ptr) :
    keeps_names mem (slice_heap mem keys) :=
  ⟨by rw [slice_heap_length], fun p _ => slice_heap_name mem keys p⟩

theorem chain_heap_keeps_names (mem : List SymReg) (keys : List Ptr) (key_str : String) :
    keeps_names mem (chain_heap mem keys key_str) :=
  ⟨Nat.le_of_lt (chain_heap_length mem keys key_str),
    fun p hp => by rw [chain_heap_deref mem keys key_str p hp]⟩

/-- What `link_keys` leaves, whichever way it returns: the old records
with their names on a heap that has only grown, and the table it works on
in use. -/
theorem link_keys_inv (st : Interp) (keys : List Ptr) (force : Int) (hok : st.cur_unit_ok)
    (h : table_inv st.mem st.key_hash) :
    keeps_names st.mem (link_keys st keys force).2.mem ∧
    table_inv (link_keys st keys force).2.mem (link_keys st keys force).2.key_hash := by
  by_cases hne : keys = []
  · subst hne
    exact ⟨keeps_names_refl _, h⟩
  · by_cases hs : short_circuit st.mem keys force
    · rw [link_keys_short st keys force hs]
      exact ⟨keeps_names_refl _, h⟩
    · rw [link_keys_eq st keys force hne hs]
      generalize (if any_slice st.mem keys = true then none
        else _get_sym (slice_heap st.mem keys) st.key_hash (key_name st.mem keys)) = o
      have hk1 := slice_heap_keeps_names st.mem keys
      cases o with
      | some kc =>
        exact ⟨hk1, table_inv_congr _ _ _ h hk1⟩
      | none =>
        simp only []
        have hk2 := chain_heap_keeps_names (slice_heap st.mem keys) keys (key_name st.mem keys)
        have hk := keeps_names_trans _ _ _ hk1 hk2
        rw [built_state_mem, built_state_key_hash st keys hok]
        exact ⟨hk, table_inv_store _ _ _ (table_inv_congr _ _ _ h hk)
          (chain_heap_length _ _ _)⟩


/-- C31: the bucket invariant, every symbol of a table sits in the bucket
its name hashes to, holds for the table `create_symhash` makes and, for a
table in use whose symbols are allocated, is kept by `_store_symreg` with
or without the resize it triggers, by `resize_symhash`, by `_mk_symreg`,
by `_mk_address` under every policy and by `link_keys`; the operations
that extend the heap also keep it for every other table in use. -/
theorem bucket_inv_preserved (mem : List SymReg) (hsh : SymHash) (h : table_inv mem hsh) :
    (∀ m, table_inv m create_symhash) ∧
    (∀ r, bucket_inv mem (_store_symreg mem hsh r)) ∧
    (∀ r, r < mem.length → table_inv mem (_store_symreg mem hsh r)) ∧
    table_inv mem (resize_symhash mem hsh) ∧
    (∀ name t,
      table_inv (_mk_symreg mem hsh name t).2.1 (_mk_symreg mem hsh name t).2.2 ∧
      ∀ other, table_inv mem other → table_inv (_mk_symreg mem hsh name t).2.1 other) ∧
    (∀ ns name uniq,
      table_inv (_mk_address mem ns hsh name uniq).2.1 (_mk_address mem ns hsh name uniq).2.2 ∧
      ∀ other, table_inv mem other → table_inv (_mk_address mem ns hsh name uniq).2.1 other) ∧
    (∀ st keys force, st.mem = mem → st.key_hash = hsh → st.cur_unit_ok →
      table_inv (link_keys st keys force).2.mem (link_keys st keys force).2.key_hash ∧
      ∀ other, table_inv mem other → table_inv (link_keys st keys force).2.mem other) := by
  refine ⟨table_inv_create, fun r => store_bucket_inv mem hsh r h.1 h.2.2,
    fun r hr => table_inv_store mem hsh r h hr, table_inv_resize mem hsh h, ?_, ?_, ?_⟩
  · intro name t
    exact ⟨table_inv_mk_symreg mem hsh name t h,
      fun other ho => table_inv_congr _ _ _ ho (mk_symreg_keeps_names mem hsh name t)⟩
  · intro ns name uniq
    obtain ⟨h1, h2⟩ := mk_address_inv mem ns hsh name uniq h
    exact ⟨h2, fun other ho => table_inv_congr _ _ _ ho h1⟩
  · intro st keys force hm hh hok
    subst hm
    subst hh
    obtain ⟨h1, h2⟩ := link_keys_inv st keys force hok h
    exact ⟨h2, fun other ho => table_inv_congr _ _ _ ho h1⟩

/-- C31, witness: the table that holds the register `x`. -/
theorem bucket_inv_preserved_witness :
    table_inv one_symbol.1 one_symbol.2 ∧
    ((∀ m, table_inv m create_symhash) ∧
    (∀ r, bucket_inv one_symbol.1 (_store_symreg one_symbol.1 one_symbol.2 r)) ∧
    (∀ r, r < one_symbol.1.length →
      table_inv one_symbol.1 (_store_symreg one_symbol.1 one_symbol.2 r)) ∧
    table_inv one_symbol.1 (resize_symhash one_symbol.1 one_symbol.2) ∧
    (∀ name t,
      table_inv (_mk_symreg one_symbol.1 one_symbol.2 name t).2.1
        (_mk_symreg one_symbol.1 one_symbol.2 name t).2.2 ∧
      ∀ other, table_inv one_symbol.1 other →
        table_inv (_mk_symreg one_symbol.1 one_symbol.2 name t).2.1 other) ∧
    (∀ ns name uniq,
      table_inv (_mk_address one_symbol.1 ns one_symbol.2 name uniq).2.1
        (_mk_address one_symbol.1 ns one_symbol.2 name uniq).2.2 ∧
      ∀ other, table_inv one_symbol.1 other →
        table_inv (_mk_address one_symbol.1 ns one_symbol.2 name uniq).2.1 other) ∧
    (∀ st keys force, st.mem = one_symbol.1 → st.key_hash = one_symbol.2 → st.cur_unit_ok →
      table_inv (link_keys st keys force).2.mem (link_keys st keys force).2.key_hash ∧
      ∀ other, table_inv one_symbol.1 other →
        table_inv (link_keys st keys force).2.mem other)) :=
  ⟨by decide, bucket_inv_preserved one_symbol.1 one_symbol.2 (by decide)⟩


/-! ## The order of a chain across a resize -/

theorem filter_flatMap_single (l : List Nat) (g : Nat → List Ptr) (f : Ptr → Bool) (i0 : Nat)
    (hnd : l.Nodup) (h : ∀ i ∈ l, i ≠ i0 → ∀ x ∈ g i, f x = false) :
    (l.flatMap g).filter f = if i0 ∈ l then (g i0).filter f else [] := by
  induction l with
  | nil => rfl
  | cons a l ih =>
    have hnd2 := (List.nodup_cons.1 hnd).2
    have ha := (List.nodup_cons.1 hnd).1
    have ih2 := ih hnd2 (fun i hi => h i (List.mem_cons_of_mem a hi))
    rw [List.flatMap_cons, List.filter_append, ih2]
    by_cases hai : a = i0
    · subst hai
      rw [if_neg ha, if_pos (List.mem_cons_self _ _), List.append_nil]
    · have hnil : (g a).filter f = [] := by
        rw [List.filter_eq_nil_iff]
        intro x hx
        rw [h a (List.mem_cons_self _ _) hai x hx]
        exact Bool.false_ne_true
      rw [hnil, List.nil_append]
      by_cases hm : i0 ∈ l
      · rw [if_pos hm, if_pos (List.mem_cons_of_mem a hm)]
      · rw [if_neg hm, if_neg (fun hh => by
          rcases List.mem_cons.1 hh with h1 | h1
          · exact hai h1.symm
          · exact hm h1)]

/-- Under the bucket invariant a new bucket is filled from one old bucket
only, and holds its symbols in the reverse order. -/
theorem resize_bucket_of_inv (mem : List SymReg) (hsh : SymHash) (j : Nat) (hwf : hsh.wf)
    (hinv : bucket_inv mem hsh) :
    (resize_symhash mem hsh).bucket j
      = ((hsh.bucket (j % hsh.size)).filter
          (fun r => hash_str (deref mem r).name % (2 * hsh.size) = j)).reverse := by
  rw [resize_symhash_bucket]
  congr 1
  unfold SymHash.syms
  rw [filter_flatMap_single _ _ _ (j % hsh.size) (List.nodup_range _), if_pos
    (List.mem_range.2 (Nat.mod_lt _ hwf.1))]
  intro i hi hne x hx
  have h1 := hinv i (List.mem_range.1 hi) x hx
  rw [decide_eq_false_iff_not]
  intro h2
  apply hne
  rw [← h1, ← h2, Nat.mod_mul_left_mod]

theorem find?_of_filter_cons (l : List Ptr) (g : Ptr → Bool) (p : Ptr) (rest : List Ptr)
    (h : l.filter g = p :: rest) : l.find? g = some p := by
  induction l with
  | nil => cases h
  | cons a l ih =>
    by_cases ha : g a = true
    · rw [List.filter_cons_of_pos ha] at h
      injection h with h1 _
      rw [List.find?_cons_of_pos _ ha, h1]
    · rw [List.filter_cons_of_neg ha] at h
      rw [List.find?_cons_of_neg _ ha]
      exact ih h

/-- After a resize `_get_sym` finds the last symbol of that name on the
old chain, where it found the first before. -/
theorem get_sym_resize (mem : List SymReg) (hsh : SymHash) (name : String) (hwf : hsh.wf)
    (hinv : bucket_inv mem hsh) :
    _get_sym mem (resize_symhash mem hsh) name
      = (hsh.bucket (hash_str name % hsh.size)).reverse.find?
          (fun p => name = (deref mem p).name) := by
  unfold _get_sym
  simp only []
  rw [resize_symhash_size, resize_bucket_of_inv mem hsh _ hwf hinv, Nat.mod_mul_left_mod,
    ← List.filter_reverse, List.find?_filter]
  congr 1
  funext a
  by_cases ha : name = (deref mem a).name
  · simp [← ha]
  · simp [ha]


theorem stores_two_bucket (mem : List SymReg) (hsh : SymHash) (a b : Ptr) (name : String)
    (hwf : hsh.wf) (ha : (deref mem a).name = name) (hb : (deref mem b).name = name)
    (he : hsh.entries + 2 < hsh.size) :
    (stores mem hsh [a, b]).size = hsh.size ∧
    (stores mem hsh [a, b]).bucket (hash_str name % hsh.size)
      = b :: a :: hsh.bucket (hash_str name % hsh.size) := by
  have e1 := store_of_lt mem hsh a (by omega)
  have hwf1 := store_wf mem hsh a hwf
  have hs1 : (_store_symreg mem hsh a).size = hsh.size := by rw [e1]
  have he1 : (_store_symreg mem hsh a).entries = hsh.entries + 1 := by rw [e1]
  have hb1 : (_store_symreg mem hsh a).bucket (hash_str name % hsh.size)
      = a :: hsh.bucket (hash_str name % hsh.size) := by
    rw [e1, pushed_bucket mem hsh a _ _ hwf, ha, if_pos rfl]
  have e2 := store_of_lt mem (_store_symreg mem hsh a) b (by rw [he1, hs1]; omega)
  unfold stores
  rw [List.foldl_cons, List.foldl_cons, List.foldl_nil]
  refine ⟨by rw [e2]; exact hs1, ?_⟩
  rw [e2, pushed_bucket mem _ b _ _ hwf1, hb, hs1, if_pos rfl, hb1]

/-- C32: under the bucket invariant `resize_symhash` reverses the order
inside the buckets.  Every new bucket `j` is filled from the one old
bucket `j mod size`, and of two symbols of a new bucket the one nearer the
head of the old chain is farther from the head of the new chain.  So
`_get_sym` finds after the resize the last symbol of that name on the old
chain where it found the first before: of two symbols of one name, stored
one after the other without a resize, it finds the one stored later
before the resize and the one stored earlier after it. -/
theorem resize_symhash_reverses (mem : List SymReg) (hsh : SymHash) (hwf : hsh.wf)
    (hinv : bucket_inv mem hsh) :
    (∀ j, (resize_symhash mem hsh).bucket j
      = ((hsh.bucket (j % hsh.size)).filter
          (fun r => hash_str (deref mem r).name % (2 * hsh.size) = j)).reverse) ∧
    (∀ j p, p ∈ (resize_symhash mem hsh).bucket j → p ∈ hsh.bucket (j % hsh.size)) ∧
    (∀ j p q, p ∈ (resize_symhash mem hsh).bucket j → q ∈ (resize_symhash mem hsh).bucket j →
      (List.Sublist [p, q] ((resize_symhash mem hsh).bucket j)
        ↔ List.Sublist [q, p] (hsh.bucket (j % hsh.size)))) ∧
    (∀ name,
      _get_sym mem hsh name
        = (hsh.bucket (hash_str name % hsh.size)).find? (fun p => name = (deref mem p).name) ∧
      _get_sym mem (resize_symhash mem hsh) name
        = (hsh.bucket (hash_str name % hsh.size)).reverse.find?
            (fun p => name = (deref mem p).name)) ∧
    (∀ name p q,
      (hsh.bucket (hash_str name % hsh.size)).filter (fun r => name = (deref mem r).name)
        = [p, q] →
      _get_sym mem hsh name = some p ∧ _get_sym mem (resize_symhash mem hsh) name = some q) ∧
    (∀ a b name, (deref mem a).name = name → (deref mem b).name = name →
      _get_sym mem hsh name = none → hsh.entries + 2 < hsh.size →
      _get_sym mem (stores mem hsh [a, b]) name = some b ∧
      _get_sym mem (resize_symhash mem (stores mem hsh [a, b])) name = some a) := by
  have hmemf : ∀ j p, p ∈ (resize_symhash mem hsh).bucket j →
      p ∈ hsh.bucket (j % hsh.size) ∧ hash_str (deref mem p).name % (2 * hsh.size) = j := by
    intro j p hp
    rw [resize_bucket_of_inv mem hsh j hwf hinv, List.mem_reverse, List.mem_filter] at hp
    exact ⟨hp.1, by simpa using hp.2⟩
  refine ⟨fun j => resize_bucket_of_inv mem hsh j hwf hinv, fun j p hp => (hmemf j p hp).1,
    ?_, fun name => ⟨rfl, get_sym_resize mem hsh name hwf hinv⟩, ?_, ?_⟩
  · intro j p q hp hq
    have fp := (hmemf j p hp).2
    have fq := (hmemf j q hq).2
    rw [resize_bucket_of_inv mem hsh j hwf hinv]
    have e : [p, q] = [q, p].reverse := rfl
    rw [e, List.reverse_sublist]
    constructor
    · intro h
      exact h.trans (List.filter_sublist _)
    · intro h
      have h2 := h.filter (fun r => hash_str (deref mem r).name % (2 * hsh.size) = j)
      simpa [fp, fq] using h2
  · intro name p q h
    refine ⟨find?_of_filter_cons _ _ p [q] h, ?_⟩
    rw [get_sym_resize mem hsh name hwf hinv]
    apply find?_of_filter_cons _ _ q [p]
    rw [List.filter_reverse, h]
    rfl
  · intro a b name ha hb hnone he
    obtain ⟨hs, hbk⟩ := stores_two_bucket mem hsh a b name hwf ha hb he
    have hold : ∀ x ∈ hsh.bucket (hash_str name % hsh.size),
        ¬ (decide (name = (deref mem x).name) = true) := by
      unfold _get_sym at hnone
      exact List.find?_eq_none.1 hnone
    constructor
    · unfold _get_sym
      simp only []
      rw [hs, hbk, List.find?_cons_of_pos _ (by simp [hb])]
    · rw [get_sym_resize mem _ name (stores_wf mem hsh _ hwf)
        (stores_bucket_inv mem hsh _ hwf hinv), hs, hbk]
      simp only [List.reverse_cons, List.append_assoc, List.singleton_append, List.find?_append]
      have h1 : (hsh.bucket (hash_str name % hsh.size)).reverse.find?
          (fun p => decide (name = (deref mem p).name)) = none := by
        rw [List.find?_eq_none]
        intro x hx
        exact hold x (List.mem_reverse.1 hx)
      rw [h1, List.find?_cons_of_pos _ (by simp [ha])]
      rfl

/-- C32, witness: the table with the two registers named `x`, stored one
after the other. -/
theorem resize_symhash_reverses_witness :
    two_x.wf ∧ bucket_inv lifo_mem two_x ∧
    ((∀ j, (resize_symhash lifo_mem two_x).bucket j
      = ((two_x.bucket (j % two_x.size)).filter
          (fun r => hash_str (deref lifo_mem r).name % (2 * two_x.size) = j)).reverse) ∧
    (∀ j p, p ∈ (resize_symhash lifo_mem two_x).bucket j → p ∈ two_x.bucket (j % two_x.size)) ∧
    (∀ j p q, p ∈ (resize_symhash lifo_mem two_x).bucket j →
      q ∈ (resize_symhash lifo_mem two_x).bucket j →
      (List.Sublist [p, q] ((resize_symhash lifo_mem two_x).bucket j)
        ↔ List.Sublist [q, p] (two_x.bucket (j % two_x.size)))) ∧
    (∀ name,
      _get_sym lifo_mem two_x name
        = (two_x.bucket (hash_str name % two_x.size)).find?
            (fun p => name = (deref lifo_mem p).name) ∧
      _get_sym lifo_mem (resize_symhash lifo_mem two_x) name
        = (two_x.bucket (hash_str name % two_x.size)).reverse.find?
            (fun p => name = (deref lifo_mem p).name)) ∧
    (∀ name p q,
      (two_x.bucket (hash_str name % two_x.size)).filter
          (fun r => name = (deref lifo_mem r).name) = [p, q] →
      _get_sym lifo_mem two_x name = some p ∧
      _get_sym lifo_mem (resize_symhash lifo_mem two_x) name = some q) ∧
    (∀ a b name, (deref lifo_mem a).name = name → (deref lifo_mem b).name = name →
      _get_sym lifo_mem two_x name = none → two_x.entries + 2 < two_x.size →
      _get_sym lifo_mem (stores lifo_mem two_x [a, b]) name = some b ∧
      _get_sym lifo_mem (resize_symhash lifo_mem (stores lifo_mem two_x [a, b])) name
        = some a)) :=
  ⟨by decide, by decide, resize_symhash_reverses lifo_mem two_x (by decide) (by decide)⟩


/-! ## The components of a key chain and their links -/

theorem next_in_cons_ne (r p : Ptr) (b : List Ptr) (h : r ≠ p) :
    next_in (r :: b) p = next_in b p := by
  rw [next_in, if_neg h]

/-- A store that does not resize leaves the link `next` of every other
symbol as it was. -/
theorem chain_next_store_of_lt (m1 m2 : List SymReg) (hsh : SymHash) (r k : Ptr)
    (hwf : hsh.wf) (he : hsh.entries + 1 < hsh.size) (hrk : r ≠ k)
    (hname : (deref m2 k).name = (deref m1 k).name) :
    chain_next m2 (_store_symreg m2 hsh r) k = chain_next m1 hsh k := by
  unfold chain_next
  rw [store_of_lt m2 hsh r he, pushed_bucket m2 hsh r _ _ hwf, hname]
  simp only []
  split
  · rename_i hj
    rw [← hj, next_in_cons_ne r k _ hrk]
  · rfl

/-- C30 (as amended): `link_keys` never changes the `nextkey` link of a
supplied component.  Of the fields other than the chain link `next` it
changes none, except that the type of the first component gains
`VT_START_SLICE|VT_END_SLICE` when some component carries a slice marker
and the first carries none; a call with no slice marker anywhere leaves
these fields of every component unchanged.  The chain link `next` of a
component stays when the call builds no chain or when the store of the
new head does not fill the table; when the store fills the table, the
table is the resized one, in which the chains are built anew. -/
theorem link_keys_components (st : Interp) (keys : List Ptr) (force : Int)
    (hk : ∀ k ∈ keys, k < st.mem.length) (hok : st.cur_unit_ok) (hwf : st.key_hash.wf) :
    (∀ k ∈ keys,
      (deref (link_keys st keys force).2.mem k).nextkey = (deref st.mem k).nextkey ∧
      deref (link_keys st keys force).2.mem k
        = (if any_slice st.mem keys = true
              ∧ (deref st.mem (keys.headD 0)).type &&& VT_SLICE_BITS = 0 ∧ k = keys.headD 0
           then { deref st.mem k with
             type := (deref st.mem k).type ||| (VT_START_SLICE ||| VT_END_SLICE) }
           else deref st.mem k) ∧
      (any_slice st.mem keys = false →
        deref (link_keys st keys force).2.mem k = deref st.mem k) ∧
      (¬ builds_chain st keys force ∨ st.key_hash.entries + 1 < st.key_hash.size →
        chain_next (link_keys st keys force).2.mem (link_keys st keys force).2.key_hash k
          = chain_next st.mem st.key_hash k)) ∧
    (¬ builds_chain st keys force → (link_keys st keys force).2.key_hash = st.key_hash) ∧
    (builds_chain st keys force → st.key_hash.size ≤ st.key_hash.entries + 1 →
      (link_keys st keys force).2.key_hash
        = resize_symhash (link_keys st keys force).2.mem
            (pushed (link_keys st keys force).2.mem st.key_hash st.mem.length)) := by
  have hnb : ¬ builds_chain st keys force →
      (link_keys st keys force).2.key_hash = st.key_hash ∧
      ∀ p, (deref (link_keys st keys force).2.mem p).name = (deref st.mem p).name := by
    intro hb
    by_cases hne : keys = []
    · subst hne
      exact ⟨rfl, fun _ => rfl⟩
    · by_cases hs : short_circuit st.mem keys force
      · rw [link_keys_short st keys force hs]
        exact ⟨rfl, fun _ => rfl⟩
      · rw [link_keys_eq st keys force hne hs]
        cases ho : (if any_slice st.mem keys = true then none
          else _get_sym (slice_heap st.mem keys) st.key_hash (key_name st.mem keys)) with
        | none => exact absurd ⟨hne, hs, ho⟩ hb
        | some kc => exact ⟨rfl, fun p => slice_heap_name st.mem keys p⟩
  refine ⟨?_, fun hb => (hnb hb).1, ?_⟩
  · intro k hkm
    have h1 := link_keys_old st keys force k (hk k hkm)
    refine ⟨?_, ?_, ?_, ?_⟩
    · rw [h1, (slice_heap_links st.mem keys k).1]
    · rw [h1, slice_heap_deref st.mem keys k hk]
    · intro ha
      rw [h1, slice_heap_of_not _ _ ha]
    · intro hcase
      by_cases hb : builds_chain st keys force
      · have he : st.key_hash.entries + 1 < st.key_hash.size := by
          rcases hcase with h | h
          · exact absurd hb h
          · exact h
        rw [link_keys_built st keys force hb]
        simp only []
        rw [built_state_mem, built_state_key_hash st keys hok, slice_heap_length]
        apply chain_next_store_of_lt _ _ _ _ _ hwf he (Nat.ne_of_gt (hk k hkm))
        rw [chain_heap_deref _ _ _ _ (by rw [slice_heap_length]; exact hk k hkm),
          slice_heap_name]
      · obtain ⟨e1, e2⟩ := hnb hb
        unfold chain_next
        rw [e1, e2]
  · intro hb hge
    rw [link_keys_built st keys force hb]
    simp only []
    rw [built_state_mem, built_state_key_hash st keys hok, slice_heap_length,
      store_of_ge _ _ _ hge]
    rfl

/-- C30, witness: the constants `a` and `b`, the second marked as the end
of a slice. -/
theorem link_keys_components_witness :
    (∀ k ∈ [0, 1], k < end_slice_keys.mem.length) ∧ end_slice_keys.cur_unit_ok ∧
    end_slice_keys.key_hash.wf ∧
    ((∀ k ∈ [0, 1],
      (deref (link_keys end_slice_keys [0, 1] 0).2.mem k).nextkey
        = (deref end_slice_keys.mem k).nextkey ∧
      deref (link_keys end_slice_keys [0, 1] 0).2.mem k
        = (if any_slice end_slice_keys.mem [0, 1] = true
              ∧ (deref end_slice_keys.mem ([0, 1].headD 0)).type &&& VT_SLICE_BITS = 0
              ∧ k = [0, 1].headD 0
           then { deref end_slice_keys.mem k with
             type := (deref end_slice_keys.mem k).type ||| (VT_START_SLICE ||| VT_END_SLICE) }
           else deref end_slice_keys.mem k) ∧
      (any_slice end_slice_keys.mem [0, 1] = false →
        deref (link_keys end_slice_keys [0, 1] 0).2.mem k = deref end_slice_keys.mem k) ∧
      (¬ builds_chain end_slice_keys [0, 1] 0
          ∨ end_slice_keys.key_hash.entries + 1 < end_slice_keys.key_hash.size →
        chain_next (link_keys end_slice_keys [0, 1] 0).2.mem
            (link_keys end_slice_keys [0, 1] 0).2.key_hash k
          = chain_next end_slice_keys.mem end_slice_keys.key_hash k)) ∧
    (¬ builds_chain end_slice_keys [0, 1] 0 →
      (link_keys end_slice_keys [0, 1] 0).2.key_hash = end_slice_keys.key_hash) ∧
    (builds_chain end_slice_keys [0, 1] 0 →
      end_slice_keys.key_hash.size ≤ end_slice_keys.key_hash.entries + 1 →
      (link_keys end_slice_keys [0, 1] 0).2.key_hash
        = resize_symhash (link_keys end_slice_keys [0, 1] 0).2.mem
            (pushed (link_keys end_slice_keys [0, 1] 0).2.mem end_slice_keys.key_hash
              end_slice_keys.mem.length))) :=
  ⟨by decide, by decide, by decide,
    link_keys_components end_slice_keys [0, 1] 0 (by decide) (by decide) (by decide)⟩

/-- C30, counterexample: a table of sixteen buckets that holds fifteen
constants, among them the components `a` and `A`, symbols 0 and 1, on one
chain; no component carries a slice marker.  `link_keys` stores the new
head, which fills the table and resizes it: the chain 9, 1, 0 becomes the
chain 0, 1, so the link `next` of both components has changed. -/
theorem link_keys_resize_relinks :
    table_inv crowded.mem crowded.key_hash ∧ crowded.cur_unit_ok ∧
    (∀ k ∈ [0, 1], k < crowded.mem.length) ∧
    any_slice crowded.mem [0, 1] = false ∧ builds_chain crowded [0, 1] 0 ∧
    crowded.key_hash.bucket 1 = [9, 1, 0] ∧
    (link_keys crowded [0, 1] 0).2.key_hash.bucket 1 = [0, 1] ∧
    chain_next crowded.mem crowded.key_hash 1 = some 0 ∧
    chain_next (link_keys crowded [0, 1] 0).2.mem (link_keys crowded [0, 1] 0).2.key_hash 1
      = none ∧
    chain_next crowded.mem crowded.key_hash 0 = none ∧
    chain_next (link_keys crowded [0, 1] 0).2.mem (link_keys crowded [0, 1] 0).2.key_hash 0
      = some 1 := by
  decide

end Imcc
